import Mathlib

/-!
Verification of the osimager document-composition / token-substitution /
spec-catalog core (src/lib/osimager/{core,utils}.py) against its
natural-language specification.

The Python code is shallowly embedded: JSON-like dynamic values become the
`Value` inductive, Python dicts become association lists with Python's
insertion-order / overwrite-in-place semantics, fallible code returns
`Option` (with `none` standing for a raised exception / `sys.exit`), and
the external collaborators (DNS, vault, environment, filesystem, the
`crypt` salt generator and the family-11 `eval`) are oracle functions
carried in the context structure, exactly at the call sites where the
Python code invokes them.
-/

namespace OSImager

/-- JSON-like dynamic value, as used for all document content and defs. -/
inductive Value where
  | str  : String → Value
  | int  : Int → Value
  | bool : Bool → Value
  | vnull : Value
  | list : List Value → Value
  | dict : List (String × Value) → Value
deriving Repr

mutual

def Value.decEq : (a b : Value) → Decidable (a = b)
  | .str a, .str b =>
    match String.decEq a b with
    | isTrue h => isTrue (by rw [h])
    | isFalse h => isFalse (fun hh => h (Value.str.inj hh))
  | .int a, .int b =>
    match Int.decEq a b with
    | isTrue h => isTrue (by rw [h])
    | isFalse h => isFalse (fun hh => h (Value.int.inj hh))
  | .bool a, .bool b =>
    match Bool.decEq a b with
    | isTrue h => isTrue (by rw [h])
    | isFalse h => isFalse (fun hh => h (Value.bool.inj hh))
  | .vnull, .vnull => isTrue rfl
  | .list a, .list b =>
    match Value.decEqList a b with
    | isTrue h => isTrue (by rw [h])
    | isFalse h => isFalse (fun hh => h (Value.list.inj hh))
  | .dict a, .dict b =>
    match Value.decEqDict a b with
    | isTrue h => isTrue (by rw [h])
    | isFalse h => isFalse (fun hh => h (Value.dict.inj hh))
  | .str _, .int _ => isFalse (by intro h; exact Value.noConfusion h)
  | .str _, .bool _ => isFalse (by intro h; exact Value.noConfusion h)
  | .str _, .vnull => isFalse (by intro h; exact Value.noConfusion h)
  | .str _, .list _ => isFalse (by intro h; exact Value.noConfusion h)
  | .str _, .dict _ => isFalse (by intro h; exact Value.noConfusion h)
  | .int _, .str _ => isFalse (by intro h; exact Value.noConfusion h)
  | .int _, .bool _ => isFalse (by intro h; exact Value.noConfusion h)
  | .int _, .vnull => isFalse (by intro h; exact Value.noConfusion h)
  | .int _, .list _ => isFalse (by intro h; exact Value.noConfusion h)
  | .int _, .dict _ => isFalse (by intro h; exact Value.noConfusion h)
  | .bool _, .str _ => isFalse (by intro h; exact Value.noConfusion h)
  | .bool _, .int _ => isFalse (by intro h; exact Value.noConfusion h)
  | .bool _, .vnull => isFalse (by intro h; exact Value.noConfusion h)
  | .bool _, .list _ => isFalse (by intro h; exact Value.noConfusion h)
  | .bool _, .dict _ => isFalse (by intro h; exact Value.noConfusion h)
  | .vnull, .str _ => isFalse (by intro h; exact Value.noConfusion h)
  | .vnull, .int _ => isFalse (by intro h; exact Value.noConfusion h)
  | .vnull, .bool _ => isFalse (by intro h; exact Value.noConfusion h)
  | .vnull, .list _ => isFalse (by intro h; exact Value.noConfusion h)
  | .vnull, .dict _ => isFalse (by intro h; exact Value.noConfusion h)
  | .list _, .str _ => isFalse (by intro h; exact Value.noConfusion h)
  | .list _, .int _ => isFalse (by intro h; exact Value.noConfusion h)
  | .list _, .bool _ => isFalse (by intro h; exact Value.noConfusion h)
  | .list _, .vnull => isFalse (by intro h; exact Value.noConfusion h)
  | .list _, .dict _ => isFalse (by intro h; exact Value.noConfusion h)
  | .dict _, .str _ => isFalse (by intro h; exact Value.noConfusion h)
  | .dict _, .int _ => isFalse (by intro h; exact Value.noConfusion h)
  | .dict _, .bool _ => isFalse (by intro h; exact Value.noConfusion h)
  | .dict _, .vnull => isFalse (by intro h; exact Value.noConfusion h)
  | .dict _, .list _ => isFalse (by intro h; exact Value.noConfusion h)

def Value.decEqList : (a b : List Value) → Decidable (a = b)
  | [], [] => isTrue rfl
  | [], _ :: _ => isFalse (by simp)
  | _ :: _, [] => isFalse (by simp)
  | a :: as, b :: bs =>
    match Value.decEq a b with
    | isTrue h1 =>
      match Value.decEqList as bs with
      | isTrue h2 => isTrue (by rw [h1, h2])
      | isFalse h2 => isFalse (by intro hh; exact h2 (List.cons.inj hh).2)
    | isFalse h1 => isFalse (by intro hh; exact h1 (List.cons.inj hh).1)

def Value.decEqDict : (a b : List (String × Value)) → Decidable (a = b)
  | [], [] => isTrue rfl
  | [], _ :: _ => isFalse (by simp)
  | _ :: _, [] => isFalse (by simp)
  | (k1, v1) :: as, (k2, v2) :: bs =>
    match String.decEq k1 k2 with
    | isTrue hk =>
      match Value.decEq v1 v2 with
      | isTrue hv =>
        match Value.decEqDict as bs with
        | isTrue h2 => isTrue (by rw [hk, hv, h2])
        | isFalse h2 => isFalse (by intro hh; exact h2 (List.cons.inj hh).2)
      | isFalse hv => isFalse (by
          intro hh
          exact hv (congrArg Prod.snd (List.cons.inj hh).1))
    | isFalse hk => isFalse (by
        intro hh
        exact hk (congrArg Prod.fst (List.cons.inj hh).1))

end

instance : DecidableEq Value := Value.decEq

/-- A loaded document / Python dict with string keys, in insertion order. -/
abbrev Dict := List (String × Value)

/-- `d.get(k)` — first binding wins (keys are kept unique by `dset`). -/
def dget (d : Dict) (k : String) : Option Value :=
  match d with
  | [] => none
  | (k0, v0) :: rest => if k0 = k then some v0 else dget rest k

/-- `d[k] = v` — overwrite in place if present, else append (Python dict). -/
def dset (d : Dict) (k : String) (v : Value) : Dict :=
  match d with
  | [] => [(k, v)]
  | (k0, v0) :: rest => if k0 = k then (k0, v) :: rest else (k0, v0) :: dset rest k v

/-- `d1.update(d2)` — Python dict update. -/
def dupdate (d1 d2 : Dict) : Dict :=
  d2.foldl (fun acc kv => dset acc kv.1 kv.2) d1

/-- `d.pop(k, default)` — value (or default) plus the dict without `k`. -/
def dpop (d : Dict) (k : String) (dflt : Value) : Value × Dict :=
  match dget d k with
  | some v => (v, d.filter (fun kv => kv.1 ≠ k))
  | none => (dflt, d)

/-- `k in d` for a Python dict. -/
def dmem (d : Dict) (k : String) : Bool :=
  (dget d k).isSome

/-- Python truthiness of a `Value` (`bool(v)`). -/
def pyTruthy : Value → Bool
  | .str s => !s.isEmpty
  | .int i => i ≠ 0
  | .bool b => b
  | .vnull => false
  | .list l => !l.isEmpty
  | .dict d => !d.isEmpty

/-! ## Python string primitives (over `List Char` internally) -/

/-- Python `str.strip()` whitespace set (ASCII). -/
def isPySpace (c : Char) : Bool :=
  c = ' ' || c = '\t' || c = '\n' || c = '\r' || c = Char.ofNat 11 || c = Char.ofNat 12

/-- Python `s.strip()`. -/
def pyStrip (s : String) : String :=
  ⟨((s.data.dropWhile isPySpace).reverse.dropWhile isPySpace).reverse⟩

/-- `pat` occurs contiguously inside `s`. -/
def listInfix (pat : List Char) : List Char → Bool
  | [] => pat.isEmpty
  | c :: cs => pat.isPrefixOf (c :: cs) || listInfix pat cs

/-- Python `sub in s` (substring containment). -/
def strContains (s sub : String) : Bool :=
  listInfix sub.data s.data

/-- Split `s` at the first occurrence of (nonempty) `pat`:
`some (before, after)`, or `none` when `pat` does not occur. -/
def splitFirst (pat : List Char) : List Char → Option (List Char × List Char)
  | [] => if pat.isEmpty then some ([], []) else none
  | c :: cs =>
    if pat.isPrefixOf (c :: cs) then some ([], (c :: cs).drop pat.length)
    else
      match splitFirst pat cs with
      | some (pre, post) => some (c :: pre, post)
      | none => none

theorem splitFirst_length {pat s pre post : List Char}
    (h : splitFirst pat s = some (pre, post)) :
    pre.length + pat.length + post.length = s.length := by
  induction s generalizing pre post with
  | nil =>
    rcases pat with _ | ⟨a, l⟩
    · simp only [splitFirst, List.isEmpty_nil, if_pos, Option.some.injEq, Prod.mk.injEq] at h
      obtain ⟨h1, h2⟩ := h
      subst h1; subst h2; simp
    · simp [splitFirst] at h
  | cons c cs ih =>
    unfold splitFirst at h
    by_cases hp : pat.isPrefixOf (c :: cs)
    · rw [if_pos hp] at h
      simp only [Option.some.injEq, Prod.mk.injEq] at h
      obtain ⟨h1, h2⟩ := h
      have hpre : pat <+: (c :: cs) := List.isPrefixOf_iff_prefix.mp hp
      have hlen : pat.length ≤ (c :: cs).length := hpre.length_le
      subst h1; subst h2
      simp only [List.length_drop, List.length_nil]
      omega
    · rw [if_neg hp] at h
      cases hsf : splitFirst pat cs with
      | none => rw [hsf] at h; exact absurd h (by simp)
      | some pr =>
        rcases pr with ⟨pre1, post1⟩
        rw [hsf] at h
        simp only [Option.some.injEq, Prod.mk.injEq] at h
        obtain ⟨h1, h2⟩ := h
        subst h2
        have := ih hsf
        subst h1
        simp only [List.length_cons]
        omega

/-- Fuelled scanner for `extractLine`: each step consumes at least one
character (the delimiters are nonempty), so `length + 1` fuel never runs
out. -/
def extractLineF (startP endP : List Char) : Nat → List Char → List (List Char)
  | 0, _ => []
  | fuel + 1, s =>
    match splitFirst startP s with
    | none => []
    | some (_, rest) =>
      match splitFirst endP rest with
      | none => []
      | some (tok, rest2) => tok :: extractLineF startP endP fuel rest2

/-- All tokens between `startP`/`endP` on one line, leftmost, shortest,
non-overlapping — the semantics of
`re.findall(re.escape(start) + r'(.*?)' + re.escape(end), line)`. -/
def extractLine (startP endP : List Char) (s : List Char) : List (List Char) :=
  if startP.isEmpty || endP.isEmpty then []
  else extractLineF startP endP (s.length + 1) s

/-- Python `str.splitlines()` restricted to `\n`, `\r`, `\r\n` terminators
(no trailing empty line for a trailing terminator). -/
def splitlinesGo (cur : List Char) : List Char → List (List Char)
  | [] => [cur.reverse]
  | [c] =>
    if c = '\r' || c = '\n' then [cur.reverse] else [(c :: cur).reverse]
  | c :: c2 :: rest =>
    if c = '\r' then
      if c2 = '\n' then
        match rest with
        | [] => [cur.reverse]
        | _ :: _ => cur.reverse :: splitlinesGo [] rest
      else cur.reverse :: splitlinesGo [] (c2 :: rest)
    else if c = '\n' then cur.reverse :: splitlinesGo [] (c2 :: rest)
    else splitlinesGo (c :: cur) (c2 :: rest)

def pySplitlines (s : String) : List (List Char) :=
  if s.data.isEmpty then [] else splitlinesGo [] s.data

/-- `extract_all(text, start_pat, end_pat)` from utils.py: per-line
non-overlapping lazy matches, concatenated over the lines. -/
def extract_all (text startP endP : String) : List String :=
  ((pySplitlines text).map (extractLine startP.data endP.data)).flatten.map (⟨·⟩)

/-- `isvarname(word)` from utils.py. -/
def isvarname (word : String) : Bool :=
  !word.isEmpty
    && word.data.all (fun c => c.isAlphanum || c = '_' || c = '/' || c = ',' || c = ':')
    && !word.data.contains ' '

/-- Apostrophe character (as a string). -/
def sq : Char := Char.ofNat 39

/-- Python `tok.strip('"\'')` — strip quote characters from both ends. -/
def stripQuotes (s : String) : String :=
  let isq : Char → Bool := fun c => c = '"' || c = sq
  ⟨((s.data.dropWhile isq).reverse.dropWhile isq).reverse⟩

/-- Fuelled replacement scanner: each step consumes at least one
character (the pattern is nonempty at every call site), so `length + 1`
fuel never runs out. -/
def replaceAllF (pat rep : List Char) : Nat → List Char → List Char
  | 0, s => s
  | _ + 1, [] => []
  | fuel + 1, c :: cs =>
    if pat.isPrefixOf (c :: cs) then
      rep ++ replaceAllF pat rep fuel ((c :: cs).drop pat.length)
    else c :: replaceAllF pat rep fuel cs

/-- Python `s.replace(old, new)` — all occurrences, leftmost,
non-overlapping. -/
def pyReplace (s pat rep : String) : String :=
  if pat.data.isEmpty then s
  else ⟨replaceAllF pat.data rep.data (s.data.length + 1) s.data⟩

/-- `s.startswith(pre)`. -/
def pyStartsWith (s pre : String) : Bool := pre.data.isPrefixOf s.data

/-- `s.endswith(suf)`. -/
def pyEndsWith (s suf : String) : Bool := suf.data.isSuffixOf s.data

mutual

/-- Python `repr()` on our values (string escaping abstracted: a string is
shown between plain single quotes). -/
def pyRepr : Value → String
  | .str s => String.singleton sq ++ s ++ String.singleton sq
  | .int i => toString i
  | .bool b => if b then "True" else "False"
  | .vnull => "None"
  | .list l => "[" ++ pyReprItems l ++ "]"
  | .dict d => "\x7b" ++ pyReprPairs d ++ "\x7d"

/-- The `", "`-separated element list of a `repr`-ed Python list. -/
def pyReprItems : List Value → String
  | [] => ""
  | [v] => pyRepr v
  | v :: w :: rest => pyRepr v ++ ", " ++ pyReprItems (w :: rest)

/-- The `", "`-separated `'key': value` list of a `repr`-ed Python dict. -/
def pyReprPairs : List (String × Value) → String
  | [] => ""
  | [(k, v)] => String.singleton sq ++ k ++ String.singleton sq ++ ": " ++ pyRepr v
  | (k, v) :: kv2 :: rest =>
    String.singleton sq ++ k ++ String.singleton sq ++ ": " ++ pyRepr v ++ ", "
      ++ pyReprPairs (kv2 :: rest)

end

/-- Python `str()` on our values. -/
def pyStr : Value → String
  | .str s => s
  | v => pyRepr v

/-- Python `str.split()` (split on whitespace runs, no empty items). -/
def pySplitWSGo (cur : List Char) : List Char → List String
  | [] => if cur.isEmpty then [] else [⟨cur.reverse⟩]
  | c :: rest =>
    if isPySpace c then
      if cur.isEmpty then pySplitWSGo [] rest
      else ⟨cur.reverse⟩ :: pySplitWSGo [] rest
    else pySplitWSGo (c :: cur) rest

def pySplitWS (s : String) : List String := pySplitWSGo [] s.data

/-- `os.path.basename` for POSIX paths: the part after the last slash. -/
def basename (s : String) : String :=
  ⟨(s.data.reverse.takeWhile (fun c => c ≠ '/')).reverse⟩

/-- Split at the first occurrence of `c`: `some (before, after)`. -/
def splitAtFirst (c : Char) (s : String) : Option (String × String) :=
  match splitFirst [c] s.data with
  | some (pre, post) => some (⟨pre⟩, ⟨post⟩)
  | none => none

/-! ## The substitution context

The `Imager` structure carries the defs environment plus the external
collaborators the resolvers call (DNS, vault, environment, `crypt`, the
family-11 host `eval`), each modelled as an oracle function at exactly the
call boundary where the Python code leaves the process. -/

structure Imager where
  defs : Dict
  /-- whether `imager.vault` is a configured client (truthy). -/
  vaultConfigured : Bool := false
  /-- `vault.secrets.kv.v1.read_secret(path, mount_point)`:
  `none` models a raised exception. -/
  vaultRead : String → String → Option Dict := fun _ _ => none
  /-- `get_ip`'s resolver: `none` models the caught lookup failure. -/
  dns : String → Option String := fun _ => none
  /-- `os.getenv(var, '')`. -/
  env : String → String := fun _ => ""
  /-- `crypt.crypt(password, crypt.mksalt(method))` for `hash_password`:
  (method, password) ↦ salted hash; the fresh random salt is abstracted
  into this oracle. -/
  hashpw : String → String → String := fun _ _ => ""
  /-- host-language `eval` used by family 11 (`eval_expression_safe`);
  `none` models a raised exception. -/
  pyeval : String → Option Value := fun _ => none

/-- `_get_vault(vault, string)` from utils.py. `hasVault` is the truthiness
of the `vault` argument. Error paths print and return `""`. -/
def _get_vault (ctx : Imager) (hasVault : Bool) (string : String) : Value :=
  if !hasVault then .str ""
  else
    let (full_path, subkey?) :=
      match splitAtFirst ':' string with
      | some (a, b) => (a, some b)
      | none => (string, none)
    match splitAtFirst '/' full_path with
    | none => .str ""
    | some (mount_point, secret_path) =>
      match ctx.vaultRead mount_point secret_path with
      | none => .str ""
      | some data =>
        match subkey? with
        | some k => (dget data k).getD .vnull
        | none => .str (pyStr (.dict data))

/-- `get_vault(vault, string)` from utils.py. -/
def get_vault (ctx : Imager) (hasVault : Bool) (string : String) : Value :=
  _get_vault ctx hasVault string

/-- `hash_password(password, method)`; `none` models the `TypeError` that
`crypt.crypt` raises on a non-string password. -/
def hash_password (ctx : Imager) (password : Value) (method : String) : Option Value :=
  if method ≠ "md5" ∧ method ≠ "sha256" ∧ method ≠ "sha512" then none
  else
    match password with
    | .str s => some (.str (ctx.hashpw method s))
    | _ => none

/-! ## `eval_expression` (marker family 6) -/

/-- `re.split('(\+|\-|\*|/)', expr)` — split keeping the operators, so the
result alternates text chunk, operator, text chunk, …. -/
def pySplitKeepOpsGo (cur : List Char) : List Char → List String
  | [] => [⟨cur.reverse⟩]
  | c :: rest =>
    if c = '+' || c = '-' || c = '*' || c = '/' then
      ⟨cur.reverse⟩ :: String.singleton c :: pySplitKeepOpsGo [] rest
    else pySplitKeepOpsGo (c :: cur) rest

def pySplitKeepOps (s : String) : List String := pySplitKeepOpsGo [] s.data

/-- The operand-substitution loop of `eval_expression`: look every chunk up
in `defs`; a missing or falsy value aborts (`none`, Python returns `""`);
otherwise concatenate the values' string forms with the operators. -/
def buildExpr (defs : Dict) : List String → Option String
  | [] => some ""
  | [k] =>
    match dget defs k with
    | some v => if pyTruthy v then some (pyStr v) else none
    | none => none
  | k :: d :: rest =>
    match dget defs k with
    | some v =>
      if pyTruthy v then
        match buildExpr defs rest with
        | some r => some (pyStr v ++ d ++ r)
        | none => none
      else none
    | none => none

/-- Arithmetic token. -/
inductive ATok where
  | num (n : Nat)
  | op (c : Char)
deriving Repr, DecidableEq

def digitsToNat (ds : List Char) : Nat :=
  ds.foldl (fun acc c => acc * 10 + (c.toNat - 48)) 0

/-- Take the maximal digit-run prefix and return it with the remainder. -/
def spanDigits : List Char → (List Char × List Char)
  | [] => ([], [])
  | c :: rest =>
    if c.isDigit then (c :: (spanDigits rest).1, (spanDigits rest).2)
    else ([], c :: rest)

theorem spanDigits_length (s : List Char) : (spanDigits s).2.length ≤ s.length := by
  induction s with
  | nil => simp [spanDigits]
  | cons c rest ih =>
    by_cases h : c.isDigit
    · simp only [spanDigits, if_pos h]
      simp only [List.length_cons]
      omega
    · simp [spanDigits, h]

/-- Lexer for the strings `eval` receives from `eval_expression`:
decimal integer literals, the four operators, whitespace. Anything else
makes the `eval` fail (`none`). -/
def lexArith : List Char → Option (List ATok)
  | [] => some []
  | c :: rest =>
    if isPySpace c then lexArith rest
    else if c.isDigit then
      match lexArith (spanDigits rest).2 with
      | some ts => some (.num (digitsToNat (c :: (spanDigits rest).1)) :: ts)
      | none => none
    else if c = '+' || c = '-' || c = '*' || c = '/' then
      match lexArith rest with
      | some ts => some (.op c :: ts)
      | none => none
    else none
termination_by s => s.length
decreasing_by
  · simp
  · simp only [List.length_cons]
    exact Nat.lt_succ_of_le (spanDigits_length _)
  · simp

/-- Parse a signed atom (`('+'|'-')* number`). -/
def parseFactor : List ATok → Option (Rat × List ATok)
  | [] => none
  | .num n :: rest => some ((n : Rat), rest)
  | .op c :: rest =>
    if c = '+' then parseFactor rest
    else if c = '-' then
      match parseFactor rest with
      | some (q, r) => some (-q, r)
      | none => none
    else none

theorem parseFactor_length {l r : List ATok} {q : Rat}
    (h : parseFactor l = some (q, r)) : r.length < l.length := by
  induction l generalizing q with
  | nil => simp [parseFactor] at h
  | cons t rest ih =>
    cases t with
    | num n =>
      simp only [parseFactor, Option.some.injEq, Prod.mk.injEq] at h
      simp [← h.2]
    | op c =>
      by_cases hc : c = '+'
      · subst hc
        simp only [parseFactor, if_pos rfl] at h
        exact Nat.lt_succ_of_lt (ih (by simpa using h))
      · by_cases hm : c = '-'
        · subst hm
          simp only [parseFactor] at h
          rw [if_true] at h
          cases hp : parseFactor rest with
          | none => rw [hp] at h; exact absurd h (by simp)
          | some pr =>
            rcases pr with ⟨q1, r1⟩
            rw [hp] at h
            simp at h
            obtain ⟨h1, h2⟩ := h
            subst h2
            exact Nat.lt_succ_of_lt (ih hp)
        · simp only [parseFactor, if_neg hc, if_neg hm] at h
          simp at h

/-- Evaluate `+`/`-`/`*`/`/` with standard precedence, left to right, over
exact rationals. `acc` is the sum so far, `pending` the current product
term. CPython evaluates `/` in IEEE-754 doubles, so the rational model is
faithful exactly on the division-free fragment (where CPython computes in
arbitrary-precision `int` arithmetic, `+`/`-`/`*` only) and on division by
zero (both sides raise); an inexact division (`int(eval("1/49*49"))` is
`0` in Python) is outside the model, and every theorem below that
exercises this evaluator either carries a division-free hypothesis or
stays on the division-by-zero path. -/
def evalToks (acc pending : Rat) : List ATok → Option Rat
  | [] => some (acc + pending)
  | .num _ :: _ => none
  | .op c :: rest =>
    match h : parseFactor rest with
    | none => none
    | some (f, r2) =>
      if c = '+' then evalToks (acc + pending) f r2
      else if c = '-' then evalToks (acc + pending) (-f) r2
      else if c = '*' then evalToks acc (pending * f) r2
      else if c = '/' then (if f = 0 then none else evalToks acc (pending / f) r2)
      else none
termination_by l => l.length
decreasing_by
  all_goals
    exact Nat.lt_succ_of_lt (parseFactor_length h)

/-- `int()` applied to the (rational) result: truncation toward zero. -/
def ratTrunc (q : Rat) : Int :=
  if 0 ≤ q then ⌊q⌋ else ⌈q⌉

/-- `int(eval(new_expr))` on the arithmetic fragment; `none` models any
raised exception. Inherits `evalToks`' scope: faithful on division-free
expressions and on division by zero, with inexact division outside the
model (guarded by hypothesis in every theorem that uses it). -/
def evalArithInt (s : String) : Option Int :=
  match lexArith s.data with
  | none => none
  | some toks =>
    match parseFactor toks with
    | none => none
    | some (f, rest) =>
      match evalToks 0 f rest with
      | some q => some (ratTrunc q)
      | none => none

/-- `eval_expression(expr, defs)` from utils.py. A missing or falsy operand
prints an error and returns `""`; a failed `eval` returns an
`<eval-error:…>` string (the interpolated Python exception text is
abstracted away here). -/
def eval_expression (expr : String) (defs : Dict) : Value :=
  match buildExpr defs (pySplitKeepOps expr) with
  | none => .str ""
  | some new_expr =>
    match evalArithInt new_expr with
    | some n => .int n
    | none => .str "<eval-error>"

/-- `get_env(varname)`. -/
def get_env (ctx : Imager) (varname : String) : String := ctx.env varname

/-- `insert_list_items(token, imager)` from utils.py. -/
def insert_list_items (token : String) (ctx : Imager) : Value :=
  match dget ctx.defs token with
  | none => .list []
  | some v =>
    match v with
    | .list items => .list items
    | .str s =>
      .list ((pySplitWS (pyReplace s "," " ")).filterMap (fun item =>
        let t := pyStrip item
        if t.isEmpty then none else some (Value.str t)))
    | other => .list [.str (pyStr other)]

/-- `get_default(defs, key, action, vault)` from utils.py. `vault` is the
truthiness of the vault argument; `none` models a raised exception
(`os.path.basename` on a non-string). -/
def get_default (ctx : Imager) (key : String) (action : Nat) (vault : Bool) : Option Value :=
  let val := (dget ctx.defs key).getD (.str "")
  if action = 1 ∨ action = 2 then some val
  else if action = 3 then
    match val with
    | .str s => some (.str (basename s))
    | _ => none
  else if action = 4 then
    match val with
    | .str s =>
      some (match ctx.dns s with
            | some addr => .str addr
            | none => .vnull)
    | _ => some .vnull
  else if action = 5 then
    some (if vault then get_vault ctx true key else .str "")
  else if action = 7 then some (.str (get_env ctx key))
  else some (.str "")

/-- The `>>name<<` pre-substitution of `eval_expression_safe`
(`re.findall(r'>>(.*?)<<', token)`, matches never cross a newline). -/
def findall_markers (s : String) : List String :=
  ((s.data.splitOn '\n').map (extractLine ">>".data "<<".data)).flatten.map (⟨·⟩)

/-- `eval_expression_safe(token, imager)`: substitute `>>name<<`
placeholders (missing names become `<MISSING:name>`), then hand the text
to the host `eval` oracle; its exception (`none`) propagates (re-raised). -/
def eval_expression_safe (token : String) (ctx : Imager) : Option Value :=
  let processed := (findall_markers token).foldl (fun acc m =>
    let value := (dget ctx.defs m).getD (.str ("<MISSING:" ++ m ++ ">"))
    pyReplace acc (">>" ++ m ++ "<<") (pyStr value)) token
  ctx.pyeval processed

/-- The `ACTION_HANDLERS` dispatch table. -/
def action_handler (action : Nat) (token : String) (ctx : Imager) : Option Value :=
  if action = 1 then get_default ctx token 1 false
  else if action = 2 then get_default ctx token 2 false
  else if action = 3 then get_default ctx token 3 false
  else if action = 4 then get_default ctx token 4 false
  else if action = 5 then get_default ctx token 5 ctx.vaultConfigured
  else if action = 6 then some (eval_expression token ctx.defs)
  else if action = 7 then some (.str (get_env ctx token))
  else if action = 8 then hash_password ctx (get_vault ctx ctx.vaultConfigured token) "md5"
  else if action = 9 then hash_password ctx (get_vault ctx ctx.vaultConfigured token) "sha256"
  else if action = 10 then hash_password ctx (get_vault ctx ctx.vaultConfigured token) "sha512"
  else if action = 11 then eval_expression_safe token ctx
  else if action = 12 then some (insert_list_items token ctx)
  else none

/-- The `ACTIONS` marker-delimiter table, in application order. -/
def ACTIONS : List (Nat × String × String) :=
  [(1, "%>", "<%"), (2, ">>", "<<"), (3, "+>", "<+"), (4, "*>", "<*"),
   (5, "|>", "<|"), (6, "#>", "<#"), (7, "$>", "<$"), (8, "1>", "<1"),
   (9, "5>", "<5"), (10, "6>", "<6"), (11, "E>", "<E"), (12, "[>", "<]")]

/-- Outcome of processing one family's token list: either the updated
string, or an early whole-string return with the raw value. -/
inductive SubstStep where
  | more (s : String)
  | done (v : Value)
deriving Repr, DecidableEq

/-- The inner token loop of `do_substr` for one family.
`none` models an exception raised by a resolver. -/
def substrTokens (ctx : Imager) (action : Nat) (startP endP : String) :
    String → List String → Option SubstStep
  | result, [] => some (.more result)
  | result, tok :: rest =>
    let key := if action = 2 || action = 11 then tok else stripQuotes tok
    if action ≠ 6 ∧ action ≠ 11 ∧ isvarname key = false then
      substrTokens ctx action startP endP result rest
    else
      match action_handler action key ctx with
      | none => none
      | some repl0 =>
        let repl := match repl0 with
          | .vnull => Value.str ""
          | r => r
        match repl with
        | .bool false => substrTokens ctx action startP endP result rest
        | _ =>
          let full := startP ++ tok ++ endP
          if pyStrip result = full then some (.done repl)
          else substrTokens ctx action startP endP (pyReplace result full (pyStr repl)) rest

/-- The outer family loop of `do_substr`. -/
def substrActions (ctx : Imager) : String → List (Nat × String × String) → Option Value
  | result, [] => some (.str result)
  | result, (a, sp, ep) :: rest =>
    let toks := extract_all result sp ep
    match substrTokens ctx a sp ep result toks with
    | none => none
    | some (.done v) => some v
    | some (.more r) => substrActions ctx r rest

/-- `do_substr(text, imager)` from utils.py. -/
def do_substr (text : String) (ctx : Imager) : Option Value :=
  if !strContains text ">" && !strContains text "+" then some (.str text)
  else substrActions ctx text ACTIONS

/-- `elem.strip()[2:-2]` — the token of a list-insertion element. -/
def stripSlice (s : String) : String :=
  let t := (pyStrip s).data
  ⟨(t.drop 2).take (t.length - 4)⟩

mutual

/-- `do_sub(item, inst)` from utils.py, the structural resolver. The
Python `tuple`/`set` branches have no counterpart in JSON-shaped `Value`s.
A dict key that resolves to a non-string is outside the model (`none`). -/
def do_sub (item : Value) (ctx : Imager) : Option Value :=
  match item with
  | .dict kvs =>
    match do_sub_pairs kvs ctx with
    | some ps => some (.dict (ps.foldl (fun acc kv => dset acc kv.1 kv.2) []))
    | none => none
  | .list l =>
    match do_sub_elems l ctx with
    | some es => some (.list es)
    | none => none
  | .str s => do_substr s ctx
  | v => some v

/-- The dict comprehension `{do_sub(key): do_sub(value)}` (pair list;
the caller folds it into a dict, later duplicates overwriting). -/
def do_sub_pairs (kvs : List (String × Value)) (ctx : Imager) :
    Option (List (String × Value)) :=
  match kvs with
  | [] => some []
  | (k, v) :: rest =>
    match do_substr k ctx with
    | some (.str k2) =>
      match do_sub v ctx with
      | some v2 =>
        match do_sub_pairs rest ctx with
        | some rest2 => some ((k2, v2) :: rest2)
        | none => none
      | none => none
    | _ => none

/-- The list loop of `do_sub`, with the list-insertion splice rule. -/
def do_sub_elems (l : List Value) (ctx : Imager) : Option (List Value) :=
  match l with
  | [] => some []
  | elem :: rest =>
    let normal : Option (List Value) :=
      match do_sub elem ctx with
      | some e2 =>
        match do_sub_elems rest ctx with
        | some rest2 => some (e2 :: rest2)
        | none => none
      | none => none
    match elem with
    | .str s =>
      if strContains s "[>" && strContains s "<]" then
        if pyStartsWith (pyStrip s) "[>" && pyEndsWith (pyStrip s) "<]" then
          let token := stripSlice s
          match dget ctx.defs token with
          | some (.list items) =>
            match do_sub_elems rest ctx with
            | some rest2 => some (items ++ rest2)
            | none => none
          | some _ => normal
          | none => do_sub_elems rest ctx
        else normal
      else normal
    | _ => normal

end

end OSImager

namespace OSImager

/-! ## Compositor and DocumentLoader (core.py `load_data`, `load_specific`,
`load_inc`, `load_file`, `load_data_file`) -/

/-- The mutable per-build context fields of the `OSImager` object that
`load_data` writes (`init_vars`' section attributes, with their initial
values). -/
structure Ctx where
  files : Value := .list []
  evars : Value := .dict []
  defs : Value := .dict []
  variables_ : Value := .dict []
  pre_provisioners : Value := .list []
  provisioners : Value := .list []
  post_provisioners : Value := .list []
  config : Value := .dict []
deriving Repr, DecidableEq

/-- The fixed sec list of `load_data`. -/
def SECTIONS : List String :=
  ["files", "evars", "defs", "variables", "pre_provisioners", "provisioners",
   "post_provisioners", "config"]

/-- `getattr(self, sec)` for the sec attributes. -/
def Ctx.get (ctx : Ctx) : String → Value
  | "files" => ctx.files
  | "evars" => ctx.evars
  | "defs" => ctx.defs
  | "variables" => ctx.variables_
  | "pre_provisioners" => ctx.pre_provisioners
  | "provisioners" => ctx.provisioners
  | "post_provisioners" => ctx.post_provisioners
  | "config" => ctx.config
  | _ => .vnull

/-- `setattr(self, sec, v)` for the sec attributes. -/
def Ctx.set (ctx : Ctx) (sec : String) (v : Value) : Ctx :=
  if sec = "files" then { ctx with files := v }
  else if sec = "evars" then { ctx with evars := v }
  else if sec = "defs" then { ctx with defs := v }
  else if sec = "variables" then { ctx with variables_ := v }
  else if sec = "pre_provisioners" then { ctx with pre_provisioners := v }
  else if sec = "provisioners" then { ctx with provisioners := v }
  else if sec = "post_provisioners" then { ctx with post_provisioners := v }
  else if sec = "config" then { ctx with config := v }
  else ctx

/-- Python iteration over a value (`extend`, `for … in`): a list yields its
items, a string its characters, a dict its keys; anything else raises
(`none`). -/
def iterValue : Value → Option (List Value)
  | .list l => some l
  | .str s => some (s.data.map (fun c => .str (String.singleton c)))
  | .dict d => some (d.map (fun kv => .str kv.1))
  | _ => none

/-- The keys Python's `for key in merge` loop can act on. Non-string
hashable elements (ints, bools, None) can never be present in a
string-keyed dict, so their iterations are no-ops and are dropped here;
unhashable elements (lists, dicts) raise on `new_val.pop(key)`. -/
def mergeKeysOf : Value → Option (List String)
  | .list l =>
    l.foldr (fun v acc =>
      match acc with
      | none => none
      | some ks =>
        match v with
        | .str k => some (k :: ks)
        | .int _ => some ks
        | .bool _ => some ks
        | .vnull => some ks
        | _ => none) (some [])
  | .str s => some (s.data.map String.singleton)
  | .dict d => some (d.map Prod.fst)
  | _ => none

/-- One iteration of `load_data`'s targeted deep-merge loop
(`for key in merge`), acting on the sec attribute and on the (mutated)
sec value. Any non-dict attribute reaches an item read/assignment
that raises (`none`). A `dict.update` with a non-dict argument is also
`none` (the Python pair-list corner is outside the JSON data model). -/
def mergeOneKey (attr : Value) (nv : Dict) (k : String) : Option (Value × Dict) :=
  let (key_val, nv2) := dpop nv k .vnull
  if !pyTruthy key_val then some (attr, nv2)
  else
    match attr with
    | .dict da =>
      match dget da k with
      | some (.dict sub) =>
        match key_val with
        | .dict kvd => some (.dict (dset da k (.dict (dupdate sub kvd))), nv2)
        | _ => none
      | some (.list sub) =>
        match iterValue key_val with
        | some items => some (.dict (dset da k (.list (sub ++ items))), nv2)
        | none => none
      | some _ => some (.dict (dset da k key_val), nv2)
      | none => some (.dict (dset da k key_val), nv2)
    | _ => none

def mergeKeys (attr : Value) (nv : Dict) : List String → Option (Value × Dict)
  | [] => some (attr, nv)
  | k :: ks =>
    match mergeOneKey attr nv k with
    | some (attr2, nv2) => mergeKeys attr2 nv2 ks
    | none => none

/-- The unconditional second phase of a sec application: dict sections
shallow-update, list sections clear (unless merging) and extend, other
attribute shapes are assigned directly. -/
def applyPhase2 (methodIsMerge : Bool) (ctx : Ctx) (sec : String)
    (attr newVal : Value) : Option Ctx :=
  match attr with
  | .dict da =>
    match newVal with
    | .dict nvd => some (ctx.set sec (.dict (dupdate da nvd)))
    | _ => none
  | .list la =>
    match iterValue newVal with
    | some items =>
      let base := if methodIsMerge then la else []
      some (ctx.set sec (.list (base ++ items)))
    | none => none
  | _ => some (ctx.set sec newVal)

/-- Process one sec of `load_data` (both phases), threading the
context and the mutated document. -/
def applyOneSection (methodIsMerge : Bool) (ctx : Ctx) (data : Dict)
    (sec : String) : Option (Ctx × Dict) :=
  match dget data sec with
  | none => some (ctx, data)
  | some .vnull => some (ctx, data)
  | some newVal =>
    let attr := ctx.get sec
    match newVal with
    | .dict nv0 =>
      let (mergeV, nv1) := dpop nv0 "merge" (.list [])
      match mergeKeysOf mergeV with
      | none => none
      | some ks =>
        match mergeKeys attr nv1 ks with
        | none => none
        | some (attr2, nv2) =>
          let ctx1 := ctx.set sec attr2
          let data2 := dset data sec (.dict nv2)
          match applyPhase2 methodIsMerge ctx1 sec attr2 (.dict nv2) with
          | some ctx2 => some (ctx2, data2)
          | none => none
    | _ =>
      match applyPhase2 methodIsMerge ctx sec attr newVal with
      | some ctx2 => some (ctx2, data)
      | none => none

def applySections (methodIsMerge : Bool) (ctx : Ctx) (data : Dict) :
    List String → Option (Ctx × Dict)
  | [] => some (ctx, data)
  | s :: rest =>
    match applyOneSection methodIsMerge ctx data s with
    | some (ctx2, data2) => applySections methodIsMerge ctx2 data2 rest
    | none => none

/-- Case-insensitive lowering (ASCII). -/
def pyLower (s : String) : String := String.mk (s.data.map Char.toLower)

/-- Regex metacharacters. -/
def regexSpecials : List Char :=
  [Char.ofNat 46, Char.ofNat 94, Char.ofNat 36, Char.ofNat 42, Char.ofNat 43,
   Char.ofNat 63, Char.ofNat 123, Char.ofNat 125, Char.ofNat 91, Char.ofNat 93,
   Char.ofNat 92, Char.ofNat 124, Char.ofNat 40, Char.ofNat 41]

/-- Pattern text contains no regex metacharacter. -/
def regexIsLiteral (p : String) : Bool :=
  p.data.all (fun c => !regexSpecials.contains c)

/-- `bool(re.fullmatch(pat, s, re.IGNORECASE))`, modelled on the
metacharacter-free fragment (where a full match is exactly ASCII
case-insensitive string equality). Every theorem below that exercises this
matcher carries a `regexIsLiteral` hypothesis on the pattern. -/
def re_fullmatch_ci (pat s : String) : Bool :=
  pyLower pat == pyLower s

/-- The category order of `load_specific`. -/
def SPECIFICS : List String :=
  ["platform", "location", "dist", "version", "arch", "firmware"]

/-- Filesystem / loader environment: `readJson path` is
`json.load(open(path))`, `none` for a missing or malformed file
(`sys.exit`). -/
structure LoadEnv where
  readJson : String → Option Dict
  dataDir : String := "data"

/-- `os.path.join` for the shapes used here. -/
def pyJoin (a b : String) : String :=
  if pyStartsWith b "/" then b
  else if a = "" then b
  else if pyEndsWith a "/" then a ++ b
  else a ++ "/" ++ b

/-- The file path `load_data_file` constructs. -/
def dataFilePath (env : LoadEnv) (whre what : String) : String :=
  let p :=
    if whre = "specs" then pyJoin (pyJoin (pyJoin env.dataDir whre) what) "spec.json"
    else pyJoin (pyJoin env.dataDir whre) what
  if pyEndsWith p ".json" then p else p ++ ".json"

mutual

/-- `load_data(data)` from core.py: pop `method`, apply the eight sections,
then run the `_specific` overrides. Returns the (mutated) document and
context; `none` models a raised exception / `sys.exit`. `fuel` bounds the
`_specific` → `load_data` recursion depth. -/
def load_data (fuel : Nat) (env : LoadEnv) (data : Dict) (ctx : Ctx) :
    Option (Dict × Ctx) :=
  match fuel with
  | 0 => none
  | f + 1 =>
    let (methodV, data1) := dpop data "method" (.str "merge")
    let methodIsMerge := methodV = .str "merge"
    match applySections methodIsMerge ctx data1 SECTIONS with
    | none => none
    | some (ctx2, data2) => load_specific f env data2 ctx2

/-- `load_specific(data)` from core.py. -/
def load_specific (fuel : Nat) (env : LoadEnv) (data : Dict) (ctx : Ctx) :
    Option (Dict × Ctx) :=
  match fuel with
  | 0 => none
  | f + 1 => load_specific_cats f env data ctx SPECIFICS

def load_specific_cats (fuel : Nat) (env : LoadEnv) (data : Dict) (ctx : Ctx) :
    List String → Option (Dict × Ctx)
  | [] => some (data, ctx)
  | cat :: cats =>
    match fuel with
    | 0 => none
    | f + 1 =>
      match ctx.defs with
      | .dict dd =>
        let name := (dget dd cat).getD .vnull
        if pyTruthy name then
          match dget data (cat ++ "_specific") with
          | none => load_specific_cats f env data ctx cats
          | some (.list entries) =>
            match load_specific_entries f env cat name ctx entries with
            | some (entries2, ctx2) =>
              load_specific_cats f env (dset data (cat ++ "_specific") (.list entries2)) ctx2 cats
            | none => none
          | some _ => none
      else load_specific_cats f env data ctx cats
      | _ => none

def load_specific_entries (fuel : Nat) (env : LoadEnv) (cat : String)
    (name : Value) (ctx : Ctx) : List Value → Option (List Value × Ctx)
  | [] => some ([], ctx)
  | entry :: rest =>
    match fuel with
    | 0 => none
    | f + 1 =>
      match entry with
      | .dict ed =>
        let (patV, ed2) := dpop ed cat (.str "")
        match patV, name with
        | .str pat, .str nm =>
          if re_fullmatch_ci pat nm then
            match load_data f env ed2 ctx with
            | some (ed3, ctx2) =>
              match load_specific_entries f env cat name ctx2 rest with
              | some (rest2, ctx3) => some (.dict ed3 :: rest2, ctx3)
              | none => none
            | none => none
          else
            match load_specific_entries f env cat name ctx rest with
            | some (rest2, ctx2) => some (.dict ed2 :: rest2, ctx2)
            | none => none
        | _, _ => none
      | _ => none

/-- `load_inc(where, what, data)` from core.py: load the included document
(applying its full effect), apply the current data, then overlay the
current data's top-level keys on the included document's map. -/
def load_inc (fuel : Nat) (env : LoadEnv) (whre what : String) (data : Dict)
    (ctx : Ctx) : Option (Dict × Ctx) :=
  match fuel with
  | 0 => none
  | f + 1 =>
    match load_data_file f env whre what ctx with
    | none => none
    | some (inc_data, ctx2) =>
      match load_data f env data ctx2 with
      | none => none
      | some (data2, ctx3) => some (dupdate inc_data data2, ctx3)

/-- `load_file(where, file_path)` from core.py: read, pop `include`,
recurse over includes in order (or apply directly when absent). -/
def load_file (fuel : Nat) (env : LoadEnv) (whre file_path : String)
    (ctx : Ctx) : Option (Dict × Ctx) :=
  match fuel with
  | 0 => none
  | f + 1 =>
    match env.readJson file_path with
    | none => none
    | some data =>
      let (incs, data1) := dpop data "include" .vnull
      if pyTruthy incs then
        match incs with
        | .list l => load_file_incs f env whre data1 ctx l
        | .str s => load_inc f env whre s data1 ctx
        | _ => some (data1, ctx)
      else
        match load_data f env data1 ctx with
        | some (data2, ctx2) => some (data2, ctx2)
        | none => none

def load_file_incs (fuel : Nat) (env : LoadEnv) (whre : String) (data : Dict)
    (ctx : Ctx) : List Value → Option (Dict × Ctx)
  | [] => some (data, ctx)
  | inc :: rest =>
    match fuel with
    | 0 => none
    | f + 1 =>
      match inc with
      | .str incName =>
        match load_inc f env whre incName data ctx with
        | some (data2, ctx2) => load_file_incs f env whre data2 ctx2 rest
        | none => none
      | _ => none

/-- `load_data_file(where, what)` from core.py. -/
def load_data_file (fuel : Nat) (env : LoadEnv) (whre what : String)
    (ctx : Ctx) : Option (Dict × Ctx) :=
  match fuel with
  | 0 => none
  | f + 1 => load_file f env whre (dataFilePath env whre what) ctx

end

end OSImager

namespace OSImager

/-! ## SpecCatalog: version expansion (`explode_string_with_dynamic_range`),
natural ordering, `spec_get_provides`, `resolve_iso_url`, `make_index` -/

/-- Opening and closing brace / bracket characters. -/
def obrace : Char := Char.ofNat 123
def cbrace : Char := Char.ofNat 125
def obrack : Char := Char.ofNat 91
def cbrack : Char := Char.ofNat 93

/-- Scanner for `re.finditer(r'\[([^\[\]]+)\]', s)` and the matching
`pattern.sub("{}", s)`: returns the literal segments around the matches
and the bracket groups, so that the input is
`seg₀ ++ "[g₀]" ++ seg₁ ++ … ++ segₙ` and the template is
`seg₀ ++ "{}" ++ seg₁ ++ …`. `grp` accumulates the content after a
still-open `[`. -/
def scanBrackets (insideGrp : Option (List Char)) (seg : List Char) :
    List Char → (List (List Char) × List (List Char))
  | [] =>
    match insideGrp with
    | none => ([seg.reverse], [])
    | some grp => ([(grp ++ obrack :: seg).reverse], [])
  | c :: rest =>
    match insideGrp with
    | none =>
      if c = obrack then scanBrackets (some []) seg rest
      else scanBrackets none (c :: seg) rest
    | some grp =>
      if c = cbrack then
        if grp.isEmpty then scanBrackets none (cbrack :: obrack :: seg) rest
        else
          let (segs, grps) := scanBrackets none [] rest
          (seg.reverse :: segs, grp.reverse :: grps)
      else if c = obrack then scanBrackets (some []) (grp ++ obrack :: seg) rest
      else scanBrackets (some (c :: grp)) seg rest

/-- `pattern.sub("{}", s)` reconstructed from the scanned segments. -/
def templateOf : List (List Char) → List Char
  | [] => []
  | [s] => s
  | s :: rest => s ++ obrace :: cbrace :: templateOf rest

/-- Python `int(str)`: strip whitespace, optional sign, decimal digits
(`none` models `ValueError`; digit-group underscores are outside the
model). -/
def pyIntDigits (ds : List Char) : Option Nat :=
  if !ds.isEmpty && ds.all Char.isDigit then some (digitsToNat ds) else none

def pyInt (s : String) : Option Int :=
  match (pyStrip s).data with
  | '+' :: ds => (pyIntDigits ds).map Int.ofNat
  | '-' :: ds => (pyIntDigits ds).map (fun n => -(n : Int))
  | ds => (pyIntDigits ds).map Int.ofNat

/-- `str(i).zfill(width)` for the nonnegative values produced here. -/
def zfill (width : Nat) (s : String) : String :=
  if width ≤ s.length then s
  else ⟨List.replicate (width - s.length) '0' ++ s.data⟩

/-- Expand one bracket group: a `-` range (with the zero-padding rule) or
a comma list. `none` models the `ValueError` of `int()` or of unpacking
`text.split('-')` into two names. -/
def expandGroup (text : List Char) : Option (List String) :=
  if text.contains '-' && !text.contains ',' then
    match text.splitOn '-' with
    | [s1, s2] =>
      match pyInt ⟨s1⟩, pyInt ⟨s2⟩ with
      | some a, some b =>
        let pad :=
          (s1.headD ' ' = '0' && decide (1 < s1.length))
            || (s2.headD ' ' = '0' && decide (1 < s2.length))
        let width := max s1.length s2.length
        let rng := (List.range (b + 1 - a).toNat).map (fun i => a + (i : Int))
        some (rng.map (fun i =>
          if pad then zfill width (toString i) else toString i))
      | _, _ => none
    | _ => none
  else
    some ((text.splitOn ',').map (fun part => pyStrip ⟨part⟩))

/-- `Option`-valued map over a list, failing on the first failure (a
Python comprehension raising). -/
def mapMopt (f : α → Option β) : List α → Option (List β)
  | [] => some []
  | a :: rest =>
    match f a with
    | none => none
    | some b =>
      match mapMopt f rest with
      | none => none
      | some bs => some (b :: bs)

/-- `Option`-valued left fold (a Python loop raising). -/
def foldlMopt (f : β → α → Option β) : β → List α → Option β
  | b, [] => some b
  | b, a :: rest =>
    match f b a with
    | none => none
    | some b2 => foldlMopt f b2 rest

/-- `itertools.product(*parts)`, rightmost group varying fastest. -/
def listProd : List (List String) → List (List String)
  | [] => [[]]
  | g :: gs => (g.map (fun x => (listProd gs).map (fun rest => x :: rest))).flatten

/-- `template.format(*args)` for auto-numbered fields: `{}` consumes the
next argument, `{{`/`}}` are literal braces, anything else brace-wise is
an error (`none`; explicit field names/numbers and format specs are
outside the model, as is running out of arguments). -/
def pyFormat (args : List String) : List Char → Option (List Char)
  | [] => some []
  | c :: rest =>
    if c = obrace then
      match rest with
      | c2 :: rest2 =>
        if c2 = cbrace then
          match args with
          | a :: args2 =>
            match pyFormat args2 rest2 with
            | some out => some (a.data ++ out)
            | none => none
          | [] => none
        else if c2 = obrace then
          match pyFormat args rest2 with
          | some out => some (obrace :: out)
          | none => none
        else none
      | [] => none
    else if c = cbrace then
      match rest with
      | c2 :: rest2 =>
        if c2 = cbrace then
          match pyFormat args rest2 with
          | some out => some (cbrace :: out)
          | none => none
        else none
      | [] => none
    else
      match pyFormat args rest with
      | some out => some (c :: out)
      | none => none

/-- `explode_string_with_dynamic_range(input_string)` from utils.py.
`none` models a raised exception. -/
def explode_string_with_dynamic_range (input_string : String) :
    Option (List String) :=
  let sg := scanBrackets none [] input_string.data
  if sg.2.isEmpty then some [input_string]
  else
    match mapMopt expandGroup sg.2 with
    | none => none
    | some parts =>
      mapMopt (fun p => (pyFormat p (templateOf sg.1)).map (⟨·⟩)) (listProd parts)

/-! ### `natural_key` and Python's stable sort -/

mutual

/-- `re.split(r'(\d+)', s)` mapped through `natural_key`'s
`int(text) if text.isdigit() else text.lower()`: alternating text chunks
(lowercased, possibly empty) and digit runs (as numbers). Text-chunk
accumulator state. -/
def nkGoT (cur : List Char) : List Char → List (String ⊕ Nat)
  | [] => [Sum.inl (pyLower ⟨cur.reverse⟩)]
  | c :: rest =>
    if c.isDigit then Sum.inl (pyLower ⟨cur.reverse⟩) :: nkGoD [c] rest
    else nkGoT (c :: cur) rest

/-- Digit-run accumulator state of the `natural_key` scanner. -/
def nkGoD (cur : List Char) : List Char → List (String ⊕ Nat)
  | [] => [Sum.inr (digitsToNat cur.reverse), Sum.inl ""]
  | c :: rest =>
    if c.isDigit then nkGoD (c :: cur) rest
    else Sum.inr (digitsToNat cur.reverse) :: nkGoT [c] rest

end

/-- `natural_key(s)` from utils.py. -/
def natural_key (s : String) : List (String ⊕ Nat) := nkGoT [] s.data

/-- Python `str` `<` (code-point lexicographic). -/
def strLtChars : List Char → List Char → Bool
  | [], [] => false
  | [], _ :: _ => true
  | _ :: _, [] => false
  | a :: as, b :: bs =>
    if a.toNat < b.toNat then true
    else if b.toNat < a.toNat then false
    else strLtChars as bs

/-- Python `<` on one `natural_key` component. Same-parity positions are
always same-constructor; the cross cases (which Python would refuse to
compare) are inert. -/
def nkElemLt : (String ⊕ Nat) → (String ⊕ Nat) → Bool
  | Sum.inl a, Sum.inl b => strLtChars a.data b.data
  | Sum.inr a, Sum.inr b => a < b
  | _, _ => false

/-- Python list `<` on `natural_key` results (lexicographic, prefix is
smaller). -/
def nkLt : List (String ⊕ Nat) → List (String ⊕ Nat) → Bool
  | [], [] => false
  | [], _ :: _ => true
  | _ :: _, [] => false
  | a :: as, b :: bs =>
    if nkElemLt a b then true
    else if nkElemLt b a then false
    else nkLt as bs

/-- `a` sorts before `b` under `sorted(…, key=natural_key)`. -/
def natLtKey (a b : String) : Bool := nkLt (natural_key a) (natural_key b)

/-- Stable insertion (a new element goes after existing ties), matching
Python's stable `sorted`. -/
def pyInsertBy (lt : α → α → Bool) (x : α) : List α → List α
  | [] => [x]
  | y :: ys => if lt x y then x :: y :: ys else y :: pyInsertBy lt x ys

def pySortBy (lt : α → α → Bool) (l : List α) : List α :=
  l.foldl (fun acc x => pyInsertBy lt x acc) []

/-! ### Catalog construction -/

/-- External environment of `make_index`: the parsed platform/location
documents and spec files (the `find_files` + `json.load` + name-sort I/O
of `get_platforms`/`get_locations` and the specs directory scan), plus the
`check_iso_local` filesystem/URL probe, all at the process boundary. -/
structure CatalogEnv where
  platforms : List Dict
  locations : List Dict
  specFiles : List (String × Dict)
  check_iso_local : String → Bool := fun _ => false

/-- The arch-accumulation loops of `make_index` over one document list:
append unseen arches, and `amd64` alongside `x86_64`. A document whose
`arches` key is absent falls back to `[]` (`doc.get('arches', [])`); a
present but non-iterable value (null, number, boolean) makes the Python
`for arch in …` raise `TypeError`, modelled as `none`. -/
def collectArches (docs : List Dict) (init : List Value) : Option (List Value) :=
  foldlMopt (fun acc doc =>
    match dget doc "arches" with
    | none => some acc
    | some v =>
      match iterValue v with
      | none => none
      | some items =>
        some (items.foldl (fun acc2 arch =>
          let acc3 := if acc2.contains arch then acc2 else acc2 ++ [arch]
          if arch = .str "x86_64" then
            if acc3.contains (.str "amd64") then acc3 else acc3 ++ [.str "amd64"]
          else acc3) acc)) init docs

/-- The expanded version list of a `provides` section (`none` models the
`checkit` exits and type errors). -/
def providesVersions (versions : Value) : Option (List String) :=
  match versions with
  | .list l =>
    foldlMopt (fun acc v =>
      match v with
      | .str s =>
        match explode_string_with_dynamic_range s with
        | some xs => some (acc ++ xs)
        | none => none
      | _ => none) [] l
  | .str s => explode_string_with_dynamic_range s
  | _ => none

/-- The `version_specific` arches-override scan of `spec_get_provides`
(the last matching entry that supplies a truthy `arches` wins). -/
def versionSpecificArches (vspecific : List Value) (version : String) :
    Option Value :=
  foldlMopt (fun (acc : Value) vs =>
    match vs with
    | .dict vd =>
      let vs_ver := (dget vd "version").getD (.str "")
      match vs_ver with
      | .str pat =>
        if re_fullmatch_ci pat version then
          let vs_arches := (dget vd "arches").getD .vnull
          if pyTruthy vs_arches then some vs_arches else some acc
        else some acc
      | _ => none
    | _ => none) .vnull vspecific

/-- The per-version loop of `spec_get_provides`. -/
def spec_provides_loop (dist default_arches : Value) (vspec : List Value) :
    List String → Option (List Dict)
  | [] => some []
  | version :: rest =>
    match versionSpecificArches vspec version with
    | none => none
    | some ver_arches =>
      let arches := if pyTruthy ver_arches then ver_arches else default_arches
      match iterValue arches with
      | none => none
      | some archItems =>
        let entries := archItems.map (fun arch =>
          [("dist", dist), ("version", Value.str version), ("arch", arch)])
        match spec_provides_loop dist default_arches vspec rest with
        | some more => some (entries ++ more)
        | none => none

/-- `spec_get_provides(file_name, data)` from core.py: the flat
(dist, version, arch) entry list. -/
def spec_get_provides (data : Dict) : Option (List Dict) :=
  match dget data "provides" with
  | none => some []
  | some pv =>
    if !pyTruthy pv then some []
    else
      match pv with
      | .dict pd =>
        let dist := (dget pd "dist").getD .vnull
        if !pyTruthy dist then none
        else
          let versions := (dget pd "versions").getD .vnull
          if !pyTruthy versions then none
          else
            match providesVersions versions with
            | none => none
            | some version_list =>
              let default_arches := (dget pd "arches").getD .vnull
              match dget data "version_specific" with
              | some (.list vspec) =>
                spec_provides_loop dist default_arches vspec version_list
              | some .vnull => none
              | some _ => none
              | none => spec_provides_loop dist default_arches [] version_list
      | _ => none

/-- `resolve_iso_url(data, version, arch)` from core.py. The outer
`Option` is a raised exception; the inner one is the `None` return. -/
def resolve_iso_url (data : Dict) (version arch : String) :
    Option (Option String) :=
  let parts := version.data.splitOn '.'
  let major : String := ⟨parts.headD []⟩
  let minor : String := ⟨(parts.drop 1).headD []⟩
  let getIso : Dict → Option Value := fun d =>
    match dget d "defs" with
    | none => some (.str "")
    | some (.dict dd) => some ((dget dd "iso_url").getD (.str ""))
    | some _ => none
  match getIso data with
  | none => none
  | some iso0 =>
    let vspec :=
      match dget data "version_specific" with
      | some (.list l) => some l
      | none => some []
      | some _ => none
    match vspec with
    | none => none
    | some vslist =>
      match foldlMopt (fun (acc : Value) vs =>
          match vs with
          | .dict vd =>
            match (dget vd "version").getD (.str "") with
            | .str pat =>
              if re_fullmatch_ci pat version then
                match
                  (match dget vd "defs" with
                   | none => some (Value.str "")
                   | some (.dict dd) => some ((dget dd "iso_url").getD (.str ""))
                   | some _ => none) with
                | some vs_url => if pyTruthy vs_url then some vs_url else some acc
                | none => none
              else some acc
            | _ => none
          | _ => none) iso0 vslist with
      | none => none
      | some isoV =>
        if !pyTruthy isoV then some none
        else
          match isoV with
          | .str u =>
            some (some (pyReplace (pyReplace (pyReplace (pyReplace u
              ">>version<<" version) ">>major<<" major) ">>minor<<" minor)
              ">>arch<<" arch))
          | _ => none

/-- The per-entry body of `make_index`'s spec loop. -/
def indexEntries (env : CatalogEnv) (arches : List Value) (fileName : String)
    (data : Dict) (index : Dict) : Option Dict :=
  match spec_get_provides data with
  | none => none
  | some entries =>
    foldlMopt (fun idx entry =>
      let arch := (dget entry "arch").getD (.str "")
      if arches.contains arch then
        match (dget entry "dist").getD .vnull, (dget entry "version").getD .vnull,
            arch with
        | .str d, .str v, .str a =>
          let key := d ++ "-" ++ v ++ "-" ++ a
          match resolve_iso_url data v a with
          | none => none
          | some iso_url =>
            let iso_local :=
              match iso_url with
              | some u => env.check_iso_local u
              | none => false
            some (dset idx key (.dict
              [("provides", .dict entry), ("path", .str fileName),
               ("iso_local", .bool iso_local)]))
        | _, _, _ => none
      else some idx) index entries

/-- `make_index()` from core.py (without the optional `save_index`
persistence): collect the known arches, index every spec file's provides
entries, and return the index sorted by `natural_key`. -/
def make_index (env : CatalogEnv) : Option Dict :=
  match collectArches env.platforms [] with
  | none => none
  | some platArches =>
    match collectArches env.locations platArches with
    | none => none
    | some arches =>
      match foldlMopt (fun idx fd => indexEntries env arches fd.1 fd.2 idx) []
          env.specFiles with
      | none => none
      | some index =>
        let sortedKeys := pySortBy natLtKey (index.map Prod.fst)
        some (sortedKeys.map (fun k => (k, (dget index k).getD .vnull)))

end OSImager





namespace OSImager

/-! ## Shared lemmas about the string primitives -/

theorem listInfix_cons (pat : List Char) (c : Char) (cs : List Char) :
    listInfix pat (c :: cs) = (pat.isPrefixOf (c :: cs) || listInfix pat cs) := rfl

theorem listInfix_of_append (pat l r : List Char) :
    listInfix pat (l ++ pat ++ r) = true := by
  induction l with
  | nil =>
    cases pat with
    | nil =>
      cases r with
      | nil => rfl
      | cons c cs => simp [listInfix_cons, listInfix]
    | cons a t =>
      have hpre : (a :: t).isPrefixOf (a :: t ++ r) = true := by
        rw [List.isPrefixOf_iff_prefix]
        exact ⟨r, rfl⟩
      simp only [List.nil_append, List.cons_append, listInfix_cons]
      rw [List.cons_append] at hpre
      simp [hpre]
  | cons c l ih =>
    simp only [List.cons_append, listInfix_cons]
    have ih2 : listInfix pat (l ++ (pat ++ r)) = true := by
      simpa [List.append_assoc] using ih
    simp [ih2]

theorem listInfix_suffix (pat l : List Char) : listInfix pat (l ++ pat) = true := by
  have := listInfix_of_append pat l []
  simpa using this

theorem pyStrip_sandwich (a b : Char) (mid : List Char)
    (ha : isPySpace a = false) (hb : isPySpace b = false) :
    pyStrip ⟨a :: (mid ++ [b])⟩ = ⟨a :: (mid ++ [b])⟩ := by
  simp [pyStrip, List.dropWhile_cons, ha, hb, List.reverse_append]

/-! ## C3 and C10: the list-insertion splice rule of `do_sub` -/

theorem marker_data (t : String) :
    ("[>" ++ t ++ "<]").data = '[' :: '>' :: (t.data ++ ['<', ']']) := by
  simp [String.data_append]

theorem marker_strip (t : String) :
    pyStrip ("[>" ++ t ++ "<]") = "[>" ++ t ++ "<]" := by
  have h2 : ("[>" ++ t ++ "<]") = ⟨'[' :: (('>' :: t.data ++ ['<']) ++ [']'])⟩ := by
    apply String.ext
    rw [marker_data]
    simp
  rw [h2, pyStrip_sandwich '[' ']' _ (by decide) (by decide)]

theorem marker_contains_open (t : String) :
    strContains ("[>" ++ t ++ "<]") "[>" = true := by
  unfold strContains
  rw [marker_data]
  have h : '[' :: '>' :: (t.data ++ ['<', ']'])
      = [] ++ "[>".data ++ (t.data ++ ['<', ']']) := by simp
  rw [h]
  exact listInfix_of_append _ _ _

theorem marker_contains_close (t : String) :
    strContains ("[>" ++ t ++ "<]") "<]" = true := by
  unfold strContains
  rw [marker_data]
  have h : '[' :: '>' :: (t.data ++ ['<', ']'])
      = ('[' :: '>' :: t.data) ++ "<]".data := by simp
  rw [h]
  exact listInfix_suffix _ _

theorem marker_startsWith (t : String) :
    pyStartsWith (pyStrip ("[>" ++ t ++ "<]")) "[>" = true := by
  rw [marker_strip]
  unfold pyStartsWith
  rw [marker_data]
  simp [List.isPrefixOf]

theorem marker_endsWith (t : String) :
    pyEndsWith (pyStrip ("[>" ++ t ++ "<]")) "<]" = true := by
  rw [marker_strip]
  unfold pyEndsWith
  rw [marker_data]
  unfold List.isSuffixOf
  have h : ('[' :: '>' :: (t.data ++ ['<', ']'])).reverse
      = ']' :: '<' :: (t.data.reverse ++ ['>', '[']) := by
    simp
  rw [h]
  simp [List.isPrefixOf]

theorem marker_stripSlice (t : String) :
    stripSlice ("[>" ++ t ++ "<]") = t := by
  unfold stripSlice
  rw [marker_strip]
  apply String.ext
  show ((("[>" ++ t ++ "<]").data.drop 2).take (("[>" ++ t ++ "<]").data.length - 4))
      = t.data
  rw [marker_data]
  have hl : ('[' :: '>' :: (t.data ++ ['<', ']'])).length - 4 = t.data.length := by
    simp
  simp only [List.drop_succ_cons, List.drop_zero, hl]
  rw [List.take_left]

/-- **C3** — in list resolution, an element that (after trimming) is
exactly one list-insertion marker `[>t<]` is spliced: if `defs[t]` is a
list, its items replace the element in place; if `t` is absent from defs,
zero items are inserted; otherwise (a non-list binding) the element is
resolved normally (its own string resolution result is consed on).
Stated for the element at the head of the list, arbitrary token text,
tail and context; the spec's `["a", "[>extra<]", "b"]` example is the
witness. -/
theorem C3_list_splice (ctx : Imager) (t : String) (rest : List Value) :
    (∀ items, dget ctx.defs t = some (.list items) →
      do_sub (.list (.str ("[>" ++ t ++ "<]") :: rest)) ctx =
        (do_sub_elems rest ctx).map (fun r2 => .list (items ++ r2)))
    ∧ (dget ctx.defs t = none →
      do_sub (.list (.str ("[>" ++ t ++ "<]") :: rest)) ctx =
        (do_sub_elems rest ctx).map .list)
    ∧ (∀ v, dget ctx.defs t = some v → (∀ items, v ≠ .list items) →
      do_sub (.list (.str ("[>" ++ t ++ "<]") :: rest)) ctx =
        (do_substr ("[>" ++ t ++ "<]") ctx).bind (fun e2 =>
          (do_sub_elems rest ctx).map (fun r2 => .list (e2 :: r2)))) := by
  refine ⟨?_, ?_, ?_⟩
  · intro items hd
    simp [do_sub, do_sub_elems, marker_contains_open, marker_contains_close,
      marker_startsWith, marker_endsWith, marker_stripSlice, hd]
    cases do_sub_elems rest ctx <;> simp
  · intro hd
    simp [do_sub, do_sub_elems, marker_contains_open, marker_contains_close,
      marker_startsWith, marker_endsWith, marker_stripSlice, hd]
    cases do_sub_elems rest ctx <;> simp
  · intro v hd hnl
    have hv : ∀ items, v ≠ Value.list items := hnl
    simp only [do_sub, do_sub_elems, marker_contains_open, marker_contains_close,
      marker_startsWith, marker_endsWith, marker_stripSlice, hd]
    cases v with
    | list items => exact absurd rfl (hv items)
    | str s =>
      cases hsub : do_substr ("[>" ++ t ++ "<]") ctx <;>
        cases hrest : do_sub_elems rest ctx <;>
          simp [do_sub, hsub, hrest]
    | int i =>
      cases hsub : do_substr ("[>" ++ t ++ "<]") ctx <;>
        cases hrest : do_sub_elems rest ctx <;>
          simp [do_sub, hsub, hrest]
    | bool b =>
      cases hsub : do_substr ("[>" ++ t ++ "<]") ctx <;>
        cases hrest : do_sub_elems rest ctx <;>
          simp [do_sub, hsub, hrest]
    | vnull =>
      cases hsub : do_substr ("[>" ++ t ++ "<]") ctx <;>
        cases hrest : do_sub_elems rest ctx <;>
          simp [do_sub, hsub, hrest]
    | dict d =>
      cases hsub : do_substr ("[>" ++ t ++ "<]") ctx <;>
        cases hrest : do_sub_elems rest ctx <;>
          simp [do_sub, hsub, hrest]

end OSImager

namespace OSImager

/-- Context for the C3 witness (the spec's `defs["extra"] = ["x","y"]`). -/
def ctxC3 : Imager := { defs := [("extra", .list [.str "x", .str "y"])] }

theorem C3_list_splice_witness :
    do_sub (.list (.str ("[>" ++ "extra" ++ "<]") :: [.str "b"])) ctxC3
        = (do_sub_elems [.str "b"] ctxC3).map (fun r2 => .list ([.str "x", .str "y"] ++ r2))
    ∧ do_sub (.list [.str "a", .str "[>extra<]", .str "b"]) ctxC3
        = some (.list [.str "a", .str "x", .str "y", .str "b"])
    ∧ do_sub (.list [.str "a", .str "[>extra<]", .str "b"]) { defs := [] }
        = some (.list [.str "a", .str "b"]) :=
  ⟨(C3_list_splice ctxC3 "extra" [.str "b"]).1 [.str "x", .str "y"] (by decide),
   by simp +decide [do_sub, do_sub_elems, do_substr, ACTIONS, substrActions, substrTokens,
     extract_all, pySplitlines, splitlinesGo, extractLine, extractLineF, splitFirst, strContains,
     listInfix, pyStrip, isPySpace, pyStartsWith, pyEndsWith, stripSlice, dget, ctxC3],
   by simp +decide [do_sub, do_sub_elems, do_substr, ACTIONS, substrActions, substrTokens,
     extract_all, pySplitlines, splitlinesGo, extractLine, extractLineF, splitFirst, strContains,
     listInfix, pyStrip, isPySpace, pyStartsWith, pyEndsWith, stripSlice, dget]⟩

/-- **C10** — the splice rule of `do_sub` triggers on any list element that
contains `[>` and `<]` and whose trimmed form starts with `[>` and ends
with `<]` (not only on elements that are exactly one marker), with the
token taken as everything between those delimiters (`strip()[2:-2]`);
whenever that token is not a defs key, the element contributes zero items
to the output list. -/
theorem C10_splice_trigger (ctx : Imager) (s : String) (rest : List Value)
    (h1 : strContains s "[>" = true) (h2 : strContains s "<]" = true)
    (h3 : pyStartsWith (pyStrip s) "[>" = true)
    (h4 : pyEndsWith (pyStrip s) "<]" = true)
    (h5 : dget ctx.defs (stripSlice s) = none) :
    do_sub (.list (.str s :: rest)) ctx = (do_sub_elems rest ctx).map .list := by
  simp [do_sub, do_sub_elems, h1, h2, h3, h4, h5]
  cases do_sub_elems rest ctx <;> simp

/-- Context for the C10 witness: both single tokens are list-valued defs
keys, but the double-marker element's extracted token is not. -/
def ctxC10 : Imager := { defs := [("a", .list [.str "x"]), ("b", .list [.str "y"])] }

theorem C10_splice_trigger_witness :
    stripSlice "[>a<] [>b<]" = "a<] [>b"
    ∧ dget ctxC10.defs "a<] [>b" = none
    ∧ do_sub (.list [.str "[>a<] [>b<]"]) ctxC10 = some (.list []) := by
  refine ⟨by decide, by decide, ?_⟩
  have h := C10_splice_trigger ctxC10 "[>a<] [>b<]" [] (by decide) (by decide)
    (by decide) (by decide) (by decide)
  rw [h]
  simp [do_sub_elems]

end OSImager

namespace OSImager

/-! ## C5: `expand_versions` (`explode_string_with_dynamic_range`) -/

/-- No brace characters. -/
def noBraces (l : List Char) : Bool :=
  l.all (fun c => !(c = obrace || c = cbrace))

/-- The direct in-place substitution the spec describes: interleave the
literal segments with one combination's choices. -/
def interleaveSegs : List (List Char) → List (List Char) → List Char
  | [], _ => []
  | [s], _ => s
  | s1 :: s2 :: rest, a :: as => s1 ++ a ++ interleaveSegs (s2 :: rest) as
  | s1 :: _ :: _, [] => s1

/-- Modelled from the spec's words (§4.4 `expand_versions`): find the
bracket groups, expand each (numeric range with the zero-padding rule, or
comma-enumerated list), and return one output per element of the groups'
Cartesian product, with each group replaced in place by its choice; a
string with no groups is its own singleton. -/
def expandVersionsSpec (input : String) : Option (List String) :=
  let sg := scanBrackets none [] input.data
  if sg.2.isEmpty then some [input]
  else
    match mapMopt expandGroup sg.2 with
    | none => none
    | some parts =>
      some ((listProd parts).map (fun p => ⟨interleaveSegs sg.1 (List.map String.data p)⟩))

theorem noBraces_append (a b : List Char) :
    noBraces (a ++ b) = (noBraces a && noBraces b) := by
  simp [noBraces, List.all_append]

theorem noBraces_reverse (l : List Char) : noBraces l.reverse = noBraces l := by
  simp [noBraces]

theorem noBraces_cons (c : Char) (l : List Char) :
    noBraces (c :: l) = (!(c = obrace || c = cbrace) && noBraces l) := by
  simp [noBraces]

theorem scanBrackets_count (ig : Option (List Char)) (seg s : List Char) :
    (scanBrackets ig seg s).1.length = (scanBrackets ig seg s).2.length + 1 := by
  induction s generalizing ig seg with
  | nil => cases ig <;> simp [scanBrackets]
  | cons c rest ih =>
    cases ig with
    | none =>
      by_cases hc : c = obrack
      · subst hc
        simp [scanBrackets, ih]
      · simp [scanBrackets, hc, ih]
    | some grp =>
      by_cases hc : c = cbrack
      · subst hc
        cases grp <;> simp [scanBrackets, ih]
      · by_cases ho : c = obrack
        · subst ho
          simp only [scanBrackets, if_neg (by decide : ¬obrack = cbrack), if_pos rfl]
          exact ih _ _
        · simp [scanBrackets, hc, ho, ih]

theorem scanBrackets_noBraces (ig : Option (List Char)) (seg s : List Char)
    (hseg : noBraces seg = true)
    (hig : ∀ g, ig = some g → noBraces g = true)
    (hs : noBraces s = true) :
    ∀ out ∈ (scanBrackets ig seg s).1, noBraces out = true := by
  induction s generalizing ig seg with
  | nil =>
    cases ig with
    | none =>
      intro out hout
      simp [scanBrackets] at hout
      subst hout
      rw [noBraces_reverse]
      exact hseg
    | some grp =>
      intro out hout
      simp [scanBrackets] at hout
      subst hout
      have hg := hig grp rfl
      rw [noBraces_append, noBraces_cons, noBraces_reverse, noBraces_reverse, hseg, hg]
      decide
  | cons c rest ih =>
    have hc' : (!(c = obrace || c = cbrace)) = true := by
      rw [noBraces_cons] at hs
      exact (Bool.and_eq_true_iff.mp hs).1
    have hrest : noBraces rest = true := by
      rw [noBraces_cons] at hs
      exact (Bool.and_eq_true_iff.mp hs).2
    cases ig with
    | none =>
      by_cases hob : c = obrack
      · subst hob
        simp only [scanBrackets, if_pos rfl]
        exact ih (some []) seg hseg (by intro g hg; cases hg; rfl) hrest
      · simp only [scanBrackets, if_neg hob]
        refine ih none (c :: seg) ?_ (by intro g hg; cases hg) hrest
        rw [noBraces_cons, hc', hseg]
        rfl
    | some grp =>
      have hg := hig grp rfl
      by_cases hcb : c = cbrack
      · subst hcb
        cases grp with
        | nil =>
          simp only [scanBrackets, if_pos rfl, List.isEmpty_nil]
          refine ih none (cbrack :: obrack :: seg) ?_ (by intro g hg2; cases hg2) hrest
          rw [noBraces_cons, noBraces_cons, hseg]
          decide
        | cons g0 gs =>
          simp only [scanBrackets, if_pos rfl, List.isEmpty_cons, if_neg]
          intro out hout
          simp at hout
          rcases hout with hout | hout
          · subst hout
            rw [noBraces_reverse]
            exact hseg
          · exact ih none [] (by decide) (by intro g hg2; cases hg2) hrest out hout
      · by_cases hob : c = obrack
        · subst hob
          simp only [scanBrackets, if_neg (by decide : ¬obrack = cbrack), if_pos rfl]
          refine ih (some []) (grp ++ obrack :: seg) ?_
            (by intro g hg2; cases hg2; rfl) hrest
          rw [noBraces_append, noBraces_cons, hg, hseg]
          decide
        · simp only [scanBrackets, if_neg hcb, if_neg hob]
          refine ih (some (c :: grp)) seg hseg ?_ hrest
          intro g hg2
          cases hg2
          rw [noBraces_cons, hc', hg]
          rfl

theorem pyFormat_nil (args : List String) : pyFormat args [] = some [] := rfl

theorem pyFormat_cons_other (args : List String) (c : Char) (rest : List Char)
    (h1 : ¬c = obrace) (h2 : ¬c = cbrace) :
    pyFormat args (c :: rest) = (pyFormat args rest).map (c :: ·) := by
  rw [pyFormat.eq_def]
  simp only [if_neg h1, if_neg h2]
  cases pyFormat args rest <;> rfl

theorem pyFormat_sub (args : List String) (a : String) (rest : List Char) :
    pyFormat (a :: args) (obrace :: cbrace :: rest)
      = (pyFormat args rest).map (a.data ++ ·) := by
  rw [pyFormat.eq_def]
  cases hres : pyFormat args rest <;> simp [hres]

theorem pyFormat_passthrough (seg rest : List Char) (args : List String)
    (h : noBraces seg = true) :
    pyFormat args (seg ++ rest) = (pyFormat args rest).map (seg ++ ·) := by
  induction seg with
  | nil =>
    simp only [List.nil_append]
    cases pyFormat args rest <;> simp
  | cons c cs ih =>
    rw [noBraces_cons] at h
    have hc := (Bool.and_eq_true_iff.mp h).1
    have hcs := (Bool.and_eq_true_iff.mp h).2
    have hc1 : ¬c = obrace := by
      intro hh
      subst hh
      simp at hc
    have hc2 : ¬c = cbrace := by
      intro hh
      subst hh
      simp at hc
    rw [List.cons_append, pyFormat_cons_other args c (cs ++ rest) hc1 hc2, ih hcs]
    cases pyFormat args rest <;> simp

theorem pyFormat_template (segs : List (List Char)) (args : List (List Char))
    (hlen : args.length + 1 = segs.length)
    (hnb : ∀ seg ∈ segs, noBraces seg = true) :
    pyFormat (args.map (⟨·⟩)) (templateOf segs)
      = some (interleaveSegs segs args) := by
  induction segs generalizing args with
  | nil => simp at hlen
  | cons s1 rest ih =>
    cases rest with
    | nil =>
      have hargs : args = [] := by
        cases args with
        | nil => rfl
        | cons a as => simp at hlen
      subst hargs
      show pyFormat [] (templateOf [s1]) = some (interleaveSegs [s1] [])
      unfold templateOf interleaveSegs
      have := pyFormat_passthrough s1 [] [] (hnb s1 (by simp))
      simpa [pyFormat_nil] using this
    | cons s2 rest2 =>
      cases args with
      | nil => simp at hlen
      | cons a as =>
        show pyFormat ((a :: as).map (⟨·⟩)) (templateOf (s1 :: s2 :: rest2))
            = some (s1 ++ a ++ interleaveSegs (s2 :: rest2) as)
        have hT : templateOf (s1 :: s2 :: rest2)
            = s1 ++ obrace :: cbrace :: templateOf (s2 :: rest2) := rfl
        rw [hT, List.map_cons,
          pyFormat_passthrough s1 _ _ (hnb s1 (by simp)),
          pyFormat_sub (as.map (⟨·⟩)) ⟨a⟩ (templateOf (s2 :: rest2)),
          ih as (by simpa using hlen) (fun seg hseg => hnb seg (by simp [hseg]))]
        simp [List.append_assoc]

theorem listProd_length (parts : List (List String)) :
    ∀ p ∈ listProd parts, p.length = parts.length := by
  induction parts with
  | nil =>
    intro p hp
    simp [listProd] at hp
    simp [hp]
  | cons g gs ih =>
    intro p hp
    simp [listProd] at hp
    obtain ⟨x, hx, rest, hrest, hp⟩ := hp
    subst hp
    simp [ih rest hrest]

theorem mapMopt_length {α β : Type} {f : α → Option β} :
    ∀ {l : List α} {out : List β}, mapMopt f l = some out → out.length = l.length := by
  intro l
  induction l with
  | nil =>
    intro out h
    simp [mapMopt] at h
    subst h
    rfl
  | cons a rest ih =>
    intro out h
    simp only [mapMopt] at h
    cases hfa : f a with
    | none => rw [hfa] at h; simp at h
    | some b =>
      rw [hfa] at h
      cases hrest : mapMopt f rest with
      | none => rw [hrest] at h; simp at h
      | some bs =>
        rw [hrest] at h
        simp at h
        have := ih hrest
        simp [← h, this]

theorem mapMopt_eq_map_of {α β : Type} (f : α → Option β) (g : α → β) :
    ∀ (l : List α), (∀ a ∈ l, f a = some (g a)) → mapMopt f l = some (l.map g) := by
  intro l
  induction l with
  | nil => intro _; rfl
  | cons a rest ih =>
    intro h
    simp only [mapMopt]
    rw [h a (by simp), ih (fun x hx => h x (by simp [hx]))]
    simp

theorem map_mk_data (p : List String) :
    (p.map String.data).map (fun l => (⟨l⟩ : String)) = p := by
  induction p with
  | nil => rfl
  | cons a rest ih => simp [ih]

/-- **C5 (amended)** — on inputs free of brace characters,
`explode_string_with_dynamic_range` agrees with the spec-described
expansion `expandVersionsSpec`: each bracket group replaced in place by
its expansions (numeric dash ranges zero-padded to the wider literal
width exactly when either bound has a leading zero and length > 1; comma
groups enumerated), one output per element of the Cartesian product of
the groups (both sides fail together on malformed dash groups), and a
string with no bracket groups giving itself as a singleton. The brace
restriction is forced by `C5_counterexample`. -/
theorem C5_expand_versions (input : String)
    (hnb : noBraces input.data = true) :
    explode_string_with_dynamic_range input = expandVersionsSpec input := by
  unfold explode_string_with_dynamic_range expandVersionsSpec
  by_cases hgrps : (scanBrackets none [] input.data).2.isEmpty
  · simp [hgrps]
  · simp only [hgrps, Bool.false_eq_true, if_false, if_neg]
    cases hparts : mapMopt expandGroup (scanBrackets none [] input.data).2 with
    | none => simp
    | some parts =>
      dsimp only
      apply mapMopt_eq_map_of
        (g := fun p => (⟨interleaveSegs (scanBrackets none [] input.data).1
          (List.map String.data p)⟩ : String))
      intro p hp
      have hplen := listProd_length parts p hp
      have hparts_len : parts.length = (scanBrackets none [] input.data).2.length :=
        mapMopt_length hparts
      have hcount := scanBrackets_count none [] input.data
      have hsegnb := scanBrackets_noBraces none [] input.data (by decide)
        (by intro g hg; cases hg) hnb
      have hlen : (p.map String.data).length + 1
          = (scanBrackets none [] input.data).1.length := by
        simp [hplen, hparts_len]
        omega
      have hform := pyFormat_template (scanBrackets none [] input.data).1
        (p.map String.data) hlen (fun seg hseg => hsegnb seg hseg)
      rw [map_mk_data] at hform
      rw [hform]
      rfl

/-- **C5 counterexample** — the claim quantifies over every input string,
but on `"{[1]}"` the code returns `["{}"]` (the group is matched, the
input's own braces corrupt the `str.format` template, and the expansion
`"1"` is dropped), not the in-place replacement `["{1}"]` the claim
describes. -/
theorem C5_counterexample :
    explode_string_with_dynamic_range "\x7b[1]\x7d" = some ["\x7b\x7d"]
    ∧ (scanBrackets none [] "\x7b[1]\x7d".data).2 = [['1']]
    ∧ expandGroup ['1'] = some ["1"]
    ∧ ("\x7b\x7d" : String) ≠ "\x7b1\x7d" := by
  refine ⟨by decide, by decide, by decide, by decide⟩

/-- Witness for the amended C5: the spec's padded and unpadded examples,
obtained through the amended theorem. -/
theorem C5_expand_versions_witness :
    noBraces "centos-[01-03]".data = true
    ∧ explode_string_with_dynamic_range "centos-[01-03]" = expandVersionsSpec "centos-[01-03]"
    ∧ expandVersionsSpec "centos-[01-03]" = some ["centos-01", "centos-02", "centos-03"]
    ∧ explode_string_with_dynamic_range "centos-[1-3]" = some ["centos-1", "centos-2", "centos-3"]
    ∧ explode_string_with_dynamic_range "ubuntu-[20,22].04" = some ["ubuntu-20.04", "ubuntu-22.04"]
    ∧ explode_string_with_dynamic_range "plain" = some ["plain"] :=
  ⟨by decide, C5_expand_versions "centos-[01-03]" (by decide),
   by decide, by decide, by decide, by decide⟩

end OSImager

namespace OSImager

/-! ## C6: `eval_expression` (marker family 6) -/

/-- The four expression operators. -/
def isOpChar (c : Char) : Bool := c = '+' || c = '-' || c = '*' || c = '/'

/-- A nonempty all-digit string. -/
def digitStr (s : String) : Bool := !s.data.isEmpty && s.data.all Char.isDigit

/-- A chunk free of operator characters. -/
def opFree (s : String) : Bool := s.data.all (fun c => !isOpChar c)

/-- The expression text `chunk₀ c₀ chunk₁ c₁ …` — both the token
`eval_expression` is handed and the `new_expr` it rebuilds. -/
def exprOf : List String → List Char → String
  | [], _ => ""
  | [k], _ => k
  | k :: k2 :: ks, [] => k ++ exprOf (k2 :: ks) []
  | k :: k2 :: ks, c :: cs => k ++ String.singleton c ++ exprOf (k2 :: ks) cs

/-- The alternating chunk list `re.split` produces on such a text. -/
def partsOf : List String → List Char → List String
  | [], _ => []
  | [k], _ => [k]
  | k :: k2 :: ks, [] => k :: partsOf (k2 :: ks) []
  | k :: k2 :: ks, c :: cs => k :: String.singleton c :: partsOf (k2 :: ks) cs

/-- Modelled from the spec: "ordinary integer arithmetic honoring standard
operator precedence" — split the operand/operator chain at `+`/`-` into
multiplicative groups, evaluate each group left-to-right (`*`, `/` over
exact rationals, division by zero failing), and sum the groups. -/
def termsOf (cur : Rat) : List (Char × Rat) → Option (List Rat)
  | [] => some [cur]
  | (c, v) :: rest =>
    if c = '+' then (termsOf v rest).map (cur :: ·)
    else if c = '-' then (termsOf (-v) rest).map (cur :: ·)
    else if c = '*' then termsOf (cur * v) rest
    else if c = '/' then (if v = 0 then none else termsOf (cur / v) rest)
    else none

def evalOpsSpec (v0 : Rat) (rest : List (Char × Rat)) : Option Rat :=
  (termsOf v0 rest).map (fun ts => ts.sum)

/-- The token chain of `op value op value …`. -/
def toksOf : List (Char × Nat) → List ATok
  | [] => []
  | (c, n) :: rest => .op c :: .num n :: toksOf rest

/-- The character chain `digits (op digits)*`. -/
def chainChars (d0 : List Char) (pairs : List (Char × List Char)) : List Char :=
  d0 ++ pairs.foldr (fun p acc => p.1 :: (p.2 ++ acc)) []

theorem isDigit_not_space {c : Char} (h : c.isDigit = true) : isPySpace c = false := by
  cases hsp : isPySpace c
  · rfl
  · exfalso
    simp only [isPySpace, Bool.or_eq_true, decide_eq_true_eq] at hsp
    rcases hsp with ((((hc | hc) | hc) | hc) | hc) | hc <;>
      (subst hc; simp [Char.isDigit] at h)

theorem isOp_not_space {c : Char} (h : isOpChar c = true) : isPySpace c = false := by
  simp only [isOpChar, Bool.or_eq_true, decide_eq_true_eq] at h
  rcases h with ((h | h) | h) | h <;> (subst h; decide)

theorem isOp_not_digit {c : Char} (h : isOpChar c = true) : c.isDigit = false := by
  simp only [isOpChar, Bool.or_eq_true, decide_eq_true_eq] at h
  rcases h with ((h | h) | h) | h <;> (subst h; decide)

theorem spanDigits_exact (ds rest : List Char) (hds : ds.all Char.isDigit = true)
    (hrest : rest = [] ∨ ∃ c rest2, rest = c :: rest2 ∧ c.isDigit = false) :
    spanDigits (ds ++ rest) = (ds, rest) := by
  induction ds with
  | nil =>
    rcases hrest with h | ⟨c, rest2, hr, hc⟩
    · subst h; rfl
    · subst hr
      simp [spanDigits, hc]
  | cons d ds ih =>
    simp only [List.all_cons, Bool.and_eq_true] at hds
    simp [spanDigits, hds.1, ih hds.2]

theorem lexArith_digits (ds rest : List Char) (hne : ds ≠ [])
    (hds : ds.all Char.isDigit = true)
    (hrest : rest = [] ∨ ∃ c rest2, rest = c :: rest2 ∧ c.isDigit = false) :
    lexArith (ds ++ rest) = (lexArith rest).map (.num (digitsToNat ds) :: ·) := by
  cases ds with
  | nil => exact absurd rfl hne
  | cons d0 dtail =>
    simp only [List.all_cons, Bool.and_eq_true] at hds
    have hspan : spanDigits (dtail ++ rest) = (dtail, rest) :=
      spanDigits_exact _ _ hds.2 hrest
    rw [lexArith.eq_def]
    simp only [List.cons_append, isDigit_not_space hds.1, Bool.false_eq_true, if_false,
      hds.1, if_true, hspan]
    cases lexArith rest <;> rfl

theorem lexArith_nil : lexArith [] = some [] := by
  rw [lexArith.eq_def]

theorem lexArith_op (c : Char) (rest : List Char) (hop : isOpChar c = true) :
    lexArith (c :: rest) = (lexArith rest).map (.op c :: ·) := by
  rw [lexArith.eq_def]
  have hop' : (c = '+' || c = '-' || c = '*' || c = '/') = true := hop
  simp only [isOp_not_space hop, Bool.false_eq_true, if_false,
    isOp_not_digit hop, hop', if_true]
  cases lexArith rest <;> rfl

theorem lexArith_chain (pairs : List (Char × List Char)) :
    ∀ (d0 : List Char), d0 ≠ [] → d0.all Char.isDigit = true →
    (∀ p ∈ pairs, isOpChar p.1 = true ∧ p.2 ≠ [] ∧ p.2.all Char.isDigit = true) →
    lexArith (chainChars d0 pairs)
      = some (.num (digitsToNat d0) :: toksOf (pairs.map (fun p => (p.1, digitsToNat p.2)))) := by
  induction pairs with
  | nil =>
    intro d0 hne hds _
    unfold chainChars
    simp only [List.foldr_nil]
    rw [lexArith_digits d0 [] hne hds (Or.inl rfl), lexArith_nil]
    rfl
  | cons p rest ih =>
    intro d0 hne hds h
    obtain ⟨hop, hpne, hpds⟩ := h p (by simp)
    rcases p with ⟨c, d⟩
    show lexArith (d0 ++ (c :: (d ++ _))) = _
    rw [lexArith_digits d0 _ hne hds (Or.inr ⟨c, _, rfl, isOp_not_digit hop⟩)]
    rw [lexArith_op c _ hop]
    have := ih d hpne hpds (fun q hq => h q (by simp [hq]))
    unfold chainChars at this
    rw [this]
    rfl

theorem evalToks_op_num (acc pending : Rat) (c : Char) (n : Nat) (rest : List ATok) :
    evalToks acc pending (.op c :: .num n :: rest)
      = if c = '+' then evalToks (acc + pending) (n : Rat) rest
        else if c = '-' then evalToks (acc + pending) (-(n : Rat)) rest
        else if c = '*' then evalToks acc (pending * (n : Rat)) rest
        else if c = '/' then
          (if (n : Rat) = 0 then none else evalToks acc (pending / (n : Rat)) rest)
        else none := by
  rw [evalToks.eq_def]
  rfl

theorem evalToks_toksOf (l : List (Char × Nat))
    (h : ∀ p ∈ l, isOpChar p.1 = true) :
    ∀ acc pending : Rat, evalToks acc pending (toksOf l)
      = (termsOf pending (l.map (fun p => (p.1, (p.2 : Rat))))).map
          (fun ts => acc + ts.sum) := by
  induction l with
  | nil =>
    intro acc pending
    simp [evalToks, toksOf, termsOf]
  | cons p rest ih =>
    intro acc pending
    rcases p with ⟨c, n⟩
    have hop := (h (c, n) (by simp))
    have hrec := ih (fun q hq => h q (by simp [hq]))
    show evalToks acc pending (.op c :: .num n :: toksOf rest) = _
    rw [evalToks_op_num]
    simp only [isOpChar, Bool.or_eq_true, decide_eq_true_eq] at hop
    rcases hop with ((hc | hc) | hc) | hc <;> subst hc
    · simp only [if_pos rfl, List.map_cons, termsOf]
      rw [hrec]
      cases termsOf ((n : Nat) : Rat) (rest.map (fun p => (p.1, (p.2 : Rat)))) <;>
        simp [add_assoc]
    · simp only [if_neg (by decide : ¬('-' : Char) = '+'), if_pos rfl, List.map_cons,
        termsOf, if_neg (by decide : ¬('-' : Char) = '+')]
      rw [hrec]
      cases termsOf (-((n : Nat) : Rat)) (rest.map (fun p => (p.1, (p.2 : Rat)))) <;>
        simp [add_assoc]
    · simp only [if_neg (by decide : ¬('*' : Char) = '+'),
        if_neg (by decide : ¬('*' : Char) = '-'), if_pos rfl, List.map_cons, termsOf]
      rw [hrec]
      rfl
    · simp only [if_neg (by decide : ¬('/' : Char) = '+'),
        if_neg (by decide : ¬('/' : Char) = '-'),
        if_neg (by decide : ¬('/' : Char) = '*'), if_pos rfl, List.map_cons, termsOf]
      by_cases hz : ((n : Nat) : Rat) = 0
      · simp [hz]
      · simp only [if_neg hz]
        rw [hrec]
        rfl

end OSImager

namespace OSImager

theorem splitKeepGo_skip (k : List Char) (cur rest : List Char)
    (h : k.all (fun c => !isOpChar c) = true) :
    pySplitKeepOpsGo cur (k ++ rest) = pySplitKeepOpsGo (k.reverse ++ cur) rest := by
  induction k generalizing cur with
  | nil => simp
  | cons c k2 ih =>
    simp only [List.all_cons, Bool.and_eq_true, Bool.not_eq_true'] at h
    have hnc : (c = '+' || c = '-' || c = '*' || c = '/') = false := h.1
    simp only [List.cons_append, pySplitKeepOpsGo, hnc, Bool.false_eq_true, if_false]
    show pySplitKeepOpsGo (c :: cur) (k2 ++ rest) = _
    rw [ih (c :: cur) h.2]
    simp

theorem splitKeepGo_op (cur rest : List Char) (c : Char) (hop : isOpChar c = true) :
    pySplitKeepOpsGo cur (c :: rest)
      = ⟨cur.reverse⟩ :: String.singleton c :: pySplitKeepOpsGo [] rest := by
  have hop' : (c = '+' || c = '-' || c = '*' || c = '/') = true := hop
  simp [pySplitKeepOpsGo, hop']

theorem splitKeep_exprOf :
    ∀ (ks : List String) (ops : List Char) (k0 : String),
    ks.length = ops.length → opFree k0 = true → (∀ k ∈ ks, opFree k = true) →
    (∀ c ∈ ops, isOpChar c = true) →
    pySplitKeepOps (exprOf (k0 :: ks) ops) = partsOf (k0 :: ks) ops := by
  intro ks
  induction ks with
  | nil =>
    intro ops k0 hlen h0 _ _
    have hops : ops = [] := by
      cases ops with
      | nil => rfl
      | cons c cs => simp at hlen
    subst hops
    show pySplitKeepOpsGo [] (k0.data) = [k0]
    rw [show (k0.data) = k0.data ++ [] from (List.append_nil _).symm,
      splitKeepGo_skip k0.data [] [] h0]
    simp [pySplitKeepOpsGo]
  | cons k1 ks2 ih =>
    intro ops k0 hlen h0 hks hops
    cases ops with
    | nil => simp at hlen
    | cons c cs =>
      show pySplitKeepOpsGo [] ((exprOf (k0 :: k1 :: ks2) (c :: cs)).data)
          = partsOf (k0 :: k1 :: ks2) (c :: cs)
      have hd : (exprOf (k0 :: k1 :: ks2) (c :: cs)).data
          = k0.data ++ (c :: (exprOf (k1 :: ks2) cs).data) := by
        show (k0 ++ String.singleton c ++ exprOf (k1 :: ks2) cs).data = _
        simp [String.data_append, String.singleton]
      rw [hd, splitKeepGo_skip k0.data [] _ h0,
        splitKeepGo_op _ _ c (hops c (by simp))]
      have hih := ih cs k1 (by simpa using hlen) (hks k1 (by simp))
        (fun k hk => hks k (by simp [hk])) (fun x hx => hops x (by simp [hx]))
      simp only [List.append_nil, List.reverse_reverse]
      show k0 :: String.singleton c :: pySplitKeepOps (exprOf (k1 :: ks2) cs) = _
      rw [hih]
      rfl

theorem buildExpr_ok (defs : Dict) :
    ∀ (kvs : List (String × Value)) (ops : List Char),
    kvs.length = ops.length + 1 →
    (∀ kv ∈ kvs, dget defs kv.1 = some kv.2 ∧ pyTruthy kv.2 = true) →
    buildExpr defs (partsOf (kvs.map Prod.fst) ops)
      = some (exprOf (kvs.map (fun kv => pyStr kv.2)) ops) := by
  intro kvs
  induction kvs with
  | nil => intro ops hlen; simp at hlen
  | cons kv0 kvs2 ih =>
    intro ops hlen h
    obtain ⟨hd0, ht0⟩ := h kv0 (by simp)
    cases kvs2 with
    | nil =>
      have hops : ops = [] := by
        cases ops with
        | nil => rfl
        | cons c cs => simp at hlen
      subst hops
      show buildExpr defs [kv0.1] = _
      simp [buildExpr, hd0, ht0]
      rfl
    | cons kv1 kvs3 =>
      cases ops with
      | nil => simp at hlen
      | cons c cs =>
        show buildExpr defs (kv0.1 :: String.singleton c :: partsOf ((kv1 :: kvs3).map Prod.fst) cs) = _
        simp only [buildExpr, hd0, ht0, if_true]
        rw [ih cs (by simpa using hlen) (fun kv hkv => h kv (by simp [hkv]))]
        rfl

theorem buildExpr_bad (defs : Dict) :
    ∀ (ks : List String) (ops : List Char),
    ks.length = ops.length + 1 →
    (∃ k ∈ ks, dget defs k = none ∨ ∃ v, dget defs k = some v ∧ pyTruthy v = false) →
    buildExpr defs (partsOf ks ops) = none := by
  intro ks
  induction ks with
  | nil => intro ops hlen; simp at hlen
  | cons k0 ks2 ih =>
    intro ops hlen hbad
    obtain ⟨k, hk, hkbad⟩ := hbad
    by_cases hk0bad : dget defs k0 = none ∨ ∃ v, dget defs k0 = some v ∧ pyTruthy v = false
    · cases ks2 with
      | nil =>
        have hops : ops = [] := by
          cases ops with
          | nil => rfl
          | cons c cs => simp at hlen
        subst hops
        show buildExpr defs [k0] = none
        rcases hk0bad with hnone | ⟨v, hv, hf⟩
        · simp [buildExpr, hnone]
        · simp [buildExpr, hv, hf]
      | cons k1 ks3 =>
        cases ops with
        | nil => simp at hlen
        | cons c cs =>
          show buildExpr defs (k0 :: String.singleton c :: partsOf (k1 :: ks3) cs) = none
          rcases hk0bad with hnone | ⟨v, hv, hf⟩
          · simp [buildExpr, hnone]
          · simp [buildExpr, hv, hf]
    · have hk0 : k ≠ k0 := by
        intro he
        subst he
        exact hk0bad hkbad
      have hkmem : k ∈ ks2 := by
        rcases List.mem_cons.mp hk with he | hm
        · exact absurd he hk0
        · exact hm
      cases ks2 with
      | nil => simp at hkmem
      | cons k1 ks3 =>
        cases ops with
        | nil => simp at hlen
        | cons c cs =>
          show buildExpr defs (k0 :: String.singleton c :: partsOf (k1 :: ks3) cs) = none
          have hrec := ih cs (by simpa using hlen) ⟨k, hkmem, hkbad⟩
          cases hd0 : dget defs k0 with
          | none => simp [buildExpr, hd0]
          | some v0 =>
            by_cases ht0 : pyTruthy v0 = true
            · simp only [buildExpr, hd0, ht0, if_true]
              rw [hrec]
            · have ht0' : pyTruthy v0 = false := by
                cases hb : pyTruthy v0
                · rfl
                · exact absurd hb ht0
              simp [buildExpr, hd0, ht0']

end OSImager

namespace OSImager

theorem exprOf_data :
    ∀ (ss : List String) (ops : List Char) (s0 : String),
    ss.length = ops.length →
    (exprOf (s0 :: ss) ops).data
      = chainChars s0.data ((ops.zip ss).map (fun p => (p.1, p.2.data))) := by
  intro ss
  induction ss with
  | nil =>
    intro ops s0 hlen
    have hops : ops = [] := by
      cases ops with
      | nil => rfl
      | cons c cs => simp at hlen
    subst hops
    show s0.data = chainChars s0.data []
    simp [chainChars]
  | cons s1 ss2 ih =>
    intro ops s0 hlen
    cases ops with
    | nil => simp at hlen
    | cons c cs =>
      show (s0 ++ String.singleton c ++ exprOf (s1 :: ss2) cs).data = _
      rw [String.data_append, String.data_append]
      rw [ih cs s1 (by simpa using hlen)]
      show s0.data ++ (String.singleton c).data
            ++ chainChars s1.data ((cs.zip ss2).map (fun p => (p.1, p.2.data)))
          = chainChars s0.data (((c :: cs).zip (s1 :: ss2)).map (fun p => (p.1, p.2.data)))
      simp only [List.zip_cons_cons, List.map_cons]
      unfold chainChars
      simp [String.singleton, List.append_assoc]

theorem digitStr_parts {s : String} (h : digitStr s = true) :
    s.data ≠ [] ∧ s.data.all Char.isDigit = true := by
  unfold digitStr at h
  have hand := Bool.and_eq_true_iff.mp h
  refine ⟨?_, hand.2⟩
  intro he
  rw [he] at hand
  simp at hand

theorem evalArithInt_exprOf (vals : List String) (ops : List Char) (v0 : String)
    (hlen : vals.length = ops.length)
    (h0 : digitStr v0 = true)
    (hvals : ∀ v ∈ vals, digitStr v = true)
    (hops : ∀ c ∈ ops, isOpChar c = true) :
    evalArithInt (exprOf (v0 :: vals) ops)
      = (evalOpsSpec ((digitsToNat v0.data : Nat) : Rat)
          ((ops.zip vals).map (fun p => (p.1, ((digitsToNat p.2.data : Nat) : Rat))))).map
          ratTrunc := by
  unfold evalArithInt
  rw [exprOf_data vals ops v0 hlen]
  have hd0 := digitStr_parts h0
  have hpairs : ∀ p ∈ (ops.zip vals).map (fun p => (p.1, p.2.data)),
      isOpChar p.1 = true ∧ p.2 ≠ [] ∧ p.2.all Char.isDigit = true := by
    intro p hp
    simp only [List.mem_map] at hp
    obtain ⟨q, hq, hpq⟩ := hp
    have hmem := List.of_mem_zip hq
    have hv := digitStr_parts (hvals q.2 hmem.2)
    subst hpq
    exact ⟨hops q.1 hmem.1, hv.1, hv.2⟩
  rw [lexArith_chain _ v0.data hd0.1 hd0.2 hpairs]
  simp only [parseFactor]
  rw [evalToks_toksOf _ ?hops2]
  case hops2 =>
    intro p hp
    simp only [List.mem_map] at hp
    obtain ⟨q, hq, hpq⟩ := hp
    subst hpq
    obtain ⟨a, ha, haq⟩ := hq
    exact (hpairs q (List.mem_map.mpr ⟨a, ha, haq⟩)).1
  unfold evalOpsSpec
  have hmapmap : ((((ops.zip vals).map (fun p => (p.1, p.2.data))).map
        (fun p => (p.1, digitsToNat p.2))).map (fun p => (p.1, ((p.2 : Nat) : Rat))))
      = (ops.zip vals).map (fun p => (p.1, ((digitsToNat p.2.data : Nat) : Rat))) := by
    simp only [List.map_map]
    rfl
  rw [hmapmap]
  cases termsOf ((digitsToNat v0.data : Nat) : Rat)
      ((ops.zip vals).map (fun p => (p.1, ((digitsToNat p.2.data : Nat) : Rat)))) <;>
    simp

end OSImager

namespace OSImager

/-- The value's decimal form is a valid Python 3 integer literal: a
multi-digit chunk must not start with `0` (`eval("007")` is a
`SyntaxError` under PEP 3127). -/
def noLeadingZero (s : String) : Bool :=
  match s.data with
  | [] => false
  | [_] => true
  | c :: _ :: _ => c ≠ '0'

/-- **C6 (amended)** — `eval_expression` splits the token on `+ - * /`
keeping the operators and looks *every* operand chunk up in `defs`
(numeric literals included); if any looked-up operand is missing or falsy
the result is the empty string; when every operand is present, truthy,
and has a (nonempty, all-digit) decimal string form, and the expression
is division-free (`+ - *` only, where CPython computes in exact
arbitrary-precision `int` arithmetic), the operand chain is evaluated as
ordinary arithmetic with standard operator precedence (multiplicative
groups evaluated left to right, then summed — `evalOpsSpec`) and the
truncated integer is returned. The division-free hypothesis (and the
no-leading-zero proviso on the operand literals, PEP 3127) scopes the
theorem to where the model is faithful; division is exercised only by
the counterexample's division-by-zero path, where Python raises and an
`<eval-error:…>` string is returned. -/
theorem C6_eval_expression (defs : Dict) :
    (∀ (kv0 : String × Value) (kvs : List (String × Value)) (ops : List Char),
      kvs.length = ops.length →
      opFree kv0.1 = true → dget defs kv0.1 = some kv0.2 → pyTruthy kv0.2 = true →
      digitStr (pyStr kv0.2) = true → noLeadingZero (pyStr kv0.2) = true →
      (∀ kv ∈ kvs, opFree kv.1 = true ∧ dget defs kv.1 = some kv.2 ∧
        pyTruthy kv.2 = true ∧ digitStr (pyStr kv.2) = true ∧
        noLeadingZero (pyStr kv.2) = true) →
      (∀ c ∈ ops, isOpChar c = true) →
      (∀ c ∈ ops, ¬(c = '/')) →
      eval_expression (exprOf (kv0.1 :: kvs.map Prod.fst) ops) defs
        = match evalOpsSpec ((digitsToNat (pyStr kv0.2).data : Nat) : Rat)
            ((ops.zip kvs).map
              (fun p => (p.1, ((digitsToNat (pyStr p.2.2).data : Nat) : Rat)))) with
          | some q => .int (ratTrunc q)
          | none => .str "<eval-error>")
    ∧ (∀ (ks : List String) (ops : List Char),
      ks.length = ops.length + 1 →
      (∀ k ∈ ks, opFree k = true) → (∀ c ∈ ops, isOpChar c = true) →
      (∃ k ∈ ks, dget defs k = none ∨ ∃ v, dget defs k = some v ∧ pyTruthy v = false) →
      eval_expression (exprOf ks ops) defs = .str "") := by
  constructor
  · intro kv0 kvs ops hlen h0free hd0 ht0 hdig0 h0lz hkvs hops hnodiv
    unfold eval_expression
    rw [splitKeep_exprOf (kvs.map Prod.fst) ops kv0.1 (by simp [hlen]) h0free
      (by intro k hk
          simp only [List.mem_map] at hk
          obtain ⟨kv, hkv, hkk⟩ := hk
          subst hkk
          exact (hkvs kv hkv).1) hops]
    have hparts : (kv0.1 :: kvs.map Prod.fst) = (kv0 :: kvs).map Prod.fst := by simp
    rw [hparts, buildExpr_ok defs (kv0 :: kvs) ops (by simp [hlen])
      (by intro kv hkv
          rcases List.mem_cons.mp hkv with he | hm
          · subst he; exact ⟨hd0, ht0⟩
          · exact ⟨(hkvs kv hm).2.1, (hkvs kv hm).2.2.1⟩)]
    have hmape : (kv0 :: kvs).map (fun kv => pyStr kv.2)
        = pyStr kv0.2 :: kvs.map (fun kv => pyStr kv.2) := by simp
    rw [hmape]
    show (match evalArithInt (exprOf (pyStr kv0.2 :: kvs.map (fun kv => pyStr kv.2)) ops) with
      | some n => Value.int n
      | none => Value.str "<eval-error>") = _
    rw [evalArithInt_exprOf (kvs.map (fun kv => pyStr kv.2)) ops (pyStr kv0.2)
      (by simp [hlen]) hdig0
      (by intro v hv
          simp only [List.mem_map] at hv
          obtain ⟨kv, hkv, hvv⟩ := hv
          subst hvv
          exact (hkvs kv hkv).2.2.2.1) hops]
    rw [List.zip_map_right]
    simp only [List.map_map]
    have hfuneq : ((fun p => (p.1, ((digitsToNat (String.data p.2) : Nat) : Rat)))
          ∘ (Prod.map id (fun kv => pyStr kv.2)) :
            Char × (String × Value) → Char × Rat)
        = fun p => (p.1, ((digitsToNat (pyStr p.2.2).data : Nat) : Rat)) := by
      funext p
      rcases p with ⟨c, kv⟩
      rfl
    rw [hfuneq]
    cases evalOpsSpec ((digitsToNat (pyStr kv0.2).data : Nat) : Rat)
        ((ops.zip kvs).map
          (fun p => (p.1, ((digitsToNat (pyStr p.2.2).data : Nat) : Rat)))) <;> rfl
  · intro ks ops hlen hfree hops hbad
    cases ks with
    | nil => simp at hlen
    | cons k0 ks2 =>
      unfold eval_expression
      rw [splitKeep_exprOf ks2 ops k0 (by simpa using hlen) (hfree k0 (by simp))
        (fun k hk => hfree k (by simp [hk])) hops]
      rw [buildExpr_bad defs (k0 :: ks2) ops hlen hbad]

/-- Defs for the C6 examples. -/
def defsC6 : Dict := [("a", .str "2"), ("b", .str "3"), ("c", .str "4")]

theorem C6_eval_expression_witness :
    eval_expression (exprOf ["a", "b", "c"] ['+', '*']) defsC6
      = (match evalOpsSpec ((digitsToNat (pyStr (Value.str "2")).data : Nat) : Rat)
            [('+', ((digitsToNat (pyStr (Value.str "3")).data : Nat) : Rat)),
             ('*', ((digitsToNat (pyStr (Value.str "4")).data : Nat) : Rat))] with
          | some q => Value.int (ratTrunc q)
          | none => Value.str "<eval-error>")
    ∧ exprOf ["a", "b", "c"] ['+', '*'] = "a+b*c"
    ∧ eval_expression (exprOf ["q", "b"] ['+']) defsC6 = .str "" :=
  ⟨(C6_eval_expression defsC6).1 ("a", .str "2") [("b", .str "3"), ("c", .str "4")]
      ['+', '*'] (by decide) (by decide) (by decide) (by decide) (by decide)
      (by decide) (by decide) (by decide) (by decide),
   by decide,
   (C6_eval_expression defsC6).2 ["q", "b"] ['+'] (by decide) (by decide) (by decide)
     ⟨"q", by decide, by decide⟩⟩

/-- **C6 counterexample** — two refutations. (1) With `defs a = "1"`,
`defs b = "0"` both operands are present and truthy (nonempty strings),
yet `a/b` evaluates to the `<eval-error:…>` string (Python's `eval`
raises `ZeroDivisionError`), not to an integer as the claim's
"otherwise … returning an integer" requires. (2) The claim's "each
*alphabetic* operand is looked up" is also wrong: every chunk is looked
up (`defs.get(key, None)` on each split part), so with `defs a = "2"`
the token `a+1` resolves to `""` because the numeric literal `1` is not
a defs key — nothing is evaluated. -/
theorem C6_counterexample :
    (eval_expression "a/b" [("a", .str "1"), ("b", .str "0")] = .str "<eval-error>"
      ∧ pyTruthy (.str "0") = true ∧ pyTruthy (.str "1") = true)
    ∧ eval_expression "a+1" [("a", .str "2")] = .str "" := by
  refine ⟨⟨?_, by decide, by decide⟩, by decide⟩
  simp +decide [eval_expression, pySplitKeepOps, pySplitKeepOpsGo, buildExpr, dget,
    pyTruthy, pyStr, evalArithInt, lexArith, spanDigits, digitsToNat, parseFactor,
    evalToks, ratTrunc, isPySpace]

end OSImager

namespace OSImager

/-! ## A scanning toolkit for the marker-substitution theorems -/

/-- Characters of the surrounding literal text in the substitution
theorems: letters, digits and spaces, none of which any marker delimiter
uses. -/
def plainChar (c : Char) : Bool := c.isAlphanum || c = ' '

/-- Every character of `s` is a `plainChar`. -/
def plainStr (s : String) : Bool := s.data.all plainChar

/-- The per-character test of `isvarname`. -/
def varChar (c : Char) : Bool :=
  c.isAlphanum || c = '_' || c = '/' || c = ',' || c = ':'

theorem isvarname_chars {k : String} (h : isvarname k = true) :
    ∀ c ∈ k.data, varChar c = true := by
  unfold isvarname at h
  obtain ⟨h1, -⟩ := Bool.and_eq_true_iff.mp h
  obtain ⟨-, h2⟩ := Bool.and_eq_true_iff.mp h1
  intro c hc
  exact List.all_eq_true.mp h2 c hc

theorem chars_not_mem {p : Char → Bool} {l : List Char}
    (h : ∀ c ∈ l, p c = true) {c0 : Char} (hc0 : p c0 = false) : c0 ∉ l := by
  intro hm
  rw [h c0 hm] at hc0
  exact Bool.noConfusion hc0

theorem chars_no_newline {p : Char → Bool} {l : List Char}
    (h : ∀ c ∈ l, p c = true) (hr : p '\r' = false) (hn : p '\n' = false) :
    ∀ c ∈ l, ¬(c = '\r') ∧ ¬(c = '\n') := by
  intro c hm
  constructor
  · intro he; subst he; rw [h _ hm] at hr; exact Bool.noConfusion hr
  · intro he; subst he; rw [h _ hm] at hn; exact Bool.noConfusion hn

/-- The character alphabet of `pre ++ ">>" ++ k ++ "<<" ++ post` with plain
`pre`, `post` and a variable-name token `k`. -/
def markerChar (c : Char) : Bool :=
  plainChar c || varChar c || c = '>' || c = '<'

theorem marker_text_chars {pre post k : String}
    (hpre : plainStr pre = true) (hpost : plainStr post = true)
    (hk : isvarname k = true) :
    ∀ c ∈ pre.data ++ '>' :: '>' :: (k.data ++ '<' :: '<' :: post.data),
      markerChar c = true := by
  intro c hc
  unfold markerChar
  simp only [List.mem_append, List.mem_cons] at hc
  rcases hc with h | h | h | h | h | h | h
  · rw [List.all_eq_true.mp hpre c h]; rfl
  · subst h; rfl
  · subst h; rfl
  · rw [isvarname_chars hk c h]; simp
  · subst h; simp
  · subst h; simp
  · rw [List.all_eq_true.mp hpost c h]; rfl

theorem isPrefixOf_subset {pat s : List Char} (h : pat.isPrefixOf s = true) :
    ∀ c ∈ pat, c ∈ s :=
  fun _ hc => (List.isPrefixOf_iff_prefix.mp h).subset hc

theorem splitFirst_none_of_mem {pat : List Char} {c0 : Char}
    (hc : c0 ∈ pat) : ∀ {s : List Char}, c0 ∉ s → splitFirst pat s = none := by
  intro s
  induction s with
  | nil =>
    intro _
    cases pat with
    | nil => cases hc
    | cons a l => simp [splitFirst]
  | cons c cs ih =>
    intro hs
    have hne : c0 ≠ c := fun he => hs (he ▸ List.mem_cons_self c cs)
    have hcs : c0 ∉ cs := fun hm => hs (List.mem_cons_of_mem c hm)
    have hnp : pat.isPrefixOf (c :: cs) = false := by
      by_contra hcon
      have : pat.isPrefixOf (c :: cs) = true := by
        cases hb : pat.isPrefixOf (c :: cs) with
        | false => exact absurd hb hcon
        | true => rfl
      exact hs (isPrefixOf_subset this c0 hc)
    unfold splitFirst
    rw [hnp]
    simp only [Bool.false_eq_true, if_false]
    rw [ih hcs]

/-- `splitFirst` finds the occurrence after a prefix free of the pattern's
first character. -/
theorem splitFirst_at (p0 : Char) (pt : List Char) :
    ∀ (pre rest : List Char), p0 ∉ pre →
      splitFirst (p0 :: pt) (pre ++ ((p0 :: pt) ++ rest)) = some (pre, rest) := by
  intro pre
  induction pre with
  | nil =>
    intro rest _
    show splitFirst (p0 :: pt) (p0 :: (pt ++ rest)) = _
    have hp : (p0 :: pt).isPrefixOf (p0 :: (pt ++ rest)) = true :=
      List.isPrefixOf_iff_prefix.mpr ⟨rest, rfl⟩
    unfold splitFirst
    rw [hp]
    simp only [if_true]
    rw [show p0 :: (pt ++ rest) = (p0 :: pt) ++ rest from rfl]
    rw [List.drop_left]
  | cons c pre ih =>
    intro rest hmem
    have hne : p0 ≠ c := fun he => hmem (he ▸ List.mem_cons_self c pre)
    have hpre : p0 ∉ pre := fun hm => hmem (List.mem_cons_of_mem c hm)
    show splitFirst (p0 :: pt) (c :: (pre ++ ((p0 :: pt) ++ rest))) = _
    have hnp : (p0 :: pt).isPrefixOf (c :: (pre ++ ((p0 :: pt) ++ rest))) = false := by
      simp only [List.isPrefixOf, Bool.and_eq_false_iff]
      left
      exact beq_eq_false_iff_ne.mpr hne
    unfold splitFirst
    rw [hnp]
    simp only [Bool.false_eq_true, if_false]
    rw [ih rest hpre]

end OSImager

namespace OSImager

theorem splitlinesGo_no_newline (l : List Char) :
    ∀ cur, (∀ c ∈ l, ¬(c = '\r') ∧ ¬(c = '\n')) →
      splitlinesGo cur l = [cur.reverse ++ l] := by
  induction l with
  | nil => intro cur _; simp [splitlinesGo]
  | cons c rest ih =>
    intro cur h
    have hc := h c (List.mem_cons_self c rest)
    cases rest with
    | nil => simp [splitlinesGo, hc.1, hc.2]
    | cons c2 rest2 =>
      have h2 : ∀ x ∈ c2 :: rest2, ¬(x = '\r') ∧ ¬(x = '\n') :=
        fun x hx => h x (List.mem_cons_of_mem c hx)
      show splitlinesGo cur (c :: c2 :: rest2) = _
      unfold splitlinesGo
      rw [if_neg hc.1, if_neg hc.2, ih (c :: cur) h2]
      simp

theorem pySplitlines_single {r : String} (hne : r.data ≠ [])
    (hnl : ∀ c ∈ r.data, ¬(c = '\r') ∧ ¬(c = '\n')) :
    pySplitlines r = [r.data] := by
  unfold pySplitlines
  rw [if_neg (by simp [hne]), splitlinesGo_no_newline r.data [] hnl]
  simp

theorem extractLineF_stop {startP : List Char} {s : List Char}
    (h : splitFirst startP s = none) (endP : List Char) :
    ∀ f, extractLineF startP endP f s = [] := by
  intro f
  cases f with
  | zero => rfl
  | succ f => unfold extractLineF; rw [h]

/-- No matches at all when some character of the start delimiter does not
occur in the (newline-free) text. -/
theorem extract_all_empty (r : String) (sp ep : String) (c0 : Char)
    (hc0 : c0 ∈ sp.data) (hmem : c0 ∉ r.data)
    (hnl : ∀ c ∈ r.data, ¬(c = '\r') ∧ ¬(c = '\n')) :
    extract_all r sp ep = [] := by
  unfold extract_all
  cases hr : r.data with
  | nil => unfold pySplitlines; rw [hr]; simp
  | cons a l =>
    rw [pySplitlines_single (by rw [hr]; simp) hnl]
    simp only [List.map_cons, List.map_nil, List.flatten_cons, List.flatten_nil,
      List.append_nil]
    unfold extractLine
    have hs : splitFirst sp.data r.data = none := splitFirst_none_of_mem hc0 hmem
    by_cases hie : (sp.data.isEmpty || ep.data.isEmpty) = true
    · rw [if_pos hie]; simp
    · rw [if_neg hie, extractLineF_stop hs ep.data]; simp

/-- The `>>name<<` family extracts exactly the one token of a text of the
shape `pre ++ ">>" ++ k ++ "<<" ++ post` (no `>` outside the delimiters,
no `<` in the token). -/
theorem extract_all_marker (r : String) (pre post : List Char) (k : String)
    (hr : r.data = pre ++ '>' :: '>' :: (k.data ++ '<' :: '<' :: post))
    (hk2 : '<' ∉ k.data) (hpre : '>' ∉ pre) (hpost : '>' ∉ post)
    (hnl : ∀ c ∈ r.data, ¬(c = '\r') ∧ ¬(c = '\n')) :
    extract_all r ">>" "<<" = [k] := by
  unfold extract_all
  have hne : r.data ≠ [] := by rw [hr]; cases pre <;> simp
  rw [pySplitlines_single hne hnl]
  simp only [List.map_cons, List.map_nil, List.flatten_cons, List.flatten_nil,
    List.append_nil]
  unfold extractLine
  rw [if_neg (by simp)]
  unfold extractLineF
  rw [show r.data = pre ++ (['>', '>'] ++ (k.data ++ (['<', '<'] ++ post))) by
    rw [hr]; simp]
  simp only [splitFirst_at '>' ['>'] pre (k.data ++ (['<', '<'] ++ post)) hpre,
    splitFirst_at '<' ['<'] k.data post hk2,
    extractLineF_stop (splitFirst_none_of_mem (List.mem_cons_self '>' ['>']) hpost) ['<', '<'],
    List.map_cons, List.map_nil]

theorem prefix_pair_head {a b c : Char} {xs : List Char}
    (h : ([a, b] : List Char).isPrefixOf (c :: xs) = true) :
    a = c ∧ ∃ ys, xs = b :: ys := by
  cases xs with
  | nil => simp [List.isPrefixOf] at h
  | cons d ys =>
    simp only [List.isPrefixOf, Bool.and_eq_true_iff, beq_iff_eq] at h
    refine ⟨h.1, ys, ?_⟩
    rw [h.2.1]

/-- No occurrence of a start delimiter `a>` (`a ≠ '>'`) in a text of the
marker shape when `a` is not the last character of `pre`. -/
theorem splitFirst_guard (a : Char) (ha : ¬(a = '>')) :
    ∀ (pre k post : List Char),
      '>' ∉ pre → '>' ∉ k → '>' ∉ post → ¬(pre.getLast? = some a) →
      splitFirst [a, '>'] (pre ++ '>' :: '>' :: (k ++ '<' :: '<' :: post)) = none := by
  intro pre
  induction pre with
  | nil =>
    intro k post _ hk hpost _
    show splitFirst [a, '>'] ('>' :: ('>' :: (k ++ '<' :: '<' :: post))) = none
    have hnp1 : ([a, '>'] : List Char).isPrefixOf ('>' :: ('>' :: (k ++ '<' :: '<' :: post))) = false := by
      simp only [List.isPrefixOf, Bool.and_eq_false_iff]
      left; exact beq_eq_false_iff_ne.mpr ha
    unfold splitFirst
    rw [hnp1]
    simp only [Bool.false_eq_true, if_false]
    have hnp2 : ([a, '>'] : List Char).isPrefixOf ('>' :: (k ++ '<' :: '<' :: post)) = false := by
      simp only [List.isPrefixOf, Bool.and_eq_false_iff]
      left; exact beq_eq_false_iff_ne.mpr ha
    unfold splitFirst
    rw [hnp2]
    simp only [Bool.false_eq_true, if_false]
    have hmem : '>' ∉ k ++ '<' :: '<' :: post := by
      intro hm
      rcases List.mem_append.mp hm with h | h
      · exact hk h
      · rcases List.mem_cons.mp h with h | h
        · exact absurd h.symm (by decide)
        · rcases List.mem_cons.mp h with h | h
          · exact absurd h.symm (by decide)
          · exact hpost h
    rw [splitFirst_none_of_mem (by simp) hmem]
  | cons c pre ih =>
    intro k post hpre hk hpost hlast
    have hpre2 : '>' ∉ pre := fun hm => hpre (List.mem_cons_of_mem c hm)
    show splitFirst [a, '>'] (c :: (pre ++ '>' :: '>' :: (k ++ '<' :: '<' :: post))) = none
    have hnp : ([a, '>'] : List Char).isPrefixOf
        (c :: (pre ++ '>' :: '>' :: (k ++ '<' :: '<' :: post))) = false := by
      cases hb : ([a, '>'] : List Char).isPrefixOf
          (c :: (pre ++ '>' :: '>' :: (k ++ '<' :: '<' :: post))) with
      | false => rfl
      | true =>
        exfalso
        obtain ⟨hac, ys, hys⟩ := prefix_pair_head hb
        cases pre with
        | nil =>
          exact hlast (by rw [hac]; rfl)
        | cons d pre2 =>
          have h1 : d = '>' := by
            injection hys
          apply hpre2
          rw [h1]
          exact List.mem_cons_self '>' pre2
    unfold splitFirst
    rw [hnp]
    simp only [Bool.false_eq_true, if_false]
    have hlast2 : ¬(pre.getLast? = some a) := by
      cases pre with
      | nil => simp
      | cons d pre2 =>
        intro he
        apply hlast
        rw [List.getLast?_cons_cons]
        exact he
    rw [ih k post hpre2 hk hpost hlast2]

/-- Family `a>`/`ep` extracts nothing from a marker-shaped text when `a`
does not end `pre`. -/
theorem extract_all_guard (r : String) (a : Char) (ep : String)
    (ha : ¬(a = '>')) (pre post : List Char) (k : String)
    (hr : r.data = pre ++ '>' :: '>' :: (k.data ++ '<' :: '<' :: post))
    (hpre : '>' ∉ pre) (hk : '>' ∉ k.data) (hpost : '>' ∉ post)
    (hlast : ¬(pre.getLast? = some a))
    (hnl : ∀ c ∈ r.data, ¬(c = '\r') ∧ ¬(c = '\n')) :
    extract_all r ⟨[a, '>']⟩ ep = [] := by
  unfold extract_all
  have hne : r.data ≠ [] := by rw [hr]; cases pre <;> simp
  rw [pySplitlines_single hne hnl]
  simp only [List.map_cons, List.map_nil, List.flatten_cons, List.flatten_nil,
    List.append_nil]
  unfold extractLine
  by_cases hie : ((String.mk [a, '>']).data.isEmpty || ep.data.isEmpty) = true
  · rw [if_pos hie]; simp
  · rw [if_neg hie]
    have hs : splitFirst (String.mk [a, '>']).data r.data = none := by
      show splitFirst [a, '>'] r.data = none
      rw [hr]
      exact splitFirst_guard a ha pre k.data post hpre hk hpost hlast
    rw [extractLineF_stop hs ep.data]
    simp

end OSImager

namespace OSImager

theorem replaceAllF_no_occ {p0 : Char} {pat : List Char} (rep : List Char)
    (hp : pat = p0 :: pat.tail) :
    ∀ (s : List Char) (f : Nat), p0 ∉ s → replaceAllF pat rep f s = s := by
  intro s
  induction s with
  | nil =>
    intro f _
    cases f with
    | zero => rfl
    | succ f => rfl
  | cons c cs ih =>
    intro f hs
    have hne : p0 ≠ c := fun he => hs (he ▸ List.mem_cons_self c cs)
    have hcs : p0 ∉ cs := fun hm => hs (List.mem_cons_of_mem c hm)
    cases f with
    | zero => rfl
    | succ f =>
      have hnp : pat.isPrefixOf (c :: cs) = false := by
        rw [hp]
        simp only [List.isPrefixOf, Bool.and_eq_false_iff]
        left; exact beq_eq_false_iff_ne.mpr hne
      unfold replaceAllF
      rw [hnp]
      simp only [Bool.false_eq_true, if_false]
      rw [ih f hcs]

theorem replaceAllF_step (pat rep : List Char) (f : Nat) (c : Char) (cs : List Char) :
    replaceAllF pat rep (f + 1) (c :: cs)
      = if pat.isPrefixOf (c :: cs) then
          rep ++ replaceAllF pat rep f ((c :: cs).drop pat.length)
        else c :: replaceAllF pat rep f cs := rfl

theorem replaceAllF_skip {p0 : Char} {pat : List Char} (rep : List Char)
    (hp : pat = p0 :: pat.tail) :
    ∀ (pre : List Char) (f : Nat) (rest : List Char), p0 ∉ pre →
      replaceAllF pat rep (pre.length + f) (pre ++ rest)
        = pre ++ replaceAllF pat rep f rest := by
  intro pre
  induction pre with
  | nil => intro f rest _; simp
  | cons c pre ih =>
    intro f rest hmem
    have hne : p0 ≠ c := fun he => hmem (he ▸ List.mem_cons_self c pre)
    have hpre : p0 ∉ pre := fun hm => hmem (List.mem_cons_of_mem c hm)
    have hfl : (c :: pre).length + f = (pre.length + f) + 1 := by
      simp only [List.length_cons]; omega
    rw [hfl]
    show replaceAllF pat rep (pre.length + f + 1) (c :: (pre ++ rest)) = _
    have hnp : pat.isPrefixOf (c :: (pre ++ rest)) = false := by
      rw [hp]
      simp only [List.isPrefixOf, Bool.and_eq_false_iff]
      left; exact beq_eq_false_iff_ne.mpr hne
    rw [replaceAllF_step, if_neg (by simp [hnp]), ih f rest hpre]
    rfl

theorem replaceAllF_match {pat : List Char} (rep : List Char) (f : Nat)
    (rest : List Char) (p0 : Char) (hp : pat = p0 :: pat.tail) :
    replaceAllF pat rep (f + 1) (pat ++ rest) = rep ++ replaceAllF pat rep f rest := by
  have hshape : pat ++ rest = p0 :: (pat.tail ++ rest) := by rw [hp]; rfl
  have hpp : pat.isPrefixOf (p0 :: (pat.tail ++ rest)) = true := by
    rw [← hshape]
    exact List.isPrefixOf_iff_prefix.mpr ⟨rest, rfl⟩
  rw [hshape, replaceAllF_step, if_pos hpp, ← hshape, List.drop_left]

/-- `s.replace(pat, rep)` on a string with exactly one occurrence of
`pat`, located by the absence of `pat`'s first character elsewhere. -/
theorem pyReplace_single (pre post : List Char) (pat rep : String)
    (p0 : Char) (hp : pat.data = p0 :: pat.data.tail)
    (hpre : p0 ∉ pre) (hpost : p0 ∉ post) :
    pyReplace ⟨pre ++ (pat.data ++ post)⟩ pat rep = ⟨pre ++ (rep.data ++ post)⟩ := by
  unfold pyReplace
  rw [if_neg (by rw [hp]; simp)]
  show String.mk (replaceAllF pat.data rep.data
    ((pre ++ (pat.data ++ post)).length + 1) (pre ++ (pat.data ++ post))) = _
  have hlen : (pre ++ (pat.data ++ post)).length + 1
      = pre.length + (pat.data.length + post.length + 1) := by
    simp only [List.length_append]; omega
  rw [hlen]
  rw [replaceAllF_skip rep.data hp pre (pat.data.length + post.length + 1)
    (pat.data ++ post) hpre]
  rw [show pat.data.length + post.length + 1 = (pat.data.length + post.length) + 1 from rfl]
  rw [replaceAllF_match rep.data (pat.data.length + post.length) post p0 hp]
  rw [replaceAllF_no_occ rep.data hp post (pat.data.length + post.length) hpost]

end OSImager

namespace OSImager

/-- A non-null resolver result passes the `if repl is None` normalisation
unchanged. -/
theorem nonnull_id {v : Value} (h : ¬(v = .vnull)) :
    (match v with | .vnull => Value.str "" | r => r) = v := by
  cases v
  case vnull => exact absurd rfl h
  all_goals rfl

/-- A family whose delimiters extract nothing leaves the string unchanged
and moves on. -/
theorem substrActions_cons_empty (ctx : Imager) (r : String)
    (a : Nat) (sp ep : String) (rest : List (Nat × String × String))
    (h : extract_all r sp ep = []) :
    substrActions ctx r ((a, sp, ep) :: rest) = substrActions ctx r rest := by
  simp [substrActions, h, substrTokens]

/-- Family 2 skips a token whose defs value is Python `False`. -/
theorem substrTokens_skip_false (ctx : Imager) (sp ep result tok : String)
    (rest : List String) (hk : isvarname tok = true)
    (hv : dget ctx.defs tok = some (.bool false)) :
    substrTokens ctx 2 sp ep result (tok :: rest)
      = substrTokens ctx 2 sp ep result rest := by
  simp [substrTokens, hk, action_handler, get_default, hv]

/-- Family 2 on a whole-string token returns the raw defs value. -/
theorem substrTokens_whole (ctx : Imager) (sp ep result tok : String)
    (rest : List String) (v : Value) (hk : isvarname tok = true)
    (hv : dget ctx.defs tok = some v) (hvf : ¬(v = .bool false))
    (hvn : ¬(v = .vnull)) (heq : pyStrip result = sp ++ tok ++ ep) :
    substrTokens ctx 2 sp ep result (tok :: rest) = some (.done v) := by
  cases v with
  | bool b =>
    cases b with
    | false => exact absurd rfl hvf
    | true => simp [substrTokens, hk, action_handler, get_default, hv, heq]
  | vnull => exact absurd rfl hvn
  | _ => simp [substrTokens, hk, action_handler, get_default, hv, heq]

/-- Family 2 on a non-whole-string token substitutes the value's string
form and continues. -/
theorem substrTokens_replace (ctx : Imager) (sp ep result tok : String)
    (rest : List String) (v : Value) (hk : isvarname tok = true)
    (hv : dget ctx.defs tok = some v) (hvf : ¬(v = .bool false))
    (hvn : ¬(v = .vnull)) (hne : ¬(pyStrip result = sp ++ tok ++ ep)) :
    substrTokens ctx 2 sp ep result (tok :: rest)
      = substrTokens ctx 2 sp ep (pyReplace result (sp ++ tok ++ ep) (pyStr v)) rest := by
  cases v with
  | bool b =>
    cases b with
    | false => exact absurd rfl hvf
    | true => simp [substrTokens, hk, action_handler, get_default, hv, hne]
  | vnull => exact absurd rfl hvn
  | _ => simp [substrTokens, hk, action_handler, get_default, hv, hne]

end OSImager

namespace OSImager

theorem plainStr_chars {s : String} (h : plainStr s = true) :
    ∀ c ∈ s.data, plainChar c = true :=
  fun c hc => List.all_eq_true.mp h c hc

theorem listInfix_singleton {c : Char} :
    ∀ {s : List Char}, c ∈ s → listInfix [c] s = true := by
  intro s
  induction s with
  | nil => intro h; cases h
  | cons d ds ih =>
    intro h
    unfold listInfix
    rcases List.mem_cons.mp h with he | hm
    · subst he
      simp [List.isPrefixOf]
    · rw [ih hm]
      simp

/-- The `.data` of the five-way append used by the substitution theorems. -/
theorem marker_append_data (pre post k : String) :
    (pre ++ ">>" ++ k ++ "<<" ++ post).data
      = pre.data ++ '>' :: '>' :: (k.data ++ '<' :: '<' :: post.data) := by
  have h2 : (">>" : String).data = ['>', '>'] := rfl
  have h3 : ("<<" : String).data = ['<', '<'] := rfl
  simp [String.data_append, h2, h3]

/-- C8: when the family-2 resolver's defs value is Python `False`, the
`>>k<<` occurrence is left untouched and the surrounding text survives all
twelve marker families unchanged. (The `pre`-suffix hypotheses keep the
fixed text from accidentally forming a `1>`/`5>`/`6>`/`E>` delimiter with
the marker's own `>`.) -/
theorem C8_false_untouched (ctx : Imager) (k pre post : String)
    (hk : isvarname k = true)
    (hv : dget ctx.defs k = some (.bool false))
    (hpre : plainStr pre = true) (hpost : plainStr post = true)
    (h1 : ¬(pre.data.getLast? = some '1'))
    (h5 : ¬(pre.data.getLast? = some '5'))
    (h6 : ¬(pre.data.getLast? = some '6'))
    (hE : ¬(pre.data.getLast? = some 'E')) :
    do_substr (pre ++ ">>" ++ k ++ "<<" ++ post) ctx
      = some (.str (pre ++ ">>" ++ k ++ "<<" ++ post)) := by
  have htext := marker_append_data pre post k
  have hchars : ∀ c ∈ (pre ++ ">>" ++ k ++ "<<" ++ post).data, markerChar c = true := by
    simp only [htext]; exact marker_text_chars hpre hpost hk
  have hnl : ∀ c ∈ (pre ++ ">>" ++ k ++ "<<" ++ post).data, ¬(c = '\r') ∧ ¬(c = '\n') :=
    chars_no_newline hchars (by decide) (by decide)
  have hprech : '>' ∉ pre.data := chars_not_mem (plainStr_chars hpre) (by decide)
  have hpostch : '>' ∉ post.data := chars_not_mem (plainStr_chars hpost) (by decide)
  have hkgt : '>' ∉ k.data := chars_not_mem (isvarname_chars hk) (by decide)
  have hklt : '<' ∉ k.data := chars_not_mem (isvarname_chars hk) (by decide)
  have hcont : strContains (pre ++ ">>" ++ k ++ "<<" ++ post) ">" = true := by
    unfold strContains
    rw [show ((">" : String).data) = ['>'] from rfl]
    apply listInfix_singleton
    rw [htext]
    simp
  have hds : do_substr (pre ++ ">>" ++ k ++ "<<" ++ post) ctx
      = substrActions ctx (pre ++ ">>" ++ k ++ "<<" ++ post) ACTIONS := by
    unfold do_substr
    rw [hcont]
    rfl
  rw [hds]
  simp only [ACTIONS]
  rw [substrActions_cons_empty ctx _ 1 "%>" "<%" _
    (extract_all_empty _ "%>" "<%" '%' (by decide) (chars_not_mem hchars (by decide)) hnl)]
  have hfam2 : extract_all (pre ++ ">>" ++ k ++ "<<" ++ post) ">>" "<<" = [k] :=
    extract_all_marker _ pre.data post.data k htext hklt hprech hpostch hnl
  have hstep2 : substrActions ctx (pre ++ ">>" ++ k ++ "<<" ++ post)
      ((2, ">>", "<<") :: [(3, "+>", "<+"), (4, "*>", "<*"),
       (5, "|>", "<|"), (6, "#>", "<#"), (7, "$>", "<$"), (8, "1>", "<1"),
       (9, "5>", "<5"), (10, "6>", "<6"), (11, "E>", "<E"), (12, "[>", "<]")])
      = substrActions ctx (pre ++ ">>" ++ k ++ "<<" ++ post)
      [(3, "+>", "<+"), (4, "*>", "<*"),
       (5, "|>", "<|"), (6, "#>", "<#"), (7, "$>", "<$"), (8, "1>", "<1"),
       (9, "5>", "<5"), (10, "6>", "<6"), (11, "E>", "<E"), (12, "[>", "<]")] := by
    simp only [substrActions, hfam2]
    rw [substrTokens_skip_false ctx ">>" "<<" _ k [] hk hv]
    simp [substrTokens]
  rw [hstep2]
  rw [substrActions_cons_empty ctx _ 3 "+>" "<+" _
    (extract_all_empty _ "+>" "<+" '+' (by decide) (chars_not_mem hchars (by decide)) hnl)]
  rw [substrActions_cons_empty ctx _ 4 "*>" "<*" _
    (extract_all_empty _ "*>" "<*" '*' (by decide) (chars_not_mem hchars (by decide)) hnl)]
  rw [substrActions_cons_empty ctx _ 5 "|>" "<|" _
    (extract_all_empty _ "|>" "<|" '|' (by decide) (chars_not_mem hchars (by decide)) hnl)]
  rw [substrActions_cons_empty ctx _ 6 "#>" "<#" _
    (extract_all_empty _ "#>" "<#" '#' (by decide) (chars_not_mem hchars (by decide)) hnl)]
  rw [substrActions_cons_empty ctx _ 7 "$>" "<$" _
    (extract_all_empty _ "$>" "<$" '$' (by decide) (chars_not_mem hchars (by decide)) hnl)]
  have hfam8 : extract_all (pre ++ ">>" ++ k ++ "<<" ++ post) "1>" "<1" = [] :=
    extract_all_guard _ '1' "<1" (by decide) pre.data post.data k htext
      hprech hkgt hpostch h1 hnl
  rw [substrActions_cons_empty ctx _ 8 "1>" "<1" _ hfam8]
  have hfam9 : extract_all (pre ++ ">>" ++ k ++ "<<" ++ post) "5>" "<5" = [] :=
    extract_all_guard _ '5' "<5" (by decide) pre.data post.data k htext
      hprech hkgt hpostch h5 hnl
  rw [substrActions_cons_empty ctx _ 9 "5>" "<5" _ hfam9]
  have hfam10 : extract_all (pre ++ ">>" ++ k ++ "<<" ++ post) "6>" "<6" = [] :=
    extract_all_guard _ '6' "<6" (by decide) pre.data post.data k htext
      hprech hkgt hpostch h6 hnl
  rw [substrActions_cons_empty ctx _ 10 "6>" "<6" _ hfam10]
  have hfam11 : extract_all (pre ++ ">>" ++ k ++ "<<" ++ post) "E>" "<E" = [] :=
    extract_all_guard _ 'E' "<E" (by decide) pre.data post.data k htext
      hprech hkgt hpostch hE hnl
  rw [substrActions_cons_empty ctx _ 11 "E>" "<E" _ hfam11]
  rw [substrActions_cons_empty ctx _ 12 "[>" "<]" _
    (extract_all_empty _ "[>" "<]" '[' (by decide) (chars_not_mem hchars (by decide)) hnl)]
  rfl

end OSImager

namespace OSImager

/-- Context for the C8 counterexample: `defs` holds an unrelated value and
the DNS oracle fails on every lookup (`get_ip` returns `None`). -/
def ctxC8 : Imager := { defs := [("h", .str "x")] }

/-- C8 counterexample: the family-4 DNS resolver yields "no value"
(`get_ip` returns `None` because the lookup fails), yet the occurrence
`*>h<*` is NOT left untouched: the `None` is normalised to the empty
string and substituted, giving `"a  b"`. -/
theorem C8_counterexample :
    do_substr "a *>h<* b" ctxC8 = some (.str "a  b") ∧
      ¬(Value.str "a  b" = .str "a *>h<* b") := by
  constructor
  · decide
  · decide

/-- Context for the C8 witness: a defs entry that is Python `False`. -/
def ctxC8w : Imager := { defs := [("flag", .bool false)] }

/-- C8 witness: with `defs["flag"] = False`, the marker `>>flag<<` inside
`"p >>flag<< q"` is left untouched. -/
theorem C8_false_untouched_witness :
    isvarname "flag" = true ∧
      do_substr ("p " ++ ">>" ++ "flag" ++ "<<" ++ " q") ctxC8w
        = some (.str ("p " ++ ">>" ++ "flag" ++ "<<" ++ " q")) :=
  ⟨by decide,
    C8_false_untouched ctxC8w "flag" "p " " q" (by decide) (by decide)
      (by decide) (by decide) (by decide) (by decide) (by decide) (by decide)⟩

end OSImager

namespace OSImager

/-- One-step equation of the family loop that keeps the recursive
occurrence folded. -/
theorem substrActions_cons (ctx : Imager) (r : String) (a : Nat) (sp ep : String)
    (rest : List (Nat × String × String)) :
    substrActions ctx r ((a, sp, ep) :: rest)
      = match substrTokens ctx a sp ep r (extract_all r sp ep) with
        | none => none
        | some (.done v) => some v
        | some (.more r2) => substrActions ctx r2 rest := rfl

theorem gtmarker_data (k : String) :
    (">>" ++ k ++ "<<").data = '>' :: '>' :: (k.data ++ '<' :: '<' :: []) := by
  have h2 : ((">>" : String).data) = ['>', '>'] := rfl
  have h3 : (("<<" : String).data) = ['<', '<'] := rfl
  simp [String.data_append, h2, h3]

theorem gtmarker_strip (k : String) :
    pyStrip (">>" ++ k ++ "<<") = ">>" ++ k ++ "<<" := by
  have h2 : (">>" ++ k ++ "<<") = ⟨'>' :: (('>' :: k.data ++ ['<']) ++ ['<'])⟩ := by
    apply String.ext
    rw [gtmarker_data]
    simp
  rw [h2, pyStrip_sandwich '>' '<' _ (by decide) (by decide)]

/-- C2: family-2 substitution. (1) when the whole string is exactly
`>>k<<`, the raw defs value is returned untyped and unprocessed; (2) when
the marker sits inside surrounding text (and the trimmed string is not the
bare marker), the value's string form is spliced in place and all later
families leave the result alone. Values `False`/`None` take other code
paths and are excluded. -/
theorem C2_whole_raw (ctx : Imager) (k pre post : String) (v : Value)
    (hk : isvarname k = true) (hv : dget ctx.defs k = some v)
    (hvf : ¬(v = .bool false)) (hvn : ¬(v = .vnull)) :
    do_substr (">>" ++ k ++ "<<") ctx = some v ∧
    (plainStr pre = true → plainStr post = true → plainStr (pyStr v) = true →
      ¬(pyStrip (pre ++ ">>" ++ k ++ "<<" ++ post) = ">>" ++ k ++ "<<") →
      do_substr (pre ++ ">>" ++ k ++ "<<" ++ post) ctx
        = some (.str (pre ++ pyStr v ++ post))) := by
  have hklt : '<' ∉ k.data := chars_not_mem (isvarname_chars hk) (by decide)
  constructor
  · -- whole-string case
    have hchars1 : ∀ c ∈ (">>" ++ k ++ "<<").data, markerChar c = true := by
      simp only [gtmarker_data]
      exact @marker_text_chars "" "" k (by decide) (by decide) hk
    have hnl1 : ∀ c ∈ (">>" ++ k ++ "<<").data, ¬(c = '\r') ∧ ¬(c = '\n') :=
      chars_no_newline hchars1 (by decide) (by decide)
    have hcont1 : strContains (">>" ++ k ++ "<<") ">" = true := by
      unfold strContains
      rw [show ((">" : String).data) = ['>'] from rfl]
      apply listInfix_singleton
      rw [gtmarker_data]
      simp
    have hds1 : do_substr (">>" ++ k ++ "<<") ctx
        = substrActions ctx (">>" ++ k ++ "<<") ACTIONS := by
      unfold do_substr
      rw [hcont1]
      rfl
    rw [hds1]
    simp only [ACTIONS]
    rw [substrActions_cons_empty ctx _ 1 "%>" "<%" _
      (extract_all_empty _ "%>" "<%" '%' (by decide)
        (chars_not_mem hchars1 (by decide)) hnl1)]
    have hfam2a : extract_all (">>" ++ k ++ "<<") ">>" "<<" = [k] :=
      extract_all_marker _ [] [] k (by rw [gtmarker_data]; rfl) hklt
        (by simp) (by simp) hnl1
    rw [substrActions_cons, hfam2a,
      substrTokens_whole ctx ">>" "<<" _ k [] v hk hv hvf hvn (gtmarker_strip k)]
  · -- splice case
    intro hpre hpost hplainv hne
    have htext := marker_append_data pre post k
    have hchars : ∀ c ∈ (pre ++ ">>" ++ k ++ "<<" ++ post).data, markerChar c = true := by
      simp only [htext]
      exact marker_text_chars hpre hpost hk
    have hnl : ∀ c ∈ (pre ++ ">>" ++ k ++ "<<" ++ post).data, ¬(c = '\r') ∧ ¬(c = '\n') :=
      chars_no_newline hchars (by decide) (by decide)
    have hprech : '>' ∉ pre.data := chars_not_mem (plainStr_chars hpre) (by decide)
    have hpostch : '>' ∉ post.data := chars_not_mem (plainStr_chars hpost) (by decide)
    have hcont : strContains (pre ++ ">>" ++ k ++ "<<" ++ post) ">" = true := by
      unfold strContains
      rw [show ((">" : String).data) = ['>'] from rfl]
      apply listInfix_singleton
      rw [htext]
      simp
    have hds : do_substr (pre ++ ">>" ++ k ++ "<<" ++ post) ctx
        = substrActions ctx (pre ++ ">>" ++ k ++ "<<" ++ post) ACTIONS := by
      unfold do_substr
      rw [hcont]
      rfl
    rw [hds]
    simp only [ACTIONS]
    rw [substrActions_cons_empty ctx _ 1 "%>" "<%" _
      (extract_all_empty _ "%>" "<%" '%' (by decide)
        (chars_not_mem hchars (by decide)) hnl)]
    have hfam2 : extract_all (pre ++ ">>" ++ k ++ "<<" ++ post) ">>" "<<" = [k] :=
      extract_all_marker _ pre.data post.data k htext hklt hprech hpostch hnl
    have hR2 : pyReplace (pre ++ ">>" ++ k ++ "<<" ++ post) (">>" ++ k ++ "<<") (pyStr v)
        = pre ++ pyStr v ++ post := by
      have e1 : (pre ++ ">>" ++ k ++ "<<" ++ post)
          = ⟨pre.data ++ ((">>" ++ k ++ "<<").data ++ post.data)⟩ := by
        apply String.ext
        simp [String.data_append]
      have e2 : (pre ++ pyStr v ++ post)
          = ⟨pre.data ++ ((pyStr v).data ++ post.data)⟩ := by
        apply String.ext
        simp [String.data_append]
      rw [e1, e2]
      exact pyReplace_single pre.data post.data _ _ '>'
        (by rw [gtmarker_data]; rfl) hprech hpostch
    rw [substrActions_cons, hfam2,
      substrTokens_replace ctx ">>" "<<" _ k [] v hk hv hvf hvn hne, hR2]
    simp only [substrTokens]
    have hdataR : (pre ++ pyStr v ++ post).data
        = pre.data ++ ((pyStr v).data ++ post.data) := by
      simp [String.data_append]
    have hcharsR : ∀ c ∈ (pre ++ pyStr v ++ post).data, plainChar c = true := by
      simp only [hdataR]
      intro c hc
      rcases List.mem_append.mp hc with h | h
      · exact plainStr_chars hpre c h
      · rcases List.mem_append.mp h with h | h
        · exact plainStr_chars hplainv c h
        · exact plainStr_chars hpost c h
    have hnlR : ∀ c ∈ (pre ++ pyStr v ++ post).data, ¬(c = '\r') ∧ ¬(c = '\n') :=
      chars_no_newline hcharsR (by decide) (by decide)
    rw [substrActions_cons_empty ctx _ 3 "+>" "<+" _
      (extract_all_empty _ "+>" "<+" '+' (by decide)
        (chars_not_mem hcharsR (by decide)) hnlR)]
    rw [substrActions_cons_empty ctx _ 4 "*>" "<*" _
      (extract_all_empty _ "*>" "<*" '*' (by decide)
        (chars_not_mem hcharsR (by decide)) hnlR)]
    rw [substrActions_cons_empty ctx _ 5 "|>" "<|" _
      (extract_all_empty _ "|>" "<|" '|' (by decide)
        (chars_not_mem hcharsR (by decide)) hnlR)]
    rw [substrActions_cons_empty ctx _ 6 "#>" "<#" _
      (extract_all_empty _ "#>" "<#" '#' (by decide)
        (chars_not_mem hcharsR (by decide)) hnlR)]
    rw [substrActions_cons_empty ctx _ 7 "$>" "<$" _
      (extract_all_empty _ "$>" "<$" '$' (by decide)
        (chars_not_mem hcharsR (by decide)) hnlR)]
    rw [substrActions_cons_empty ctx _ 8 "1>" "<1" _
      (extract_all_empty _ "1>" "<1" '>' (by decide)
        (chars_not_mem hcharsR (by decide)) hnlR)]
    rw [substrActions_cons_empty ctx _ 9 "5>" "<5" _
      (extract_all_empty _ "5>" "<5" '>' (by decide)
        (chars_not_mem hcharsR (by decide)) hnlR)]
    rw [substrActions_cons_empty ctx _ 10 "6>" "<6" _
      (extract_all_empty _ "6>" "<6" '>' (by decide)
        (chars_not_mem hcharsR (by decide)) hnlR)]
    rw [substrActions_cons_empty ctx _ 11 "E>" "<E" _
      (extract_all_empty _ "E>" "<E" '>' (by decide)
        (chars_not_mem hcharsR (by decide)) hnlR)]
    rw [substrActions_cons_empty ctx _ 12 "[>" "<]" _
      (extract_all_empty _ "[>" "<]" '[' (by decide)
        (chars_not_mem hcharsR (by decide)) hnlR)]
    rfl

end OSImager

namespace OSImager

/-- Context for the C2 witness: a list-valued and a string-valued def. -/
def ctxC2 : Imager :=
  { defs := [("mylist", .list [.str "a", .str "b", .str "c"]), ("name", .str "N")] }

/-- C2 witness: the whole-string marker `">>mylist<<"` resolves to the raw
3-element list, and the embedded marker in `"x >>name<< y"` is spliced as
a string. -/
theorem C2_whole_raw_witness :
    (isvarname "mylist" = true ∧
      do_substr ">>mylist<<" ctxC2 = some (.list [.str "a", .str "b", .str "c"])) ∧
    do_substr "x >>name<< y" ctxC2 = some (.str "x N y") := by
  refine ⟨⟨by decide, ?_⟩, ?_⟩
  · exact (C2_whole_raw ctxC2 "mylist" "x " " y" (.list [.str "a", .str "b", .str "c"])
      (by decide) (by decide) (by decide) (by decide)).1
  · exact (C2_whole_raw ctxC2 "name" "x " " y" (.str "N")
      (by decide) (by decide) (by decide) (by decide)).2
      (by decide) (by decide) (by decide) (by decide)

end OSImager

namespace OSImager

/-! ## C9: idempotence of `do_sub` on marker-free results -/

/-- No family of `do_substr` extracts any token from `s`: the string is
fully resolved. -/
def strNoMarkers (s : String) : Bool :=
  ACTIONS.all (fun a => (extract_all s a.2.1 a.2.2).isEmpty)

/-- The list-splice trigger shape of `do_sub` (`[>token<]` around the
trimmed string). -/
def spliceForm (s : String) : Bool :=
  strContains s "[>" && strContains s "<]" &&
    (pyStartsWith (pyStrip s) "[>" && pyEndsWith (pyStrip s) "<]")

/-- Pairwise-distinct keys of a dict value. -/
def distinctKeys : List (String × Value) → Bool
  | [] => true
  | (k, _) :: rest => !(rest.any (fun kv => kv.1 == k)) && distinctKeys rest

mutual

/-- `v` contains no unresolved markers: every string is marker-free, no
list element has the splice shape, and every dict keeps distinct keys (so
the rebuild-by-`dset` of `do_sub` is the identity). -/
def noMarkers : Value → Bool
  | .str s => strNoMarkers s
  | .list l => noMarkersElems l
  | .dict d => distinctKeys d && noMarkersPairs d
  | _ => true

def noMarkersElems : List Value → Bool
  | [] => true
  | e :: rest =>
    (noMarkers e &&
      (match e with
       | .str s => !spliceForm s
       | _ => true)) && noMarkersElems rest

def noMarkersPairs : List (String × Value) → Bool
  | [] => true
  | (k, v) :: rest => (strNoMarkers k && noMarkers v) && noMarkersPairs rest

end

theorem substrActions_all_empty (ctx : Imager) :
    ∀ (acts : List (Nat × String × String)) (r : String),
      (∀ a ∈ acts, extract_all r a.2.1 a.2.2 = []) →
      substrActions ctx r acts = some (.str r) := by
  intro acts
  induction acts with
  | nil => intro r _; rfl
  | cons a rest ih =>
    intro r h
    obtain ⟨a1, a2, a3⟩ := a
    rw [substrActions_cons_empty ctx r a1 a2 a3 rest (h _ (List.mem_cons_self _ _))]
    exact ih r (fun x hx => h x (List.mem_cons_of_mem _ hx))

/-- A marker-free string passes `do_substr` unchanged. -/
theorem do_substr_noMarkers (ctx : Imager) {s : String}
    (h : strNoMarkers s = true) : do_substr s ctx = some (.str s) := by
  unfold do_substr
  by_cases hc : (!strContains s ">" && !strContains s "+") = true
  · rw [if_pos hc]
  · rw [if_neg hc]
    apply substrActions_all_empty
    intro a ha
    have := List.all_eq_true.mp h a ha
    simpa using this

theorem dset_append_new (d : List (String × Value)) (k : String) (v : Value)
    (h : ∀ kv ∈ d, ¬(kv.1 = k)) : dset d k v = d ++ [(k, v)] := by
  induction d with
  | nil => rfl
  | cons kv rest ih =>
    obtain ⟨k0, v0⟩ := kv
    have hk0 : ¬(k0 = k) := h (k0, v0) (List.mem_cons_self _ _)
    unfold dset
    rw [if_neg hk0, ih (fun x hx => h x (List.mem_cons_of_mem _ hx))]
    rfl

theorem foldl_dset_id :
    ∀ (d acc : List (String × Value)), distinctKeys d = true →
      (∀ kv ∈ d, ∀ kv2 ∈ acc, ¬(kv.1 = kv2.1)) →
      d.foldl (fun acc kv => dset acc kv.1 kv.2) acc = acc ++ d := by
  intro d
  induction d with
  | nil => intro acc _ _; simp
  | cons kv rest ih =>
    intro acc hd hdisj
    obtain ⟨k, v⟩ := kv
    unfold distinctKeys at hd
    obtain ⟨hany, hrest⟩ := Bool.and_eq_true_iff.mp hd
    have hnot : ∀ kv ∈ rest, ¬(kv.1 = k) := by
      intro kv2 hm he
      have hany2 : rest.any (fun kv => kv.1 == k) = true :=
        List.any_eq_true.mpr ⟨kv2, hm, by show (kv2.1 == k) = true; rw [he]; exact beq_self_eq_true k⟩
      rw [hany2] at hany
      exact Bool.noConfusion hany
    simp only [List.foldl_cons]
    have hacc : ∀ kv2 ∈ acc, ¬((k, v).1 = kv2.1) :=
      hdisj (k, v) (List.mem_cons_self _ _)
    have hnew : dset acc k v = acc ++ [(k, v)] :=
      dset_append_new acc k v (fun kv2 hm he => hacc kv2 hm he.symm)
    rw [hnew, ih (acc ++ [(k, v)]) hrest]
    · simp
    · intro kv2 hm kv3 hm3
      rcases List.mem_append.mp hm3 with h3 | h3
      · exact hdisj kv2 (List.mem_cons_of_mem _ hm) kv3 h3
      · have : kv3 = (k, v) := by simpa using h3
        subst this
        exact hnot kv2 hm

end OSImager

namespace OSImager

/-- Size-bounded simultaneous induction: `do_sub` is the identity on
marker-free values, element lists and pair lists. -/
theorem noMarkers_id_aux (ctx : Imager) :
    ∀ n : Nat,
      (∀ v : Value, sizeOf v ≤ n → noMarkers v = true → do_sub v ctx = some v) ∧
      (∀ l : List Value, sizeOf l ≤ n → noMarkersElems l = true →
        do_sub_elems l ctx = some l) ∧
      (∀ d : List (String × Value), sizeOf d ≤ n → noMarkersPairs d = true →
        do_sub_pairs d ctx = some d) := by
  intro n
  induction n with
  | zero =>
    refine ⟨?_, ?_, ?_⟩
    · intro v hv _
      exfalso
      cases v <;> simp at hv
    · intro l hl _
      exfalso
      cases l <;> simp at hl
    · intro d hd _
      exfalso
      cases d <;> simp at hd
  | succ n ih =>
    obtain ⟨ihv, ihl, ihd⟩ := ih
    refine ⟨?_, ?_, ?_⟩
    · intro v hv hm
      cases v with
      | str s =>
        have hms : strNoMarkers s = true := by simpa [noMarkers] using hm
        simp only [do_sub]
        exact do_substr_noMarkers ctx hms
      | int i => simp [do_sub]
      | bool b => simp [do_sub]
      | vnull => simp [do_sub]
      | list l =>
        have hml : noMarkersElems l = true := by simpa [noMarkers] using hm
        have hszl : sizeOf l ≤ n := by simp at hv; omega
        simp only [do_sub]
        rw [ihl l hszl hml]
      | dict d =>
        have hm2 : (distinctKeys d && noMarkersPairs d) = true := by
          simpa [noMarkers] using hm
        obtain ⟨hdk, hmp⟩ := Bool.and_eq_true_iff.mp hm2
        have hszd : sizeOf d ≤ n := by simp at hv; omega
        have hfold := foldl_dset_id d [] hdk (by intro kv h1 kv2 h2; cases h2)
        simp only [do_sub]
        rw [ihd d hszd hmp]
        simp only [List.nil_append] at hfold
        simp [hfold]
    · intro l hsz hm
      cases l with
      | nil => simp [do_sub_elems]
      | cons e rest =>
        simp only [noMarkersElems] at hm
        obtain ⟨hhead, hrest⟩ := Bool.and_eq_true_iff.mp hm
        obtain ⟨he, hguard⟩ := Bool.and_eq_true_iff.mp hhead
        have hsze : sizeOf e ≤ n := by simp at hsz; omega
        have hszr : sizeOf rest ≤ n := by simp at hsz; omega
        have hee : do_sub e ctx = some e := ihv e hsze he
        have hre : do_sub_elems rest ctx = some rest := ihl rest hszr hrest
        cases e with
        | str s =>
          have hguard2 : (!spliceForm s) = true := hguard
          have hsp : spliceForm s = false := by
            cases hb : spliceForm s with
            | false => rfl
            | true => rw [hb] at hguard2; exact Bool.noConfusion hguard2
          unfold spliceForm at hsp
          by_cases h1 : (strContains s "[>" && strContains s "<]") = true
          · rw [h1] at hsp
            simp only [Bool.true_and] at hsp
            simp [do_sub_elems, h1, hsp, hee, hre]
          · simp [do_sub_elems, h1, hee, hre]
        | int i => simp [do_sub_elems, hee, hre]
        | bool b => simp [do_sub_elems, hee, hre]
        | vnull => simp [do_sub_elems, hee, hre]
        | list l2 => simp [do_sub_elems, hee, hre]
        | dict d2 => simp [do_sub_elems, hee, hre]
    · intro d hsz hm
      cases d with
      | nil => simp [do_sub_pairs]
      | cons kv rest =>
        obtain ⟨k, v⟩ := kv
        simp only [noMarkersPairs] at hm
        obtain ⟨hkv, hrest⟩ := Bool.and_eq_true_iff.mp hm
        obtain ⟨hk, hv2⟩ := Bool.and_eq_true_iff.mp hkv
        have hszv : sizeOf v ≤ n := by simp at hsz; omega
        have hszr : sizeOf rest ≤ n := by simp at hsz; omega
        simp only [do_sub_pairs]
        rw [do_substr_noMarkers ctx hk, ihv v hszv hv2, ihd rest hszr hrest]

/-- `do_sub` is the identity on marker-free values. -/
theorem do_sub_noMarkers_id (ctx : Imager) (u : Value) (h : noMarkers u = true) :
    do_sub u ctx = some u :=
  ((noMarkers_id_aux ctx (sizeOf u)).1) u (Nat.le_refl _) h

end OSImager

namespace OSImager

/-- C9: substitution is idempotent on values whose one-pass result has no
remaining markers — a second `do_sub` pass returns the first pass's result
unchanged. -/
theorem C9_idempotent (v u : Value) (ctx : Imager)
    (h1 : do_sub v ctx = some u) (hm : noMarkers u = true) :
    (do_sub v ctx).bind (fun r => do_sub r ctx) = do_sub v ctx := by
  rw [h1, Option.some_bind, do_sub_noMarkers_id ctx u hm]

/-- Context for the C9 witness. -/
def ctxC9 : Imager := { defs := [("name", .str "hello")] }

/-- C9 witness: one pass on `">>name<<"` yields `"hello"`, which is
marker-free, and the second pass changes nothing. -/
theorem C9_idempotent_witness :
    do_sub (.str ">>name<<") ctxC9 = some (.str "hello") ∧
      (do_sub (.str ">>name<<") ctxC9).bind (fun r => do_sub r ctxC9)
        = do_sub (.str ">>name<<") ctxC9 := by
  have h1 : do_sub (.str ">>name<<") ctxC9 = some (.str "hello") := by
    simp only [do_sub]
    decide
  have hm : noMarkers (.str "hello") = true := by
    simp only [noMarkers, strNoMarkers]
    decide
  exact ⟨h1, C9_idempotent (.str ">>name<<") (.str "hello") ctxC9 h1 hm⟩

end OSImager

namespace OSImager

/-! ## C1: include composition order -/

theorem dget_dset_self (d : Dict) (k : String) (v : Value) :
    dget (dset d k v) k = some v := by
  induction d with
  | nil => simp [dset, dget]
  | cons kv rest ih =>
    obtain ⟨k0, v0⟩ := kv
    by_cases h : k0 = k
    · subst h
      simp [dset, dget]
    · simp [dset, dget, h, ih]

theorem dget_dset_other (d : Dict) (k k2 : String) (v : Value) (h : ¬(k2 = k)) :
    dget (dset d k v) k2 = dget d k2 := by
  induction d with
  | nil =>
    simp only [dset, dget]
    rw [if_neg (fun he => h he.symm)]
  | cons kv rest ih =>
    obtain ⟨k0, v0⟩ := kv
    by_cases h0 : k0 = k
    · subst h0
      simp only [dset, if_pos rfl, dget]
      rw [if_neg (fun he : k0 = k2 => h (he ▸ rfl)),
        if_neg (fun he : k0 = k2 => h (he ▸ rfl))]
    · simp [dset, dget, h0, ih]

theorem dget_none_of_all (d : Dict) (k : String)
    (h : ∀ kv ∈ d, ¬(kv.1 = k)) : dget d k = none := by
  induction d with
  | nil => rfl
  | cons kv rest ih =>
    obtain ⟨k0, v0⟩ := kv
    simp only [dget]
    rw [if_neg (h (k0, v0) (List.mem_cons_self _ _)),
      ih (fun x hx => h x (List.mem_cons_of_mem _ hx))]

theorem dget_dupdate_none (d2 : Dict) :
    ∀ (d1 : Dict) (k : String), dget d2 k = none →
      dget (dupdate d1 d2) k = dget d1 k := by
  induction d2 with
  | nil => intro d1 k _; rfl
  | cons kv rest ih =>
    intro d1 k h
    obtain ⟨k0, v0⟩ := kv
    simp only [dget] at h
    by_cases h0 : k0 = k
    · rw [if_pos h0] at h
      exact Option.noConfusion h
    · rw [if_neg h0] at h
      show dget (dupdate (dset d1 k0 v0) rest) k = dget d1 k
      rw [ih (dset d1 k0 v0) k h, dget_dset_other d1 k0 k v0 (fun he => h0 he.symm)]

theorem dget_dupdate_get (d2 : Dict) :
    ∀ (d1 : Dict) (k : String) (v : Value), dget d2 k = some v →
      distinctKeys d2 = true → dget (dupdate d1 d2) k = some v := by
  induction d2 with
  | nil => intro d1 k v h _; exact Option.noConfusion h
  | cons kv rest ih =>
    intro d1 k v h hd
    obtain ⟨k0, v0⟩ := kv
    simp only [distinctKeys] at hd
    obtain ⟨hany, hrest⟩ := Bool.and_eq_true_iff.mp hd
    simp only [dget] at h
    by_cases h0 : k0 = k
    · rw [if_pos h0] at h
      subst h0
      have hnone : dget rest k0 = none := by
        apply dget_none_of_all
        intro kv2 hm he
        have hany2 : rest.any (fun kv => kv.1 == k0) = true :=
          List.any_eq_true.mpr ⟨kv2, hm,
            by show (kv2.1 == k0) = true; rw [he]; exact beq_self_eq_true k0⟩
        rw [hany2] at hany
        exact Bool.noConfusion hany
      show dget (dupdate (dset d1 k0 v0) rest) k0 = some v
      rw [dget_dupdate_none rest (dset d1 k0 v0) k0 hnone, dget_dset_self,
        Option.some.injEq]
      exact (Option.some.injEq v0 v).mp h
    · rw [if_neg h0] at h
      show dget (dupdate (dset d1 k0 v0) rest) k = some v
      exact ih (dset d1 k0 v0) k v h hrest

end OSImager

namespace OSImager

theorem applyOneSection_skip (m : Bool) (ctx : Ctx) (data : Dict) (sec : String)
    (h : dget data sec = none) :
    applyOneSection m ctx data sec = some (ctx, data) := by
  unfold applyOneSection
  rw [h]

theorem applySections_cons (m : Bool) (ctx : Ctx) (data : Dict) (s : String)
    (rest : List String) :
    applySections m ctx data (s :: rest)
      = match applyOneSection m ctx data s with
        | some (ctx2, data2) => applySections m ctx2 data2 rest
        | none => none := rfl

theorem applySections_skip_head (m : Bool) (ctx : Ctx) (data : Dict) (s : String)
    (rest : List String) (h : dget data s = none) :
    applySections m ctx data (s :: rest) = applySections m ctx data rest := by
  rw [applySections_cons, applyOneSection_skip m ctx data s h]

theorem applySections_all_skip (m : Bool) :
    ∀ (secs : List String) (ctx : Ctx) (data : Dict),
      (∀ s ∈ secs, dget data s = none) →
      applySections m ctx data secs = some (ctx, data) := by
  intro secs
  induction secs with
  | nil => intro ctx data _; rfl
  | cons s rest ih =>
    intro ctx data h
    rw [applySections_skip_head m ctx data s rest (h s (List.mem_cons_self _ _))]
    exact ih ctx data (fun x hx => h x (List.mem_cons_of_mem _ hx))

theorem applyOneSection_defs (ctx : Ctx) (cur dd : Dict) (data : Dict)
    (hctx : ctx.defs = .dict cur)
    (hdata : dget data "defs" = some (.dict dd))
    (hm : dget dd "merge" = none) :
    applyOneSection true ctx data "defs"
      = some ({ ctx with defs := .dict (dupdate cur dd) },
          dset data "defs" (.dict dd)) := by
  simp +decide [applyOneSection, hdata, hm, dpop, mergeKeysOf, mergeKeys,
    applyPhase2, Ctx.get, Ctx.set, hctx]

theorem applySections_cons_some (m : Bool) (ctx : Ctx) (data : Dict)
    (s : String) (rest : List String) (ctx2 : Ctx) (data2 : Dict)
    (h : applyOneSection m ctx data s = some (ctx2, data2)) :
    applySections m ctx data (s :: rest) = applySections m ctx2 data2 rest := by
  rw [applySections_cons, h]

/-- `applySections` on a one-key `defs` document: only the `defs` sec
fires and shallow-updates the context's defs dict. -/
theorem applySections_defsdoc (ctx : Ctx) (cur dd : Dict)
    (hctx : ctx.defs = .dict cur) (hm : dget dd "merge" = none) :
    applySections true ctx [("defs", .dict dd)] SECTIONS
      = some ({ ctx with defs := .dict (dupdate cur dd) }, [("defs", .dict dd)]) := by
  have hone := applyOneSection_defs ctx cur dd [("defs", .dict dd)] hctx
    (by simp [dget]) hm
  rw [show dset [("defs", Value.dict dd)] "defs" (.dict dd)
      = [("defs", Value.dict dd)] by simp [dset]] at hone
  simp only [SECTIONS]
  rw [applySections_skip_head true ctx [("defs", .dict dd)] "files" _ (by simp [dget]),
    applySections_skip_head true ctx [("defs", .dict dd)] "evars" _ (by simp [dget]),
    applySections_cons_some true ctx [("defs", .dict dd)] "defs" _ _ _ hone,
    applySections_skip_head _ _ _ "variables" _ (by simp [dget]),
    applySections_skip_head _ _ _ "pre_provisioners" _ (by simp [dget]),
    applySections_skip_head _ _ _ "provisioners" _ (by simp [dget]),
    applySections_skip_head _ _ _ "post_provisioners" _ (by simp [dget]),
    applySections_skip_head _ _ _ "config" _ (by simp [dget])]
  rfl

end OSImager

namespace OSImager

theorem load_specific_cats_skip (env : LoadEnv) :
    ∀ (cats : List String) (f : Nat) (data : Dict) (ctx : Ctx) (dd : Dict),
      ctx.defs = .dict dd → (∀ c ∈ cats, dget dd c = none) → cats.length ≤ f →
      load_specific_cats f env data ctx cats = some (data, ctx) := by
  intro cats
  induction cats with
  | nil => intro f data ctx dd _ _ _; simp [load_specific_cats]
  | cons cat cats ih =>
    intro f data ctx dd hctx h hf
    obtain ⟨f2, rfl⟩ : ∃ f2, f = f2 + 1 :=
      ⟨f - 1, by simp at hf; omega⟩
    simp only [load_specific_cats, hctx, h cat (List.mem_cons_self _ _),
      Option.getD_none, pyTruthy]
    simp only [Bool.false_eq_true, if_false]
    exact ih f2 data ctx dd hctx (fun c hc => h c (List.mem_cons_of_mem _ hc))
      (by simp at hf; omega)

theorem load_data_defsdoc (env : LoadEnv) (f : Nat) (ctx : Ctx) (cur dd : Dict)
    (hf : 8 ≤ f) (hctx : ctx.defs = .dict cur) (hm : dget dd "merge" = none)
    (hspec : ∀ c ∈ SPECIFICS, dget (dupdate cur dd) c = none) :
    load_data f env [("defs", .dict dd)] ctx
      = some ([("defs", .dict dd)], { ctx with defs := .dict (dupdate cur dd) }) := by
  obtain ⟨f1, rfl⟩ : ∃ f1, f = f1 + 1 := ⟨f - 1, by omega⟩
  simp only [load_data]
  rw [show dpop [("defs", Value.dict dd)] "method" (.str "merge")
      = (.str "merge", [("defs", Value.dict dd)]) by simp [dpop, dget]]
  simp only []
  rw [show (decide True) = true from by decide]
  rw [applySections_defsdoc ctx cur dd hctx hm]
  obtain ⟨f2, rfl⟩ : ∃ f2, f1 = f2 + 1 := ⟨f1 - 1, by omega⟩
  simp only [load_specific]
  exact load_specific_cats_skip env SPECIFICS f2 _ _ (dupdate cur dd) rfl hspec
    (by simp [SPECIFICS]; omega)

theorem load_data_nildoc (env : LoadEnv) (f : Nat) (ctx : Ctx) (dd : Dict)
    (hf : 8 ≤ f) (hctx : ctx.defs = .dict dd)
    (hspec : ∀ c ∈ SPECIFICS, dget dd c = none) :
    load_data f env [] ctx = some ([], ctx) := by
  obtain ⟨f1, rfl⟩ : ∃ f1, f = f1 + 1 := ⟨f - 1, by omega⟩
  simp only [load_data]
  rw [show dpop ([] : Dict) "method" (.str "merge")
      = (.str "merge", ([] : Dict)) by simp [dpop, dget]]
  simp only []
  rw [show (decide True) = true from by decide]
  rw [applySections_all_skip _ SECTIONS ctx [] (fun s _ => rfl)]
  obtain ⟨f2, rfl⟩ : ∃ f2, f1 = f2 + 1 := ⟨f1 - 1, by omega⟩
  simp only [load_specific]
  exact load_specific_cats_skip env SPECIFICS f2 _ _ dd hctx hspec
    (by simp [SPECIFICS]; omega)

end OSImager

namespace OSImager

theorem load_file_defsdoc (env : LoadEnv) (whre path : String) (dd : Dict)
    (hpath : env.readJson path = some [("defs", .dict dd)])
    (f : Nat) (hf : 10 ≤ f) (ctx : Ctx) (cur : Dict) (hctx : ctx.defs = .dict cur)
    (hm : dget dd "merge" = none)
    (hspec : ∀ c ∈ SPECIFICS, dget (dupdate cur dd) c = none) :
    load_file f env whre path ctx
      = some ([("defs", .dict dd)], { ctx with defs := .dict (dupdate cur dd) }) := by
  obtain ⟨f1, rfl⟩ : ∃ f1, f = f1 + 1 := ⟨f - 1, by omega⟩
  simp only [load_file, hpath]
  rw [show dpop [("defs", Value.dict dd)] "include" .vnull
      = (.vnull, [("defs", Value.dict dd)]) by simp [dpop, dget]]
  simp only [pyTruthy, Bool.false_eq_true, if_false]
  rw [load_data_defsdoc env f1 ctx cur dd (by omega) hctx hm hspec]

theorem load_inc_eval (f : Nat) (env : LoadEnv) (whre what : String)
    (data : Dict) (ctx : Ctx) (inc_data : Dict) (ctx2 : Ctx) (data2 : Dict)
    (ctx3 : Ctx)
    (h1 : load_data_file f env whre what ctx = some (inc_data, ctx2))
    (h2 : load_data f env data ctx2 = some (data2, ctx3)) :
    load_inc (f + 1) env whre what data ctx
      = some (dupdate inc_data data2, ctx3) := by
  simp only [load_inc, h1, h2]

theorem load_inc_nil (env : LoadEnv) (whre what : String) (dd : Dict)
    (hpath : env.readJson (dataFilePath env whre what) = some [("defs", .dict dd)])
    (f : Nat) (hf : 12 ≤ f) (ctx : Ctx) (cur : Dict) (hctx : ctx.defs = .dict cur)
    (hm : dget dd "merge" = none)
    (hspec : ∀ c ∈ SPECIFICS, dget (dupdate cur dd) c = none) :
    load_inc f env whre what [] ctx
      = some ([("defs", .dict dd)], { ctx with defs := .dict (dupdate cur dd) }) := by
  obtain ⟨f1, rfl⟩ : ∃ f1, f = f1 + 1 := ⟨f - 1, by omega⟩
  have h1 : load_data_file f1 env whre what ctx
      = some ([("defs", .dict dd)], { ctx with defs := .dict (dupdate cur dd) }) := by
    obtain ⟨f2, rfl⟩ : ∃ f2, f1 = f2 + 1 := ⟨f1 - 1, by omega⟩
    simp only [load_data_file]
    exact load_file_defsdoc env whre (dataFilePath env whre what) dd hpath f2
      (by omega) ctx cur hctx hm hspec
  have h2 : load_data f1 env []
      { ctx with defs := .dict (dupdate cur dd) }
      = some ([], { ctx with defs := .dict (dupdate cur dd) }) :=
    load_data_nildoc env f1 _ (dupdate cur dd) (by omega) rfl hspec
  rw [load_inc_eval f1 env whre what [] ctx _ _ _ _ h1 h2]
  rfl

theorem load_inc_defsdoc (env : LoadEnv) (whre what : String) (dd edd : Dict)
    (hpath : env.readJson (dataFilePath env whre what) = some [("defs", .dict dd)])
    (f : Nat) (hf : 12 ≤ f) (ctx : Ctx) (cur : Dict) (hctx : ctx.defs = .dict cur)
    (hm : dget dd "merge" = none) (hmE : dget edd "merge" = none)
    (hspec : ∀ c ∈ SPECIFICS, dget (dupdate cur dd) c = none)
    (hspec2 : ∀ c ∈ SPECIFICS, dget (dupdate (dupdate cur dd) edd) c = none) :
    load_inc f env whre what [("defs", .dict edd)] ctx
      = some ([("defs", .dict edd)],
          { ctx with defs := .dict (dupdate (dupdate cur dd) edd) }) := by
  obtain ⟨f1, rfl⟩ : ∃ f1, f = f1 + 1 := ⟨f - 1, by omega⟩
  have h1 : load_data_file f1 env whre what ctx
      = some ([("defs", .dict dd)], { ctx with defs := .dict (dupdate cur dd) }) := by
    obtain ⟨f2, rfl⟩ : ∃ f2, f1 = f2 + 1 := ⟨f1 - 1, by omega⟩
    simp only [load_data_file]
    exact load_file_defsdoc env whre (dataFilePath env whre what) dd hpath f2
      (by omega) ctx cur hctx hm hspec
  have h2 : load_data f1 env [("defs", .dict edd)]
      { ctx with defs := .dict (dupdate cur dd) }
      = some ([("defs", .dict edd)],
          { ctx with defs := .dict (dupdate (dupdate cur dd) edd) }) :=
    load_data_defsdoc env f1 _ (dupdate cur dd) edd (by omega) rfl hmE hspec2
  rw [load_inc_eval f1 env whre what [("defs", .dict edd)] ctx _ _ _ _ h1 h2]
  rw [show dupdate [("defs", Value.dict dd)] [("defs", Value.dict edd)]
      = [("defs", Value.dict edd)] by simp [dupdate, dset]]

end OSImager

namespace OSImager

theorem load_file_incs_nil (f : Nat) (env : LoadEnv) (whre : String)
    (data : Dict) (ctx : Ctx) :
    load_file_incs f env whre data ctx [] = some (data, ctx) := by
  simp [load_file_incs]

theorem load_file_incs_cons_eval (f : Nat) (env : LoadEnv) (whre : String)
    (data : Dict) (ctx : Ctx) (incName : String) (rest : List Value)
    (data2 : Dict) (ctx2 : Ctx)
    (h : load_inc f env whre incName data ctx = some (data2, ctx2)) :
    load_file_incs (f + 1) env whre data ctx (.str incName :: rest)
      = load_file_incs f env whre data2 ctx2 rest := by
  simp only [load_file_incs, h]

theorem dupdate_spec_none {d1 d2 : Dict}
    (h1 : ∀ c ∈ SPECIFICS, dget d1 c = none)
    (h2 : ∀ c ∈ SPECIFICS, dget d2 c = none) :
    ∀ c ∈ SPECIFICS, dget (dupdate d1 d2) c = none := by
  intro c hc
  rw [dget_dupdate_none d2 d1 c (h2 c hc)]
  exact h1 c hc

/-- C1: include composition. With includes `[A, B]` on document `D`
(one-key `defs` documents), the loader applies A, then D's own defs, then
B, then — because `load_inc` merges the included raw map into the current
data and replays it — the merged defs again. When D has its own `defs`
section the replayed map is D's and the final value follows D, else B,
else A (as claimed); when D has no `defs` section the replayed map is A's,
so for a key set in both A and B the final value is A's, not B's. -/
theorem C1_include_composition (env : LoadEnv) (adefs bdefs ddefs : Dict)
    (f : Nat) (hf : 20 ≤ f)
    (hdir : env.dataDir = "data")
    (hA : env.readJson "data/test/A.json" = some [("defs", .dict adefs)])
    (hB : env.readJson "data/test/B.json" = some [("defs", .dict bdefs)])
    (hD : env.readJson "data/test/D.json"
      = some [("include", .list [.str "A", .str "B"])])
    (hD2 : env.readJson "data/test/D2.json"
      = some [("include", .list [.str "A", .str "B"]), ("defs", .dict ddefs)])
    (hmA : dget adefs "merge" = none) (hmB : dget bdefs "merge" = none)
    (hmD : dget ddefs "merge" = none)
    (hsA : ∀ c ∈ SPECIFICS, dget adefs c = none)
    (hsB : ∀ c ∈ SPECIFICS, dget bdefs c = none)
    (hsD : ∀ c ∈ SPECIFICS, dget ddefs c = none)
    (hdkA : distinctKeys adefs = true) (hdkB : distinctKeys bdefs = true) :
    (load_file f env "test" "data/test/D.json" {}
        = some ([("defs", .dict adefs)],
            { defs := .dict (dupdate (dupdate (dupdate [] adefs) bdefs) adefs) })
      ∧ (∀ k v, dget adefs k = some v →
          dget (dupdate (dupdate (dupdate [] adefs) bdefs) adefs) k = some v)
      ∧ (∀ k v, dget adefs k = none → dget bdefs k = some v →
          dget (dupdate (dupdate (dupdate [] adefs) bdefs) adefs) k = some v))
    ∧ (load_file f env "test" "data/test/D2.json" {}
        = some ([("defs", .dict ddefs)],
            { defs := .dict
                (dupdate (dupdate (dupdate (dupdate [] adefs) ddefs) bdefs) ddefs) })
      ∧ (∀ k v, dget ddefs k = some v → distinctKeys ddefs = true →
          dget (dupdate (dupdate (dupdate (dupdate [] adefs) ddefs) bdefs) ddefs) k
            = some v)
      ∧ (∀ k v, dget ddefs k = none → dget bdefs k = some v →
          dget (dupdate (dupdate (dupdate (dupdate [] adefs) ddefs) bdefs) ddefs) k
            = some v)
      ∧ (∀ k v, dget ddefs k = none → dget bdefs k = none → dget adefs k = some v →
          dget (dupdate (dupdate (dupdate (dupdate [] adefs) ddefs) bdefs) ddefs) k
            = some v)) := by
  have hpathA : dataFilePath env "test" "A" = "data/test/A.json" := by
    unfold dataFilePath
    rw [hdir]
    decide
  have hpathB : dataFilePath env "test" "B" = "data/test/B.json" := by
    unfold dataFilePath
    rw [hdir]
    decide
  have hrA : env.readJson (dataFilePath env "test" "A")
      = some [("defs", .dict adefs)] := by rw [hpathA]; exact hA
  have hrB : env.readJson (dataFilePath env "test" "B")
      = some [("defs", .dict bdefs)] := by rw [hpathB]; exact hB
  have hs0 : ∀ c ∈ SPECIFICS, dget ([] : Dict) c = none := fun c _ => rfl
  have hs1 : ∀ c ∈ SPECIFICS, dget (dupdate [] adefs) c = none :=
    dupdate_spec_none hs0 hsA
  have hs2 : ∀ c ∈ SPECIFICS, dget (dupdate (dupdate [] adefs) bdefs) c = none :=
    dupdate_spec_none hs1 hsB
  have hs3 : ∀ c ∈ SPECIFICS,
      dget (dupdate (dupdate (dupdate [] adefs) bdefs) adefs) c = none :=
    dupdate_spec_none hs2 hsA
  have hs2d : ∀ c ∈ SPECIFICS, dget (dupdate (dupdate [] adefs) ddefs) c = none :=
    dupdate_spec_none hs1 hsD
  have hs3d : ∀ c ∈ SPECIFICS,
      dget (dupdate (dupdate (dupdate [] adefs) ddefs) bdefs) c = none :=
    dupdate_spec_none hs2d hsB
  have hs4d : ∀ c ∈ SPECIFICS,
      dget (dupdate (dupdate (dupdate (dupdate [] adefs) ddefs) bdefs) ddefs) c
        = none :=
    dupdate_spec_none hs3d hsD
  refine ⟨⟨?_, ?_, ?_⟩, ⟨?_, ?_, ?_, ?_⟩⟩
  · -- D without its own defs
    obtain ⟨f1, rfl⟩ : ∃ f1, f = f1 + 1 := ⟨f - 1, by omega⟩
    simp only [load_file, hD]
    rw [show dpop [("include", Value.list [.str "A", .str "B"])] "include" .vnull
        = (.list [.str "A", .str "B"], []) by simp +decide [dpop, dget]]
    simp only [pyTruthy, List.isEmpty_cons, Bool.not_false, if_true]
    obtain ⟨f2, rfl⟩ : ∃ f2, f1 = f2 + 1 := ⟨f1 - 1, by omega⟩
    rw [load_file_incs_cons_eval f2 env "test" [] {} "A" [.str "B"] _ _
      (load_inc_nil env "test" "A" adefs hrA f2 (by omega) {} [] rfl hmA hs1)]
    obtain ⟨f3, rfl⟩ : ∃ f3, f2 = f3 + 1 := ⟨f2 - 1, by omega⟩
    rw [load_file_incs_cons_eval f3 env "test" _ _ "B" [] _ _
      (load_inc_defsdoc env "test" "B" bdefs adefs hrB f3 (by omega) _
        (dupdate [] adefs) rfl hmB hmA hs2 hs3)]
    rw [load_file_incs_nil]
  · intro k v hk
    exact dget_dupdate_get adefs _ k v hk hdkA
  · intro k v hka hkb
    rw [dget_dupdate_none adefs _ k hka]
    exact dget_dupdate_get bdefs _ k v hkb hdkB
  · -- D2 with its own defs
    obtain ⟨f1, rfl⟩ : ∃ f1, f = f1 + 1 := ⟨f - 1, by omega⟩
    simp only [load_file, hD2]
    rw [show dpop [("include", Value.list [.str "A", .str "B"]),
          ("defs", Value.dict ddefs)] "include" .vnull
        = (.list [.str "A", .str "B"], [("defs", .dict ddefs)])
      by simp +decide [dpop, dget]]
    simp only [pyTruthy, List.isEmpty_cons, Bool.not_false, if_true]
    obtain ⟨f2, rfl⟩ : ∃ f2, f1 = f2 + 1 := ⟨f1 - 1, by omega⟩
    rw [load_file_incs_cons_eval f2 env "test" [("defs", .dict ddefs)] {} "A"
      [.str "B"] _ _
      (load_inc_defsdoc env "test" "A" adefs ddefs hrA f2 (by omega) {} [] rfl
        hmA hmD hs1 hs2d)]
    obtain ⟨f3, rfl⟩ : ∃ f3, f2 = f3 + 1 := ⟨f2 - 1, by omega⟩
    rw [load_file_incs_cons_eval f3 env "test" _ _ "B" [] _ _
      (load_inc_defsdoc env "test" "B" bdefs ddefs hrB f3 (by omega) _
        (dupdate (dupdate [] adefs) ddefs) rfl hmB hmD hs3d hs4d)]
    rw [load_file_incs_nil]
  · intro k v hk hdkD
    exact dget_dupdate_get ddefs _ k v hk hdkD
  · intro k v hkd hkb
    rw [dget_dupdate_none ddefs _ k hkd]
    exact dget_dupdate_get bdefs _ k v hkb hdkB
  · intro k v hkd hkb hka
    rw [dget_dupdate_none ddefs _ k hkd, dget_dupdate_none bdefs _ k hkb,
      dget_dupdate_none ddefs _ k hkd]
    exact dget_dupdate_get adefs _ k v hka hdkA

end OSImager

namespace OSImager

/-- Concrete loader environment for the C1 counterexample: A and B both
set defs keys `x` and `y`; D includes `[A, B]` without its own defs; D2
additionally sets `x` itself. -/
def envC1 : LoadEnv :=
  { readJson := fun p =>
      if p = "data/test/A.json" then
        some [("defs", .dict [("x", .str "a"), ("y", .str "ya")])]
      else if p = "data/test/B.json" then
        some [("defs", .dict [("x", .str "b"), ("y", .str "yb")])]
      else if p = "data/test/D.json" then
        some [("include", .list [.str "A", .str "B"])]
      else if p = "data/test/D2.json" then
        some [("include", .list [.str "A", .str "B"]),
          ("defs", .dict [("x", .str "d")])]
      else none }

/-- C1 counterexample: loading D (includes `[A, B]`, no own defs) leaves
`x = "a"` and `y = "ya"` — A's values — although both keys are also set
by B, contradicting the claimed "D's value if D sets it, else B's, else
A's" (which predicts `x = "b"`, `y = "yb"`). -/
theorem C1_counterexample :
    (load_file 20 envC1 "test" "data/test/D.json" {}).map (fun r => r.2.defs)
      = some (.dict [("x", .str "a"), ("y", .str "ya")]) ∧
    ¬(Value.dict [("x", .str "a"), ("y", .str "ya")]
        = .dict [("x", .str "b"), ("y", .str "yb")]) := by
  constructor
  · decide
  · decide

/-- C1 witness: the amended composition theorem applied to the concrete
environment (D2 branch: D's own `x` wins, B's `y` wins). -/
theorem C1_include_composition_witness :
    load_file 20 envC1 "test" "data/test/D2.json" {}
      = some ([("defs", .dict [("x", .str "d")])],
          { defs := .dict (dupdate (dupdate (dupdate (dupdate []
              [("x", .str "a"), ("y", .str "ya")]) [("x", .str "d")])
              [("x", .str "b"), ("y", .str "yb")]) [("x", .str "d")]) }) :=
  ((C1_include_composition envC1
      [("x", .str "a"), ("y", .str "ya")]
      [("x", .str "b"), ("y", .str "yb")]
      [("x", .str "d")] 20 (by omega) (by decide) (by decide) (by decide)
      (by decide) (by decide) (by decide) (by decide) (by decide)
      (by decide) (by decide) (by decide) (by decide) (by decide)).2).1

end OSImager

namespace OSImager

/-! ## C4: `_specific` entries gate on a case-insensitive full match -/

theorem filter_ne_key (cat : String) : ∀ (d : Dict),
    (∀ kv ∈ d, ¬(kv.1 = cat)) → d.filter (fun kv => kv.1 ≠ cat) = d := by
  intro d
  induction d with
  | nil => intro _; rfl
  | cons kv rest ih =>
    intro h
    simp only [List.filter]
    rw [decide_eq_true (h kv (List.mem_cons_self _ _)),
      ih (fun x hx => h x (List.mem_cons_of_mem _ hx))]

theorem dpop_entry (cat pat : String) (ed2 : Dict)
    (hed2 : ∀ kv ∈ ed2, ¬(kv.1 = cat)) :
    dpop ((cat, .str pat) :: ed2) cat (.str "") = (.str pat, ed2) := by
  unfold dpop
  rw [show dget ((cat, Value.str pat) :: ed2) cat = some (.str pat)
      by simp [dget]]
  rw [show ((cat, Value.str pat) :: ed2).filter (fun kv => kv.1 ≠ cat)
      = ed2.filter (fun kv => kv.1 ≠ cat) by simp [List.filter]]
  rw [filter_ne_key cat ed2 hed2]

/-- C4: a `{category}_specific` entry is applied exactly when its popped
category pattern full-matches (case-insensitively) the current name; the
match is a full-string comparison, so `rhel8` does not match `rhel85`;
and on a match the entry body goes through the full recursive `load_data`
(which itself re-runs the `_specific` machinery on the entry's own nested
sections). `re_fullmatch_ci` models `re.fullmatch(..., re.IGNORECASE)` on
metacharacter-free patterns, hence the `regexIsLiteral` hypothesis. -/
theorem C4_specific_fullmatch (env : LoadEnv) (f : Nat) (cat nm pat : String)
    (ed2 : Dict) (hed2 : ∀ kv ∈ ed2, ¬(kv.1 = cat)) (ctx : Ctx)
    (hlit : regexIsLiteral pat = true) :
    (re_fullmatch_ci pat nm = true ↔ pyLower pat = pyLower nm) ∧
    (re_fullmatch_ci pat nm = true →
      load_specific_entries (f + 1) env cat (.str nm) ctx
          [.dict ((cat, .str pat) :: ed2)]
        = match load_data f env ed2 ctx with
          | some (ed3, ctx2) => some ([.dict ed3], ctx2)
          | none => none) ∧
    (re_fullmatch_ci pat nm = false →
      load_specific_entries (f + 1) env cat (.str nm) ctx
          [.dict ((cat, .str pat) :: ed2)]
        = some ([.dict ed2], ctx)) ∧
    re_fullmatch_ci "rhel8" "rhel85" = false := by
  refine ⟨?_, ?_, ?_, by decide⟩
  · unfold re_fullmatch_ci
    exact beq_iff_eq
  · intro hmatch
    simp only [load_specific_entries, dpop_entry cat pat ed2 hed2, hmatch,
      if_true]
  · intro hmatch
    simp only [load_specific_entries, dpop_entry cat pat ed2 hed2, hmatch,
      Bool.false_eq_true, if_false]

/-- Loader environment for the C4 witness (never consulted). -/
def envC4 : LoadEnv := { readJson := fun _ => none }

/-- C4 witness: `rhel8` does not full-match `rhel85`, and the entry with
pattern `rhel8` is skipped (its body kept unapplied, context unchanged)
against the name `rhel85`. -/
theorem C4_specific_fullmatch_witness :
    re_fullmatch_ci "rhel8" "rhel85" = false ∧
    load_specific_entries 10 envC4 "dist" (.str "rhel85") {}
        [.dict [("dist", .str "rhel8"), ("defs", .dict [("x", .str "1")])]]
      = some ([.dict [("defs", .dict [("x", .str "1")])]], {}) :=
  ⟨by decide,
    (C4_specific_fullmatch envC4 9 "dist" "rhel85" "rhel8"
      [("defs", .dict [("x", .str "1")])] (by decide) {} (by decide)).2.2.1
      (by decide)⟩

end OSImager

namespace OSImager

/-! ## C7: the spec catalog of `make_index` -/

theorem strLtChars_asymm : ∀ a b : List Char,
    strLtChars a b = true → strLtChars b a = false := by
  intro a
  induction a with
  | nil =>
    intro b h
    cases b with
    | nil => exact absurd h (by simp [strLtChars])
    | cons c cs => simp [strLtChars]
  | cons x xs ih =>
    intro b h
    cases b with
    | nil => exact absurd h (by simp [strLtChars])
    | cons y ys =>
      simp only [strLtChars] at h ⊢
      by_cases h1 : x.toNat < y.toNat
      · rw [if_neg (by omega), if_pos h1]
      · rw [if_neg h1] at h
        by_cases h2 : y.toNat < x.toNat
        · rw [if_pos h2] at h
          exact absurd h (by simp)
        · rw [if_neg h2] at h
          rw [if_neg h2, if_neg h1]
          exact ih ys h

theorem nkElemLt_asymm : ∀ a b : String ⊕ Nat,
    nkElemLt a b = true → nkElemLt b a = false := by
  intro a b h
  cases a with
  | inl sa =>
    cases b with
    | inl sb => exact strLtChars_asymm sa.data sb.data h
    | inr nb => rfl
  | inr na =>
    cases b with
    | inl sb => rfl
    | inr nb =>
      simp only [nkElemLt, decide_eq_true_eq] at h
      simp only [nkElemLt, decide_eq_false_iff_not]
      omega

theorem nkLt_asymm : ∀ a b : List (String ⊕ Nat),
    nkLt a b = true → nkLt b a = false := by
  intro a
  induction a with
  | nil =>
    intro b h
    cases b with
    | nil => exact absurd h (by simp [nkLt])
    | cons c cs => simp [nkLt]
  | cons x xs ih =>
    intro b h
    cases b with
    | nil => exact absurd h (by simp [nkLt])
    | cons y ys =>
      simp only [nkLt] at h ⊢
      by_cases h1 : nkElemLt x y = true
      · rw [nkElemLt_asymm x y h1, if_pos h1]
        simp
      · rw [if_neg (by simp [Bool.not_eq_true] at h1; simp [h1])] at h
        by_cases h2 : nkElemLt y x = true
        · rw [if_pos h2] at h
          exact absurd h (by simp)
        · rw [if_neg h2] at h
          rw [if_neg h2, if_neg (by simp [Bool.not_eq_true] at h1; simp [h1])]
          exact ih ys h

theorem natLtKey_asymm (a b : String) (h : natLtKey a b = true) :
    natLtKey b a = false :=
  nkLt_asymm _ _ h

theorem chain_pyInsertBy {α : Type} (lt : α → α → Bool)
    (hasymm : ∀ a b, lt a b = true → lt b a = false) (x : α) :
    ∀ l : List α, List.Chain' (fun a b => lt b a = false) l →
      List.Chain' (fun a b => lt b a = false) (pyInsertBy lt x l) := by
  intro l
  induction l with
  | nil => intro _; simp [pyInsertBy]
  | cons y ys ih =>
    intro h
    rw [List.chain'_cons'] at h
    obtain ⟨hy, hys⟩ := h
    unfold pyInsertBy
    by_cases hxy : lt x y = true
    · rw [if_pos hxy]
      rw [List.chain'_cons]
      exact ⟨hasymm x y hxy, List.chain'_cons'.mpr ⟨hy, hys⟩⟩
    · rw [if_neg hxy]
      rw [List.chain'_cons']
      refine ⟨?_, ih hys⟩
      intro z hz
      cases ys with
      | nil =>
        simp [pyInsertBy] at hz
        subst hz
        simpa using hxy
      | cons w ws =>
        unfold pyInsertBy at hz
        by_cases hxw : lt x w = true
        · rw [if_pos hxw] at hz
          simp at hz
          subst hz
          simpa using hxy
        · rw [if_neg hxw] at hz
          simp at hz
          subst hz
          exact hy w rfl

theorem chain_pySortBy {α : Type} (lt : α → α → Bool)
    (hasymm : ∀ a b, lt a b = true → lt b a = false) (l : List α) :
    List.Chain' (fun a b => lt b a = false) (pySortBy lt l) := by
  unfold pySortBy
  have haux : ∀ (l2 : List α) (acc : List α),
      List.Chain' (fun a b => lt b a = false) acc →
      List.Chain' (fun a b => lt b a = false)
        (l2.foldl (fun acc x => pyInsertBy lt x acc) acc) := by
    intro l2
    induction l2 with
    | nil => intro acc h; exact h
    | cons x xs ih =>
      intro acc h
      simp only [List.foldl_cons]
      exact ih _ (chain_pyInsertBy lt hasymm x acc h)
  exact haux l [] (by simp)

end OSImager

namespace OSImager

theorem foldlMopt_id {α β : Type} (f : β → α → Option β) :
    ∀ (l : List α), (∀ a ∈ l, ∀ b, f b a = some b) →
      ∀ b, foldlMopt f b l = some b := by
  intro l
  induction l with
  | nil => intro _ b; rfl
  | cons a rest ih =>
    intro h b
    simp only [foldlMopt, h a (List.mem_cons_self _ _) b]
    exact ih (fun x hx b2 => h x (List.mem_cons_of_mem _ hx) b2) b

/-- C7: the catalog of `make_index`. (1) the returned catalog is ordered
by the natural digit-aware key ordering; (2) provides entries whose arch
is NOT among the arches collected from the platform/location documents
are silently dropped (no entry is produced for those (version, arch)
pairs); (3) an entry whose arch is collected is stored under the key
`dist-version-arch`; (4) storing twice under one key keeps the last
write; (5) a `version_specific` entry supplies the arch override exactly
when its version pattern full-matches — stated, as everywhere
`re_fullmatch_ci` models `re.fullmatch(..., re.IGNORECASE)`, only for
metacharacter-free patterns (`regexIsLiteral`). -/
theorem C7_make_index (env : CatalogEnv) :
    (∀ index, make_index env = some index →
      List.Chain' (fun a b => natLtKey b.1 a.1 = false) index) ∧
    (∀ (arches : List Value) (fileName : String) (data : Dict) (index : Dict)
        (entries : List Dict),
      spec_get_provides data = some entries →
      (∀ e ∈ entries, arches.contains ((dget e "arch").getD (.str "")) = false) →
      indexEntries env arches fileName data index = some index) ∧
    (∀ (arches : List Value) (fileName : String) (data : Dict) (index : Dict)
        (entry : Dict) (d v a : String) (u : Option String),
      spec_get_provides data = some [entry] →
      dget entry "dist" = some (.str d) →
      dget entry "version" = some (.str v) →
      dget entry "arch" = some (.str a) →
      arches.contains (.str a) = true →
      resolve_iso_url data v a = some u →
      indexEntries env arches fileName data index
        = some (dset index (d ++ "-" ++ v ++ "-" ++ a)
            (.dict [("provides", .dict entry), ("path", .str fileName),
              ("iso_local", .bool (match u with
                | some url => env.check_iso_local url
                | none => false))]))) ∧
    (∀ (idx : Dict) (k : String) (v1 v2 : Value),
      dget (dset (dset idx k v1) k v2) k = some v2) ∧
    (∀ (vd : Dict) (version pat : String) (av : Value),
      regexIsLiteral pat = true →
      dget vd "version" = some (.str pat) →
      dget vd "arches" = some av → pyTruthy av = true →
      (re_fullmatch_ci pat version = true →
        versionSpecificArches [.dict vd] version = some av) ∧
      (re_fullmatch_ci pat version = false →
        versionSpecificArches [.dict vd] version = some .vnull)) := by
  refine ⟨?_, ?_, ?_, ?_, ?_⟩
  · intro index h
    simp only [make_index] at h
    cases hp : collectArches env.platforms [] with
    | none => simp only [hp] at h; exact Option.noConfusion h
    | some platArches =>
      simp only [hp] at h
      cases hl : collectArches env.locations platArches with
      | none => simp only [hl] at h; exact Option.noConfusion h
      | some arches =>
        simp only [hl] at h
        cases hf : foldlMopt (fun idx fd => indexEntries env arches fd.1 fd.2 idx)
            [] env.specFiles with
        | none => simp only [hf] at h; exact Option.noConfusion h
        | some index0 =>
          simp only [hf, Option.some.injEq] at h
          subst h
          rw [List.chain'_map]
          exact chain_pySortBy natLtKey natLtKey_asymm _
  · intro arches fileName data index entries hprov hdrop
    unfold indexEntries
    rw [hprov]
    apply foldlMopt_id
    intro e he idx
    exact if_neg (by simpa using hdrop e he)
  · intro arches fileName data index entry d v a u hprov hd hv ha hc hiso
    unfold indexEntries
    rw [hprov]
    simp only [foldlMopt, ha, hd, hv, hiso, Option.getD_some]
    rw [if_pos (by simpa using hc)]
  · intro idx k v1 v2
    exact dget_dset_self (dset idx k v1) k v2
  · intro vd version pat av hlit hpat hav htr
    constructor
    · intro hmatch
      simp [versionSpecificArches, foldlMopt, hpat, hav, htr, hmatch]
    · intro hmatch
      simp [versionSpecificArches, foldlMopt, hpat, hmatch]

end OSImager

namespace OSImager

/-- Spec document for the C7 counterexample: provides versions `[1-2]` on
arches `x86_64` and `sparc`. -/
def specC7 : Dict :=
  [("provides", .dict [("dist", .str "c"), ("versions", .list [.str "[1-2]"]),
    ("arches", .list [.str "x86_64", .str "sparc"])])]

/-- Catalog environment for the C7 counterexample: only `x86_64` appears
in the platform documents. -/
def catEnvC7 : CatalogEnv :=
  { platforms := [[("arches", .list [.str "x86_64"])]], locations := [],
    specFiles := [("f", specC7)] }

/-- C7 counterexample: the provides section yields the four
(version, arch) pairs including `sparc`, but the built catalog has keys
only for `x86_64` — entries whose arch is not collected from the
platform/location documents are dropped, contradicting "an entry for
every (version, arch) pair". -/
theorem C7_counterexample :
    (spec_get_provides specC7).map (fun es => es.map
        (fun e => (dget e "arch").getD .vnull))
      = some [.str "x86_64", .str "sparc", .str "x86_64", .str "sparc"] ∧
    (make_index catEnvC7).map (fun d => d.map Prod.fst)
      = some ["c-1-x86_64", "c-2-x86_64"] := by
  constructor
  · decide
  · decide

/-- C7 witness: the built catalog for the concrete environment is ordered
by the natural key ordering, and a full-matching `version_specific` entry
supplies its arches override. -/
theorem C7_make_index_witness :
    List.Chain' (fun a b => natLtKey b.1 a.1 = false)
      ((make_index catEnvC7).getD []) ∧
    versionSpecificArches
        [.dict [("version", .str "85"), ("arches", .list [.str "arm64"])]] "85"
      = some (.list [.str "arm64"]) :=
  ⟨(C7_make_index catEnvC7).1 _ (by decide),
   ((C7_make_index catEnvC7).2.2.2.2
      [("version", .str "85"), ("arches", .list [.str "arm64"])]
      "85" "85" (.list [.str "arm64"]) (by decide) (by decide) (by decide)
      (by decide)).1 (by decide)⟩

end OSImager
